import Mathlib

/-!
Shallow embedding of the process-manager simulator (manager.c and its
headers).  Processes (PCBs) live in a heap addressed by numeric pids; the
`next` field of a PCB is its intrusive singly-linked queue link, exactly as
in the C `pcb_t`.  The three scheduler queues hold `first`/`last` pid
pointers.  Loops that follow `next` pointers take explicit fuel (the C code
can build cyclic queues and then loop forever); running out of fuel is the
`outOfFuel` outcome.  Resource handles held by a process are identified by
resource name (the C stores a copy of the ledger record; only the name is
ever consulted again).
-/

namespace ProcMgr

/-- `state_t` from proc_structs.h. -/
inductive state_t
  | NEW
  | READY
  | RUNNING
  | WAITING
  | TERMINATED
deriving DecidableEq, Repr

/-- `instr_types_t` from proc_structs.h. -/
inductive instr_types_t
  | REQ_OP
  | REL_OP
  | SEND_OP
  | RECV_OP
deriving DecidableEq, Repr

/-- `instr_t`: one instruction; the linked list of instructions is a Lean
list (the cursor `next_instruction` is the remaining suffix). -/
structure instr_t where
  type : instr_types_t
  resource_name : String
  msg : String := ""
deriving DecidableEq, Repr

/-- `resource_t` ledger record: name and availability flag
(`available = true` is `YES`). -/
structure resource_t where
  name : String
  available : Bool
deriving DecidableEq, Repr

/-- Heap address of a PCB. -/
abbrev Pid := Nat

/-- `pcb_t`: `resources` is the held-handle list (names, head =
most-recently acquired); `next` is the intrusive queue link. -/
structure pcb_t where
  name : String
  state : state_t
  next_instruction : List instr_t
  priority : Int
  resources : List String
  next : Option Pid
deriving DecidableEq, Repr

/-- `pcb_queue_t` from manager.h. -/
structure pcb_queue_t where
  first : Option Pid
  last : Option Pid
deriving DecidableEq, Repr

/-- `schedule_t` from manager.h: `PRIOR = 0, RR, FCFS`. -/
inductive schedule_t
  | PRIOR
  | RR
  | FCFS
deriving DecidableEq, Repr

/-- One line of the event log (logger.h). -/
inductive Event
  | acquired (p r : String)
  | evWaiting (p r : String)
  | evReady (p : String)
  | released (p r : String)
  | releaseError (p r : String)
  | evTerminated (p : String)
  | deadlockDetected
deriving DecidableEq, Repr

/-- Abnormal outcomes of running the embedded code: a pointer-chasing loop
that exhausts its fuel (the C loops forever on cyclic queues), a NULL
dereference, or a read through a dangling pid (never happens in real runs). -/
inductive Crash
  | outOfFuel
  | nullDeref
  | invalidPid
deriving DecidableEq, Repr

/-- The mutable globals of manager.c plus the external loader state:
`arrivals` is the stream of pids `get_new_pcb` will hand out, one per call. -/
structure SysState where
  heap : List pcb_t
  readyq : pcb_queue_t
  waitingq : pcb_queue_t
  terminatedq : pcb_queue_t
  resources : List resource_t
  arrivals : List Pid
  events : List Event
deriving DecidableEq, Repr

/-- Read a PCB out of the heap. -/
def hget (h : List pcb_t) (p : Pid) : Option pcb_t := h[p]?

/-- Write a PCB back to the heap. -/
def hset (h : List pcb_t) (p : Pid) (pc : pcb_t) : List pcb_t := h.set p pc

/-- Read a PCB, crashing on a dangling pid. -/
def hread (h : List pcb_t) (p : Pid) : Except Crash pcb_t :=
  match hget h p with
  | some pc => .ok pc
  | none => .error .invalidPid

/-- Append an event to the log. -/
def logEvent (e : Event) (s : SysState) : SysState :=
  { s with events := s.events ++ [e] }

/-- `enqueue_pcb` (manager.c): NULL checks, clear the link of the enqueued
node, then append at the tail.  If the queue is non-empty but its `last`
pointer is NULL the C dereferences NULL. -/
def enqueue_pcb (pcb : Option Pid) (queue : Option pcb_queue_t) (h : List pcb_t) :
    Except Crash (Option pcb_queue_t × List pcb_t) :=
  match pcb, queue with
  | none, _ => .ok (queue, h)
  | some _, none => .ok (queue, h)
  | some p, some q => do
    let pc ← hread h p
    let h := hset h p { pc with next := none }
    match q.first with
    | none => .ok (some ⟨some p, some p⟩, h)
    | some _ =>
      match q.last with
      | none => .error .nullDeref
      | some l => do
        let lc ← hread h l
        .ok (some ⟨q.first, some p⟩, hset h l { lc with next := some p })

/-- `dequeue_pcb` (manager.c): return NULL on an absent or empty queue,
otherwise unlink and return the head with its link cleared; `last` is
reset to NULL when the queue empties. -/
def dequeue_pcb (queue : Option pcb_queue_t) (h : List pcb_t) :
    Except Crash (Option Pid × Option pcb_queue_t × List pcb_t) :=
  match queue with
  | none => .ok (none, queue, h)
  | some q =>
    match q.first with
    | none => .ok (none, some q, h)
    | some p => do
      let pc ← hread h p
      let q' : pcb_queue_t := ⟨pc.next, if pc.next = none then none else q.last⟩
      .ok (some p, some q', hset h p { pc with next := none })

/-- Selector for the three static queues of manager.c. -/
inductive QueueId
  | readyQ
  | waitingQ
  | termQ
deriving DecidableEq, Repr

def getQ (s : SysState) : QueueId → pcb_queue_t
  | .readyQ => s.readyq
  | .waitingQ => s.waitingq
  | .termQ => s.terminatedq

def setQ (s : SysState) : QueueId → pcb_queue_t → SysState
  | .readyQ, q => { s with readyq := q }
  | .waitingQ, q => { s with waitingq := q }
  | .termQ, q => { s with terminatedq := q }

/-- Enqueue into one of the global queues (the C passes `&readyq` etc.). -/
def enq (qid : QueueId) (p : Pid) (s : SysState) : Except Crash SysState := do
  let (q', h') ← enqueue_pcb (some p) (some (getQ s qid)) s.heap
  match q' with
  | some q' => .ok (setQ { s with heap := h' } qid q')
  | none => .error .nullDeref

/-- Direct state-field write (`proc->state = ...` in the schedulers). -/
def setState (p : Pid) (st : state_t) (s : SysState) : Except Crash SysState := do
  let pc ← hread s.heap p
  .ok { s with heap := hset s.heap p { pc with state := st } }

/-- `move_proc_to_rq`: state to READY, enqueue on ready, log "ready". -/
def move_proc_to_rq (p : Option Pid) (s : SysState) : Except Crash SysState :=
  match p with
  | none => .ok s
  | some p => do
    let pc ← hread s.heap p
    let s := { s with heap := hset s.heap p { pc with state := .READY } }
    let s ← enq .readyQ p s
    .ok (logEvent (.evReady pc.name) s)

/-- `move_proc_to_wq`: state to WAITING, enqueue on waiting, log "waiting". -/
def move_proc_to_wq (p : Option Pid) (rn : String) (s : SysState) : Except Crash SysState :=
  match p with
  | none => .ok s
  | some p => do
    let pc ← hread s.heap p
    let s := { s with heap := hset s.heap p { pc with state := .WAITING } }
    let s ← enq .waitingQ p s
    .ok (logEvent (.evWaiting pc.name rn) s)

/-- `move_proc_to_tq`: state to TERMINATED, enqueue on terminated, log. -/
def move_proc_to_tq (p : Option Pid) (s : SysState) : Except Crash SysState :=
  match p with
  | none => .ok s
  | some p => do
    let pc ← hread s.heap p
    let s := { s with heap := hset s.heap p { pc with state := .TERMINATED } }
    let s ← enq .termQ p s
    .ok (logEvent (.evTerminated pc.name) s)

/-- `get_new_pcb` (loader): hands out the next newly arrived process, one
per call, or NULL. -/
def get_new_pcb (s : SysState) : Option Pid × SysState :=
  match s.arrivals with
  | [] => (none, s)
  | p :: rest => (some p, { s with arrivals := rest })

/-- `check_for_new_arrivals`: poll the loader; a new process is moved to
the ready queue.  Returns whether a process arrived. -/
def check_for_new_arrivals (s : SysState) : Except Crash (Bool × SysState) := do
  let (new_pcb, s) := get_new_pcb s
  match new_pcb with
  | some p => do
    let s ← move_proc_to_rq (some p) s
    .ok (true, s)
  | none => .ok (false, s)

/-- `mark_resource_as_available`: set the first ledger record with this
name back to YES (then break). -/
def mark_resource_as_available (rn : String) : List resource_t → List resource_t
  | [] => []
  | r :: rs =>
    if r.name == rn then { r with available := true } :: rs
    else r :: mark_resource_as_available rn rs

/-- `is_resource_available`: availability flag of the first ledger record
with this name; FALSE when no record matches. -/
def is_resource_available (rn : String) : List resource_t → Bool
  | [] => false
  | r :: rs => if r.name == rn then r.available else is_resource_available rn rs

/-- `is_waiting_for_resource`: the process is WAITING and some instruction
in its remaining instruction list is a request for `rn`.  (The C scans the
whole remaining list from `next_instruction`, not only the pending head.) -/
def is_waiting_for_resource (h : List pcb_t) (pcb : Option Pid) (rn : Option String) : Bool :=
  match pcb, rn with
  | some p, some rn =>
    match hget h p with
    | none => false
    | some pc =>
      pc.state == .WAITING &&
        pc.next_instruction.any fun i => i.type == .REQ_OP && i.resource_name == rn
  | _, _ => false

/-- `INT_MIN` of a 32-bit C int. -/
def INT_MIN : Int := -(2 ^ 31)

/-- Ready-queue scan of `find_highest_priority_proc`: keep the first node
whose priority strictly exceeds the best seen so far. -/
def fhpp_loop (h : List pcb_t) : Nat → Option Pid → Option Pid → Int → Except Crash (Option Pid)
  | _, none, best, _ => .ok best
  | 0, some _, _, _ => .error .outOfFuel
  | fuel + 1, some c, best, bestPri => do
    let cc ← hread h c
    if bestPri < cc.priority then fhpp_loop h fuel cc.next (some c) cc.priority
    else fhpp_loop h fuel cc.next best bestPri

/-- `find_highest_priority_proc`. -/
def find_highest_priority_proc (fuel : Nat) (s : SysState) : Except Crash (Option Pid) :=
  fhpp_loop s.heap fuel s.readyq.first none INT_MIN

/-- Scan of `remove_proc_from_readyq`: find the node whose `next` is the
process being removed. -/
def rpfr_scan (h : List pcb_t) (proc : Pid) : Nat → Option Pid → Except Crash (Option Pid)
  | _, none => .ok none
  | 0, some _ => .error .outOfFuel
  | fuel + 1, some c => do
    let cc ← hread h c
    if cc.next = some proc then .ok (some c)
    else rpfr_scan h proc fuel cc.next

/-- Unlink step of `remove_proc_from_readyq`: drop the process from the
head, or splice it out after scanning for its predecessor (a process not
found leaves the queue untouched). -/
def rpfr_unlink (p f : Pid) (fuel : Nat) (s : SysState) : Except Crash SysState :=
  if f = p then do
    let pc ← hread s.heap p
    let rq : pcb_queue_t :=
      ⟨pc.next, if s.readyq.last = some p then none else s.readyq.last⟩
    .ok { s with readyq := rq }
  else do
    let found ← rpfr_scan s.heap p fuel (some f)
    match found with
    | none => .ok s
    | some c => do
      let cc ← hread s.heap c
      let pc ← hread s.heap p
      let h := hset s.heap c { cc with next := pc.next }
      let rq :=
        if s.readyq.last = some p then { s.readyq with last := some c } else s.readyq
      .ok { s with heap := h, readyq := rq }

/-- `remove_proc_from_readyq`: unlink a specific process from the ready
queue; its own link is cleared afterwards in every non-early-return path. -/
def remove_proc_from_readyq (proc : Option Pid) (fuel : Nat) (s : SysState) :
    Except Crash SysState :=
  match proc with
  | none => .ok s
  | some p =>
    match s.readyq.first with
    | none => .ok s
    | some f => do
      let s ← rpfr_unlink p f fuel s
      let pc ← hread s.heap p
      .ok { s with heap := hset s.heap p { pc with next := none } }

/-- Traversal of `move_waiting_pcbs_to_rq`: unlink every waiting process
that `is_waiting_for_resource` matches and move it to the ready queue. -/
def mwpr_loop (rn : String) : Nat → Option Pid → Option Pid → SysState → Except Crash SysState
  | _, _, none, s => .ok s
  | 0, _, some _, _ => .error .outOfFuel
  | fuel + 1, prev, some c, s => do
    if is_waiting_for_resource s.heap (some c) (some rn) then do
      let cc ← hread s.heap c
      let temp := cc.next
      let s ←
        match prev with
        | some pr => do
          let prc ← hread s.heap pr
          .ok { s with heap := hset s.heap pr { prc with next := cc.next } }
        | none => .ok { s with waitingq := { s.waitingq with first := cc.next } }
      let s :=
        if s.waitingq.last = some c then { s with waitingq := { s.waitingq with last := prev } }
        else s
      let cc2 ← hread s.heap c
      let s := { s with heap := hset s.heap c { cc2 with next := none } }
      let s ← move_proc_to_rq (some c) s
      mwpr_loop rn fuel prev temp s
    else do
      let cc ← hread s.heap c
      mwpr_loop rn fuel (some c) cc.next s

/-- `move_waiting_pcbs_to_rq`. -/
def move_waiting_pcbs_to_rq (rn : String) (fuel : Nat) (s : SysState) : Except Crash SysState :=
  mwpr_loop rn fuel none s.waitingq.first s

/-- The `canMoveToReady` test of `move_waiting_to_ready_based_on_resources`:
the process has a pending instruction and the resource that instruction
names is available (the instruction type is not examined). -/
def mwtr_can_move (pc : pcb_t) (res : List resource_t) : Bool :=
  match pc.next_instruction with
  | [] => false
  | i :: _ => is_resource_available i.resource_name res

/-- Loop of `move_waiting_to_ready_based_on_resources` (a pointer-to-pointer
traversal in C: the cursor is re-read from `prev` — or from `waitingq.first`
when `prev` is NULL — on every iteration). -/
def mwtr_loop : Nat → Option Pid → SysState → Except Crash SysState
  | 0, _, _ => .error .outOfFuel
  | fuel + 1, prev, s => do
    let cur ←
      match prev with
      | none => .ok s.waitingq.first
      | some pr => do
        let prc ← hread s.heap pr
        .ok prc.next
    match cur with
    | none => .ok s
    | some c => do
        let pc ← hread s.heap c
        if mwtr_can_move pc s.resources then do
          let s ←
            match prev with
            | some pr => do
              let prc ← hread s.heap pr
              .ok { s with heap := hset s.heap pr { prc with next := pc.next } }
            | none => .ok { s with waitingq := { s.waitingq with first := pc.next } }
          let s :=
            if s.waitingq.last = some c then
              { s with waitingq := { s.waitingq with last := prev } }
            else s
          let s ← move_proc_to_rq (some c) s
          mwtr_loop fuel prev s
        else
          mwtr_loop fuel (some c) s

/-- `move_waiting_to_ready_based_on_resources`: move every waiting process
whose pending instruction names an available resource (the instruction type
is not checked by the C) to the ready queue. -/
def move_waiting_to_ready_based_on_resources (fuel : Nat) (s : SysState) :
    Except Crash SysState :=
  mwtr_loop fuel none s

/-- `detect_deadlock` only logs. -/
def detect_deadlock (s : SysState) : SysState := logEvent .deadlockDetected s

/-- `check_deadlock`: ready empty and waiting non-empty. -/
def check_deadlock (s : SysState) : Bool × SysState :=
  if s.readyq.first = none ∧ s.waitingq.first ≠ none then (true, detect_deadlock s)
  else (false, s)

/-- `higher_priority`: strictly greater wins. -/
def higher_priority (pri1 pri2 : Int) : Bool :=
  if pri1 > pri2 then true else false

/-- Ledger scan of `request_resource`: acquire (mark NO) at the first
record that matches the name and is available; a matching but unavailable
record does not stop the scan. -/
def request_scan : List resource_t → String → Option (List resource_t)
  | [], _ => none
  | r :: rs, rn =>
    if r.name == rn && r.available then some ({ r with available := false } :: rs)
    else (request_scan rs rn).map (r :: ·)

/-- `request_resource`: on success mark the record unavailable, head-insert
a handle into the process's held list and log "acquired"; otherwise move
the process to the waiting queue. -/
def request_resource (cur_pcb : Pid) (instr : instr_t) (s : SysState) :
    Except Crash SysState := do
  let pc ← hread s.heap cur_pcb
  match request_scan s.resources instr.resource_name with
  | some res2 =>
    let s := { s with resources := res2 }
    let s := { s with
      heap := hset s.heap cur_pcb
        { pc with resources := instr.resource_name :: pc.resources } }
    .ok (logEvent (.acquired pc.name instr.resource_name) s)
  | none => move_proc_to_wq (some cur_pcb) instr.resource_name s

/-- Held-list scan of `release_resource`: drop the first handle matching
the name. -/
def release_scan : List String → String → Option (List String)
  | [], _ => none
  | r :: rs, rn => if r == rn then some rs else (release_scan rs rn).map (r :: ·)

/-- `release_resource`: on success unlink the handle, mark the ledger
record available, log "released" and wake waiting processes; otherwise log
the release error and do nothing else. -/
def release_resource (p : Pid) (instr : instr_t) (fuel : Nat) (s : SysState) :
    Except Crash SysState := do
  let pc ← hread s.heap p
  match release_scan pc.resources instr.resource_name with
  | some held2 =>
    let s := { s with heap := hset s.heap p { pc with resources := held2 } }
    let s := { s with resources := mark_resource_as_available instr.resource_name s.resources }
    let s := logEvent (.released pc.name instr.resource_name) s
    move_waiting_pcbs_to_rq instr.resource_name fuel s
  | none => .ok (logEvent (.releaseError pc.name instr.resource_name) s)

/-- `execute_instr`: dispatch on the instruction type; after a release the
resource-based waiting-to-ready sweep always runs; SEND/RECV fall through;
a NULL instruction only prints an error. -/
def execute_instr (p : Pid) (instr : Option instr_t) (fuel : Nat) (s : SysState) :
    Except Crash SysState :=
  match instr with
  | some i =>
    match i.type with
    | .REQ_OP => request_resource p i s
    | .REL_OP => do
      let s ← release_resource p i fuel s
      move_waiting_to_ready_based_on_resources fuel s
    | _ => .ok s
  | none => .ok s

/-- Inner instruction loop of `schedule_fcfs` for the dequeued process:
run instructions in order; when the process went WAITING it is moved to
the waiting queue (a second time — `request_resource` already did) and the
loop breaks; when the cursor is exhausted and the process is not WAITING
it is moved to the terminated queue. -/
def fcfs_inner (p : Pid) (fuel : Nat) : List instr_t → SysState → Except Crash SysState
  | [], s => do
    let pc ← hread s.heap p
    if pc.state ≠ .WAITING then move_proc_to_tq (some p) s else .ok s
  | i :: rest, s => do
    let s ← execute_instr p (some i) fuel s
    let (_, s) ← check_for_new_arrivals s
    let pc ← hread s.heap p
    if pc.state = .WAITING then
      move_proc_to_wq (some p) i.resource_name s
    else do
      let s := { s with heap := hset s.heap p { pc with next_instruction := rest } }
      fcfs_inner p fuel rest s

/-- Outer loop of `schedule_fcfs`: dequeue the ready head, run it. -/
def fcfs_loop (fuel : Nat) (s : SysState) : Except Crash SysState :=
  match fuel with
  | 0 => .error .outOfFuel
  | fuel + 1 =>
    match s.readyq.first with
    | none => .ok s
    | some _ => do
      let (popt, q', h') ← dequeue_pcb (some s.readyq) s.heap
      let s := { s with heap := h', readyq := q'.getD s.readyq }
      match popt with
      | none => .ok s
      | some p => do
        let s ← setState p .RUNNING s
        let pc ← hread s.heap p
        let s ← fcfs_inner p fuel pc.next_instruction s
        fcfs_loop fuel s

/-- `schedule_fcfs`. -/
def schedule_fcfs (fuel : Nat) (s : SysState) : Except Crash SysState :=
  fcfs_loop fuel s

/-- The preemption block of `schedule_pri_w_pre` (it appears verbatim twice
in the C: once guarded by a new arrival, once unconditionally). -/
def preempt_check (fuel : Nat) (cur : Option Pid) (s : SysState) :
    Except Crash (Option Pid × SysState) := do
  let hp ← find_highest_priority_proc fuel s
  match hp with
  | none => .ok (cur, s)
  | some h => do
    let hc ← hread s.heap h
    let doPreempt ←
      match cur with
      | none => pure true
      | some c => do
        let cc ← hread s.heap c
        pure (higher_priority hc.priority cc.priority)
    if doPreempt then do
      let s ←
        match cur with
        | some c => do
          let s ← setState c .READY s
          move_proc_to_rq (some c) s
        | none => .ok s
      let s ← remove_proc_from_readyq (some h) fuel s
      let s ← setState h .RUNNING s
      .ok (some h, s)
    else .ok (cur, s)

/-- Selection block of `schedule_pri_w_pre`: when there is no current
process, pick the highest-priority ready process, unlink it and mark it
RUNNING. -/
def pri_select_phase (fuel : Nat) (cur : Option Pid) (s : SysState) :
    Except Crash (Option Pid × SysState) :=
  match cur with
  | none => do
    let hp ← find_highest_priority_proc fuel s
    match hp with
    | some p => do
      let s ← remove_proc_from_readyq (some p) fuel s
      let s ← setState p .RUNNING s
      pure (some p, s)
    | none => pure ((none : Option Pid), s)
  | some c => pure (some c, s)

/-- Cursor block of `schedule_pri_w_pre`: advance the instruction cursor
when the process is still RUNNING, or — when the cursor is exhausted —
mark it TERMINATED and move it to the terminated queue, clearing the
current process. -/
def pri_cursor_phase (c : Pid) (s : SysState) : Except Crash (Option Pid × SysState) := do
  let pc2 ← hread s.heap c
  match pc2.next_instruction with
  | _ :: rest =>
    if pc2.state = .RUNNING then
      pure (some c, { s with heap := hset s.heap c { pc2 with next_instruction := rest } })
    else pure (some c, s)
  | [] => do
    let s ← setState c .TERMINATED s
    let s ← move_proc_to_tq (some c) s
    pure ((none : Option Pid), s)

/-- Execution block of `schedule_pri_w_pre`: run one instruction of a
RUNNING current process, poll arrivals, advance or terminate, then apply
the two preemption checks; a WAITING current process is simply dropped. -/
def pri_exec_phase (fuel : Nat) (cur : Option Pid) (s : SysState) :
    Except Crash (Option Pid × SysState) :=
  match cur with
  | some c => do
    let pc ← hread s.heap c
    if pc.state = .RUNNING then do
      let s ← execute_instr c pc.next_instruction.head? fuel s
      let (new_arrival, s) ← check_for_new_arrivals s
      let (cur, s) ← pri_cursor_phase c s
      let (cur, s) ← if new_arrival then preempt_check fuel cur s else pure (cur, s)
      let (cur, s) ← preempt_check fuel cur s
      pure (cur, s)
    else if pc.state = .WAITING then
      pure ((none : Option Pid), s)
    else
      pure (some c, s)
  | none => pure ((none : Option Pid), s)

/-- The selection/execution part of one `schedule_pri_w_pre` iteration
(everything before the natural-termination test and the deadlock check). -/
def pri_phases (fuel : Nat) (cur : Option Pid) (s : SysState) :
    Except Crash (Option Pid × SysState) := do
  let (cur, s) ← pri_select_phase fuel cur s
  let (cur, s) ← pri_exec_phase fuel cur s
  .ok (cur, s)

/-- One iteration of the `schedule_pri_w_pre` while-loop: the phases above,
then the natural-termination test (which polls for arrivals only when
everything is empty), then the deadlock check.  Returns the new current
process, the new state, and whether the loop breaks. -/
def pri_body (fuel : Nat) (cur : Option Pid) (s : SysState) :
    Except Crash (Option Pid × SysState × Bool) := do
  let (cur, s) ← pri_phases fuel cur s
  let (stop, s) ←
    match cur with
    | none =>
      if s.readyq.first = none ∧ s.waitingq.first = none then do
        let (arr, s) ← check_for_new_arrivals s
        pure (!arr, s)
      else pure (false, s)
    | some _ => pure (false, s)
  if stop then
    .ok (cur, s, true)
  else
    let (dl, s) := check_deadlock s
    .ok (cur, s, dl)

/-- While-loop of `schedule_pri_w_pre`. -/
def pri_loop (fuel : Nat) (cur : Option Pid) (s : SysState) : Except Crash SysState :=
  match fuel with
  | 0 => .error .outOfFuel
  | fuel + 1 =>
    if s.readyq.first ≠ none ∨ s.waitingq.first ≠ none ∨ cur ≠ none then do
      let (cur, s, brk) ← pri_body fuel cur s
      if brk then .ok s else pri_loop fuel cur s
    else .ok s

/-- `schedule_pri_w_pre`. -/
def schedule_pri_w_pre (fuel : Nat) (s : SysState) : Except Crash SysState :=
  pri_loop fuel none s

/-- `schedule_rr`: the body is empty — RR was not implemented. -/
def schedule_rr (_quantum : Int) (s : SysState) : SysState := s

/-- `schedule_processes`: PRIOR runs the priority scheduler; both RR and
FCFS run `schedule_fcfs` (the `schedule_rr(quantum)` call is commented
out in the C). -/
def schedule_processes (sched_type : schedule_t) (_quantum : Int) (fuel : Nat) (s : SysState) :
    Except Crash SysState :=
  match sched_type with
  | .PRIOR => schedule_pri_w_pre fuel s
  | .RR => schedule_fcfs fuel s
  | .FCFS => schedule_fcfs fuel s

/-- Link a list of freshly loaded PCBs into a chain starting at heap
address `base` (the loader links initial processes into one list that
`init_queues` adopts as the ready queue). -/
def chainLink (base : Nat) : List pcb_t → List pcb_t
  | [] => []
  | [p] => [{ p with next := none }]
  | p :: q :: rest => { p with next := some (base + 1) } :: chainLink (base + 1) (q :: rest)

/-- `init_queues` plus loader output: initial processes occupy heap
addresses `0..`, chained as the ready queue; later arrivals follow them in
the heap, unlinked, and are handed out by `get_new_pcb` in order. -/
def mkInitState (initial : List pcb_t) (arrivals : List pcb_t)
    (resources : List resource_t) : SysState :=
  { heap := chainLink 0 initial ++ arrivals.map (fun p => { p with next := none })
    readyq :=
      if initial.isEmpty then ⟨none, none⟩
      else ⟨some 0, some (initial.length - 1)⟩
    waitingq := ⟨none, none⟩
    terminatedq := ⟨none, none⟩
    resources := resources
    arrivals := List.range' initial.length arrivals.length
    events := [] }

/-- A freshly loaded process record. -/
def mkPcb (name : String) (priority : Int) (instrs : List instr_t) : pcb_t :=
  { name := name, state := .NEW, next_instruction := instrs, priority := priority
    resources := [], next := none }

/-- Request instruction. -/
def reqI (rn : String) : instr_t := { type := .REQ_OP, resource_name := rn }

/-- Release instruction. -/
def relI (rn : String) : instr_t := { type := .REL_OP, resource_name := rn }

/-- Fuel-bounded traversal of a queue chain: the pids reachable from a
head pointer by following `next` links, or `none` when the chain does not
end within the fuel (in particular on the cyclic queues the C can build). -/
def walk (h : List pcb_t) : Nat → Option Pid → Option (List Pid)
  | _, none => some []
  | 0, some _ => none
  | fuel + 1, some p =>
    match hget h p with
    | none => none
    | some pc => (walk h fuel pc.next).map (p :: ·)

/-! ## Example workloads used in the claim theorems -/

/-- FCFS workload: one process that blocks on a resource absent from the
(empty) catalog. -/
def exDeadFcfs : SysState := mkInitState [mkPcb "P1" 0 [reqI "R"]] [] []

/-- FCFS workload for the per-iteration witness: A releases an unheld
resource (non-fatal) and terminates; B arrives mid-run. -/
def exFcfsWit : SysState :=
  { heap := [{ name := "A", state := .READY, next_instruction := [relI "R"],
               priority := 0, resources := [], next := none },
             { name := "B", state := .NEW, next_instruction := [], priority := 0,
               resources := [], next := none }]
    readyq := ⟨some 0, some 0⟩
    waitingq := ⟨none, none⟩
    terminatedq := ⟨none, none⟩
    resources := []
    arrivals := [1]
    events := [] }

/-- Priority workload: P1 (priority 1) blocks on the missing resource X;
then Q (priority 5) arrives. -/
def exPreemptWaiting : SysState :=
  mkInitState [mkPcb "P1" 1 [reqI "X"]] [mkPcb "Q" 5 [reqI "R", relI "R"]]
    [⟨"R", true⟩]

/-- FCFS workload: P2 blocks on the missing resource X, then P1 releases a
resource it never acquired. -/
def exRelErr : SysState :=
  mkInitState [mkPcb "P2" 0 [reqI "X"], mkPcb "P1" 0 [relI "R"]] [] []

/-- The state of `exRelErr` after its first FCFS iteration (P2 blocked and
was enqueued on the waiting queue twice, self-linking it) and the prefix of
the second (P1 dequeued and set RUNNING). -/
def exRelErrMid : SysState :=
  { heap := [{ name := "P2", state := .WAITING, next_instruction := [reqI "X"],
               priority := 0, resources := [], next := some 0 },
             { name := "P1", state := .RUNNING, next_instruction := [relI "R"],
               priority := 0, resources := [], next := none }]
    readyq := ⟨none, none⟩
    waitingq := ⟨some 0, some 0⟩
    terminatedq := ⟨none, none⟩
    resources := []
    arrivals := []
    events := [.evWaiting "P2" "X", .evWaiting "P2" "X"] }

/-- `exRelErrMid` after P1's release error has been logged. -/
def exRelErrLogged : SysState := logEvent (.releaseError "P1" "R") exRelErrMid

/-- A state in deadlock under the priority scheduler: the lone process
holds R and waits for the missing X. -/
def exPriDead : SysState :=
  { heap := [{ name := "A", state := .WAITING, next_instruction := [reqI "X"],
               priority := 5, resources := ["R"], next := none }]
    readyq := ⟨none, none⟩
    waitingq := ⟨some 0, some 0⟩
    terminatedq := ⟨none, none⟩
    resources := [⟨"R", false⟩]
    arrivals := []
    events := [] }

/-- A nearly finished priority-scheduler state: the running process has
exhausted its instructions; nothing else is ready, waiting, or arriving. -/
def exPriDone : SysState :=
  { heap := [{ name := "A", state := .RUNNING, next_instruction := [],
               priority := 5, resources := [], next := none }]
    readyq := ⟨none, none⟩
    waitingq := ⟨none, none⟩
    terminatedq := ⟨none, none⟩
    resources := []
    arrivals := []
    events := [] }

/-- `exPriDone` after its final iteration: the process was moved to the
terminated queue. -/
def exPriDoneEnd : SysState :=
  { heap := [{ name := "A", state := .TERMINATED, next_instruction := [],
               priority := 5, resources := [], next := none }]
    readyq := ⟨none, none⟩
    waitingq := ⟨none, none⟩
    terminatedq := ⟨some 0, some 0⟩
    resources := []
    arrivals := []
    events := [.evTerminated "A"] }

/-- A one-process workload that acquires and releases A, used as the
mutual-exclusion witness run. -/
def exMut : SysState := mkInitState [mkPcb "P" 0 [reqI "A", relI "A"]] [] [⟨"A", true⟩]

/-- Final state of the `exMut` FCFS run. -/
def exMutEnd : SysState :=
  { heap := [{ name := "P", state := .TERMINATED, next_instruction := [],
               priority := 0, resources := [], next := none }]
    readyq := ⟨none, none⟩
    waitingq := ⟨none, none⟩
    terminatedq := ⟨some 0, some 0⟩
    resources := [⟨"A", true⟩]
    arrivals := []
    events := [.acquired "P" "A", .released "P" "A", .evTerminated "P"] }

/-- A one-process workload whose catalog holds the single available
resource A (request-semantics witness). -/
def exReq : SysState := mkInitState [mkPcb "P" 0 [reqI "A"]] [] [⟨"A", true⟩]

/-! ## Resource-holding model -/

/-- Total number of handles named `rn` held across all processes. -/
def holders (s : SysState) (rn : String) : Nat :=
  ((s.heap.map pcb_t.resources).map (fun l => l.count rn)).sum

/-- Two states with identical resource ledgers and identical held-handle
lists (the queue/state/cursor fields may differ arbitrarily). -/
def sameHoldings (s s' : SysState) : Prop :=
  s'.resources = s.resources ∧ s'.heap.map pcb_t.resources = s.heap.map pcb_t.resources

/-- The resource-ledger invariant: ledger names are distinct, every
resource has at most one holder, and an Available record has none. -/
def ResInv (s : SysState) : Prop :=
  (s.resources.map resource_t.name).Nodup
  ∧ (∀ rn, holders s rn ≤ 1)
  ∧ (∀ r ∈ s.resources, r.available = true → holders s r.name = 0)

/-- One primitive mutation of the global state, as performed somewhere in
the scheduler code.  Every state change either scheduler makes during a
run is one of these (or a composition of them), so the reflexive-transitive
closure over-approximates the simulation's reachable states. -/
inductive MStep : SysState → SysState → Prop where
  | exec (p : Pid) (i : Option instr_t) (fuel : Nat) (s s' : SysState) :
      execute_instr p i fuel s = .ok s' → MStep s s'
  | arrivals (b : Bool) (s s' : SysState) :
      check_for_new_arrivals s = .ok (b, s') → MStep s s'
  | toRq (p : Option Pid) (s s' : SysState) :
      move_proc_to_rq p s = .ok s' → MStep s s'
  | toWq (p : Option Pid) (rn : String) (s s' : SysState) :
      move_proc_to_wq p rn s = .ok s' → MStep s s'
  | toTq (p : Option Pid) (s s' : SysState) :
      move_proc_to_tq p s = .ok s' → MStep s s'
  | deqReady (popt : Option Pid) (q' : Option pcb_queue_t) (h' : List pcb_t) (s : SysState) :
      dequeue_pcb (some s.readyq) s.heap = .ok (popt, q', h') →
      MStep s { s with heap := h', readyq := q'.getD s.readyq }
  | setSt (p : Pid) (st : state_t) (s s' : SysState) :
      setState p st s = .ok s' → MStep s s'
  | setCursor (p : Pid) (pc : pcb_t) (il : List instr_t) (s : SysState) :
      hget s.heap p = some pc →
      MStep s { s with heap := hset s.heap p { pc with next_instruction := il } }
  | rmReady (p : Option Pid) (fuel : Nat) (s s' : SysState) :
      remove_proc_from_readyq p fuel s = .ok s' → MStep s s'
  | logE (e : Event) (s : SysState) : MStep s (logEvent e s)

/-- Reachability by primitive scheduler mutations. -/
def MReach : SysState → SysState → Prop := Relation.ReflTransGen MStep

/-! ## Queue representation predicate -/

/-- `chain h o ls`: starting from the head pointer `o`, following the
intrusive `next` links of the heap records visits exactly the pids of `ls`
and ends in NULL. -/
def chain (h : List pcb_t) : Option Pid → List Pid → Bool
  | none, [] => true
  | some p, q :: qs =>
    p == q &&
      (match hget h p with
       | some pc => chain h pc.next qs
       | none => false)
  | _, _ => false

/-- The queue object `q` represents exactly the pid list `ls` in heap `h`:
its `first` pointer chains through `ls` and its `last` pointer names the
final element. -/
def repQ (h : List pcb_t) (q : pcb_queue_t) (ls : List Pid) : Prop :=
  chain h q.first ls = true ∧ q.last = ls.getLast?

/-- The PCB fields that queue surgery never touches: everything except the
scheduling state and the intrusive link. -/
def pcbCore (pc : pcb_t) : String × List instr_t × Int × List String :=
  (pc.name, pc.next_instruction, pc.priority, pc.resources)


/-- Two-process heap used by the queue-operation witness. -/
def exQh : List pcb_t := [mkPcb "A" 0 [], mkPcb "B" 0 []]

/-- A running process A (priority 2) with B (priority 1) alone in the ready queue:
no preemption may occur. -/
def exPri : SysState :=
  { heap := [{ name := "A", state := .RUNNING, next_instruction := [], priority := 2,
               resources := [], next := none },
             { name := "B", state := .READY, next_instruction := [], priority := 1,
               resources := [], next := none }]
    readyq := ⟨some 1, some 1⟩
    waitingq := ⟨none, none⟩
    terminatedq := ⟨none, none⟩
    resources := []
    arrivals := []
    events := [] }

/-- A lone ready process whose priority is exactly `INT_MIN`: the selection
scan, whose running maximum starts at `INT_MIN` with a strict comparison,
can never pick it. -/
def exPriMin : SysState :=
  { heap := [{ name := "M", state := .READY, next_instruction := [], priority := INT_MIN,
               resources := [], next := none }]
    readyq := ⟨some 0, some 0⟩
    waitingq := ⟨none, none⟩
    terminatedq := ⟨none, none⟩
    resources := []
    arrivals := []
    events := [] }


/-- Name of a heap record (empty for a dangling pid). -/
def pcbName (h : List pcb_t) (x : Pid) : String :=
  ((hget h x).map pcb_t.name).getD ""

/-- A running holder of R with three waiting processes: P1 pending `req X` with a
later `req R`, P2 pending `req R`, P3 pending `req X` only. -/
def exRel : SysState :=
  { heap := [{ name := "P0", state := .RUNNING, next_instruction := [relI "R"],
               priority := 0, resources := ["R"], next := none },
             { name := "P1", state := .WAITING, next_instruction := [reqI "X", reqI "R"],
               priority := 0, resources := [], next := some 2 },
             { name := "P2", state := .WAITING, next_instruction := [reqI "R"],
               priority := 0, resources := [], next := some 3 },
             { name := "P3", state := .WAITING, next_instruction := [reqI "X"],
               priority := 0, resources := [], next := none }]
    readyq := ⟨none, none⟩
    waitingq := ⟨some 1, some 3⟩
    terminatedq := ⟨none, none⟩
    resources := [⟨"R", false⟩, ⟨"X", false⟩]
    arrivals := []
    events := [] }

/-- Priority workload whose release of R wakes the process blocked on X. -/
def exWake : SysState :=
  mkInitState
    [mkPcb "Q" 1 [reqI "X", reqI "R", relI "R"], mkPcb "F" 0 [relI "Z"]]
    [mkPcb "P" 5 [reqI "X", reqI "R"]]
    [⟨"X", true⟩, ⟨"R", true⟩]

/-- The `exWake` run after four scheduler iterations, just before Q executes
`rel R`. -/
def exWakeMid : SysState :=
  { heap := [{ name := "Q", state := .RUNNING, next_instruction := [relI "R"],
               priority := 1, resources := ["R", "X"], next := none },
             { name := "F", state := .NEW, next_instruction := [relI "Z"],
               priority := 0, resources := [], next := none },
             { name := "P", state := .WAITING, next_instruction := [reqI "X", reqI "R"],
               priority := 5, resources := [], next := none }]
    readyq := ⟨some 1, some 1⟩
    waitingq := ⟨some 2, some 2⟩
    terminatedq := ⟨none, none⟩
    resources := [⟨"X", false⟩, ⟨"R", false⟩]
    arrivals := []
    events := [.acquired "Q" "X", .evReady "P", .evReady "Q", .evWaiting "P" "X",
               .acquired "Q" "R"] }

/-! ## Generic reduction helpers -/

theorem ok_bind {α β : Type} (a : α) (f : α → Except Crash β) :
    (Except.ok a : Except Crash α) >>= f = f a := rfl

theorem error_bind {α β : Type} (e : Crash) (f : α → Except Crash β) :
    (Except.error e : Except Crash α) >>= f = .error e := rfl

theorem pure_bindE {α β : Type} (a : α) (f : α → Except Crash β) :
    (pure a : Except Crash α) >>= f = f a := rfl

/-! ## Claim theorems -/

/-- C9: for every workload, fuel and (ignored) time quantum, scheduler mode
RR produces exactly the same result — final state, transitions and event
log — as FCFS: `schedule_processes` dispatches both to `schedule_fcfs`. -/
theorem schedule_processes_rr_eq_fcfs (q1 q2 : Int) (fuel : Nat) (s : SysState) :
    schedule_processes .RR q1 fuel s = schedule_processes .FCFS q2 fuel s := rfl

/-- C1 (counterexample): under FCFS a run can halt with the Ready queue
empty and the Waiting queue non-empty while reporting deadlock zero times,
not exactly once: one process blocking on a resource that has no ledger
record ends the simulation silently. -/
theorem fcfs_silent_halt_counterexample :
    (schedule_processes .FCFS 1 10 exDeadFcfs).map
        (fun S => (S.readyq.first, S.waitingq.first.isSome,
          S.events.count .deadlockDetected))
      = .ok (none, true, 0) := rfl

/-- C1 (amended): under priority-with-preemption, whenever the
end-of-iteration deadlock check runs on a state with Ready empty and
Waiting non-empty, exactly one deadlock event is appended and the loop
halts at once; when instead the iteration leaves no current process,
empty queues and no pending arrival, the loop halts normally with no
deadlock event; and `schedule_fcfs` returns silently — reporting nothing —
as soon as Ready is empty. -/
theorem deadlock_check_halts_or_normal (fuel : Nat) (cur cur1 : Option Pid)
    (s s1 : SysState)
    (hcond : s.readyq.first ≠ none ∨ s.waitingq.first ≠ none ∨ cur ≠ none)
    (hph : pri_phases fuel cur s = .ok (cur1, s1)) :
    (s1.readyq.first = none → s1.waitingq.first ≠ none →
        pri_loop (fuel + 1) cur s = .ok (logEvent .deadlockDetected s1)
        ∧ (logEvent .deadlockDetected s1).events = s1.events ++ [.deadlockDetected])
    ∧ (cur1 = none → s1.readyq.first = none → s1.waitingq.first = none →
        s1.arrivals = [] → pri_loop (fuel + 1) cur s = .ok s1)
    ∧ (s.readyq.first = none → schedule_fcfs (fuel + 1) s = .ok s) := by
  refine ⟨fun hr hw => ?_, fun hc1 hr hw ha => ?_, fun hr => ?_⟩
  · have hbody : pri_body fuel cur s = .ok (cur1, logEvent .deadlockDetected s1, true) := by
      simp only [pri_body, hph, ok_bind]
      cases cur1 with
      | none =>
        rw [if_neg (by simp [hw])]
        simp [check_deadlock, hr, hw, detect_deadlock]
      | some c =>
        simp [check_deadlock, hr, hw, detect_deadlock]
    constructor
    · simp only [pri_loop, if_pos hcond, hbody, ok_bind]
      simp
    · simp [logEvent]
  · have hbody : pri_body fuel cur s = .ok (none, s1, true) := by
      simp only [pri_body, hph, ok_bind, hc1]
      rw [if_pos ⟨hr, hw⟩]
      simp [check_for_new_arrivals, get_new_pcb, ha, ok_bind]
    simp only [pri_loop, if_pos hcond, hbody, ok_bind]
    simp
  · simp only [schedule_fcfs, fcfs_loop, hr]

/-- Witness for C1's amended theorem: a deadlocked priority state halts
with exactly one deadlock event, and a finished priority state halts
normally. -/
theorem deadlock_check_halts_or_normal_witness :
    pri_loop 1 none exPriDead = .ok (logEvent .deadlockDetected exPriDead)
    ∧ pri_loop 1 (some 0) exPriDone = .ok exPriDoneEnd := by
  constructor
  · exact ((deadlock_check_halts_or_normal 0 none none exPriDead exPriDead
      (by decide) rfl).1 rfl (by decide)).1
  · exact (deadlock_check_halts_or_normal 0 (some 0) none exPriDone exPriDoneEnd
      (by decide) rfl).2.1 rfl rfl rfl rfl

/-- C2 (failing input): one priority-scheduler iteration on
`exPreemptWaiting` leaves process 0 (P1) a member of both the Ready queue
and the Waiting queue at once — P1 blocked (WAITING, enqueued on Waiting),
then the preemption block for the arriving Q moved it to Ready as well —
violating the queue-partition invariant. -/
theorem queue_partition_violated :
    (pri_body 10 none exPreemptWaiting).map
        (fun r => (r.2.2, walk r.2.1.heap 3 r.2.1.readyq.first,
          walk r.2.1.heap 3 r.2.1.waitingq.first,
          (hget r.2.1.heap 0).map pcb_t.state))
      = .ok (false, some [0], some [0], some .READY) := rfl

/-- The waiting-to-ready sweep never terminates once it sits on a
self-linked waiting-queue node whose process cannot be moved. -/
theorem mwtr_self_loop_diverges (c : Pid) (pc : pcb_t) (s : SysState)
    (hc : hget s.heap c = some pc) (hnext : pc.next = some c)
    (hstuck : mwtr_can_move pc s.resources = false) :
    ∀ n, mwtr_loop n (some c) s = .error .outOfFuel := by
  intro n
  induction n with
  | zero => rfl
  | succ n ih =>
    simp only [mwtr_loop, hread, hc, hnext, ok_bind, hstuck]
    simpa using ih

/-- The sweep diverges from the head of `exRelErrLogged`'s waiting queue. -/
theorem mwtr_exRelErr_diverges : ∀ n, mwtr_loop n none exRelErrLogged = .error .outOfFuel := by
  intro n
  match n with
  | 0 => rfl
  | n + 1 =>
    have h : mwtr_loop (n + 1) none exRelErrLogged = mwtr_loop n (some 0) exRelErrLogged := rfl
    rw [h]
    exact mwtr_self_loop_diverges 0 _ exRelErrLogged rfl rfl rfl n

/-- P1's release-error instruction never completes on `exRelErrMid`. -/
theorem fcfs_inner_exRelErr_diverges (n : Nat) :
    fcfs_inner 1 n [relI "R"] exRelErrMid = .error .outOfFuel :=
  (congrArg (fun e => e >>= _) (mwtr_exRelErr_diverges n)).trans rfl

/-- C6: on `exRelErr` the FCFS run never terminates, for any fuel: after
P2 blocks (and is enqueued on the waiting queue twice, self-linking the
node), P1's erroneous release hangs inside
`move_waiting_to_ready_based_on_resources` instead of continuing. -/
theorem release_error_hangs (n : Nat) :
    schedule_processes .FCFS 1 n exRelErr = .error .outOfFuel := by
  match n with
  | 0 => rfl
  | 1 => rfl
  | n + 2 =>
    have h1 : fcfs_loop (n + 2) exRelErr
        = (fcfs_inner 1 n [relI "R"] exRelErrMid) >>= (fun s => fcfs_loop n s) := rfl
    show fcfs_loop (n + 2) exRelErr = .error .outOfFuel
    rw [h1, fcfs_inner_exRelErr_diverges n]
    rfl

/-! ## Heap access lemmas -/

theorem hget_lt {h : List pcb_t} {p : Pid} {pc : pcb_t} (hp : hget h p = some pc) :
    p < h.length := by
  by_contra hge
  rw [hget, List.getElem?_eq_none (Nat.le_of_not_lt hge)] at hp
  exact Option.noConfusion hp

theorem hget_hset_self {h : List pcb_t} {p : Pid} (hp : p < h.length) (x : pcb_t) :
    hget (hset h p x) p = some x := by
  simpa [hget, hset] using List.getElem?_set_self hp

theorem hget_hset_ne {h : List pcb_t} {p q : Pid} (hne : p ≠ q) (x : pcb_t) :
    hget (hset h p x) q = hget h q := by
  simp [hget, hset, List.getElem?_set_ne hne]

theorem length_hset (h : List pcb_t) (p : Pid) (x : pcb_t) :
    (hset h p x).length = h.length := by
  simp [hset]

theorem hset_hset (h : List pcb_t) (p : Pid) (a b : pcb_t) :
    hset (hset h p a) p b = hset h p b := by
  simp [hset, List.set_set]

/-! ## Request-scan characterisation -/

theorem request_scan_none {l : List resource_t} {n : String} :
    request_scan l n = none ↔ ∀ r ∈ l, ¬(r.name = n ∧ r.available = true) := by
  induction l with
  | nil => simp [request_scan]
  | cons r rs ih =>
    simp only [request_scan]
    split
    next hcond =>
      simp only [Bool.and_eq_true, beq_iff_eq] at hcond
      constructor
      · intro h; exact Option.noConfusion h
      · intro hall; exact absurd ⟨hcond.1, hcond.2⟩ (hall r (List.mem_cons_self r rs))
    next hcond =>
      rw [Option.map_eq_none', ih]
      constructor
      · intro hall x hx
        rcases List.mem_cons.mp hx with rfl | hx
        · intro ⟨h1, h2⟩
          exact hcond (by simp [h1, h2])
        · exact hall x hx
      · intro hall x hx
        exact hall x (List.mem_cons_of_mem r hx)

theorem request_scan_some {l : List resource_t} {n : String} {l2 : List resource_t}
    (h : request_scan l n = some l2) :
    ∃ l1 r l3, l = l1 ++ r :: l3 ∧ r.name = n ∧ r.available = true
      ∧ (∀ x ∈ l1, ¬(x.name = n ∧ x.available = true))
      ∧ l2 = l1 ++ { r with available := false } :: l3 := by
  induction l generalizing l2 with
  | nil => simp [request_scan] at h
  | cons r rs ih =>
    simp only [request_scan] at h
    split at h
    next hcond =>
      cases h
      simp only [Bool.and_eq_true, beq_iff_eq] at hcond
      exact ⟨[], r, rs, rfl, hcond.1, hcond.2, by simp, rfl⟩
    next hcond =>
      rw [Option.map_eq_some'] at h
      obtain ⟨a, ha, hl2⟩ := h
      obtain ⟨l1, rr, l3, hsplit, hn, hav, hnone, hres⟩ := ih ha
      refine ⟨r :: l1, rr, l3, by simp [hsplit], hn, hav, ?_, by simp [← hl2, hres]⟩
      intro x hx
      rcases List.mem_cons.mp hx with rfl | hx
      · intro ⟨h1, h2⟩
        exact hcond (by simp [h1, h2])
      · exact hnone x hx

/-! ## Effect of moving a process to the waiting queue -/

theorem move_proc_to_wq_ok {s : SysState} {p : Pid} {pc : pcb_t} (rn : String)
    (hp : hget s.heap p = some pc)
    (hq : s.waitingq.first = none
          ∨ ∃ l lc, s.waitingq.last = some l ∧ hget s.heap l = some lc) :
    ∃ s2, move_proc_to_wq (some p) rn s = .ok s2
      ∧ (hget s2.heap p).map pcb_t.state = some .WAITING
      ∧ s2.events = s.events ++ [.evWaiting pc.name rn]
      ∧ s2.waitingq.last = some p
      ∧ s2.resources = s.resources
      ∧ s2.readyq = s.readyq := by
  have hlen := hget_lt hp
  simp only [move_proc_to_wq, hread, hp, ok_bind, enq, enqueue_pcb, getQ]
  rw [hget_hset_self hlen]
  simp only [ok_bind, hset_hset]
  rcases hq with hq | ⟨l, lc, hl, hlc⟩
  · rw [hq]
    refine ⟨_, rfl, ?_, by simp [logEvent, setQ], by simp [logEvent, setQ],
      by simp [setQ, logEvent], by simp [setQ, logEvent]⟩
    simp only [logEvent, setQ]
    rw [hget_hset_self hlen]
    rfl
  · cases hfirst : s.waitingq.first with
    | none =>
      refine ⟨_, rfl, ?_, by simp [logEvent, setQ], by simp [logEvent, setQ],
        by simp [setQ, logEvent], by simp [setQ, logEvent]⟩
      simp only [logEvent, setQ]
      rw [hget_hset_self hlen]
      rfl
    | some f =>
      rw [hl]
      by_cases hlp : l = p
      · subst hlp
        simp only [hread, hget_hset_self hlen, ok_bind, hset_hset]
        refine ⟨_, rfl, ?_, by simp [logEvent, setQ], by simp [logEvent, setQ],
          by simp [setQ, logEvent], by simp [setQ, logEvent]⟩
        simp only [logEvent, setQ]
        rw [hget_hset_self hlen]
        rfl
      · have hne1 : p ≠ l := fun e => hlp e.symm
        simp only [hread, hget_hset_ne hne1, hlc, ok_bind]
        refine ⟨_, rfl, ?_, by simp [logEvent, setQ], by simp [logEvent, setQ],
          by simp [setQ, logEvent], by simp [setQ, logEvent]⟩
        simp only [logEvent, setQ]
        rw [hget_hset_ne hlp, hget_hset_self hlen]
        rfl

/-! ## Holdings framing: queue-level operations never touch held lists -/

theorem sameHoldings_refl (s : SysState) : sameHoldings s s := ⟨rfl, rfl⟩

theorem sameHoldings_trans {s1 s2 s3 : SysState}
    (h12 : sameHoldings s1 s2) (h23 : sameHoldings s2 s3) : sameHoldings s1 s3 :=
  ⟨h23.1.trans h12.1, h23.2.trans h12.2⟩

theorem holders_congr {s s' : SysState} (h : sameHoldings s s') (rn : String) :
    holders s' rn = holders s rn := by
  simp [holders, h.2]

theorem ResInv_of_sameHoldings {s s' : SysState} (h : sameHoldings s s')
    (hi : ResInv s) : ResInv s' := by
  obtain ⟨h1, h2, h3⟩ := hi
  refine ⟨by rw [h.1]; exact h1, fun rn => ?_, fun r hr ha => ?_⟩
  · rw [holders_congr h]; exact h2 rn
  · rw [holders_congr h]; exact h3 r (by rwa [← h.1]) ha

theorem map_resources_hset {h : List pcb_t} {p : Pid} {pc x : pcb_t}
    (hp : hget h p = some pc) (hres : x.resources = pc.resources) :
    (hset h p x).map pcb_t.resources = h.map pcb_t.resources := by
  apply List.ext_getElem?
  intro n
  by_cases hn : p = n
  · subst hn
    rw [List.getElem?_map, List.getElem?_map, hset, List.getElem?_set_self (hget_lt hp)]
    rw [hget] at hp
    rw [hp]
    simp [hres]
  · rw [List.getElem?_map, List.getElem?_map, hset, List.getElem?_set_ne hn]

theorem enqueue_pcb_resources {pcb : Option Pid} {q : Option pcb_queue_t} {h : List pcb_t}
    {q' : Option pcb_queue_t} {h' : List pcb_t}
    (he : enqueue_pcb pcb q h = .ok (q', h')) :
    h'.map pcb_t.resources = h.map pcb_t.resources := by
  match pcb, q with
  | none, q => cases he; rfl
  | some p, none => cases he; rfl
  | some p, some qq =>
    cases hp : hget h p with
    | none =>
      have hrun : enqueue_pcb (some p) (some qq) h = .error .invalidPid := by
        simp only [enqueue_pcb, hread, hp, error_bind]
      rw [hrun] at he
      exact Except.noConfusion he
    | some pc =>
      cases hf : qq.first with
      | none =>
        have hrun : enqueue_pcb (some p) (some qq) h
            = .ok (some ⟨some p, some p⟩, hset h p { pc with next := none }) := by
          simp only [enqueue_pcb, hread, hp, ok_bind, hf]
        rw [hrun] at he
        cases he
        exact map_resources_hset hp rfl
      | some f =>
        cases hl : qq.last with
        | none =>
          have hrun : enqueue_pcb (some p) (some qq) h = .error .nullDeref := by
            simp only [enqueue_pcb, hread, hp, ok_bind, hf, hl]
          rw [hrun] at he
          exact Except.noConfusion he
        | some l =>
          cases hlc : hget (hset h p { pc with next := none }) l with
          | none =>
            have hrun : enqueue_pcb (some p) (some qq) h = .error .invalidPid := by
              simp only [enqueue_pcb, hread, hp, ok_bind, hf, hl, hlc, error_bind]
            rw [hrun] at he
            exact Except.noConfusion he
          | some lc =>
            have hrun : enqueue_pcb (some p) (some qq) h
                = .ok (some ⟨some f, some p⟩,
                    hset (hset h p { pc with next := none }) l { lc with next := some p }) := by
              simp only [enqueue_pcb, hread, hp, ok_bind, hf, hl, hlc]
            rw [hrun] at he
            cases he
            refine (map_resources_hset hlc ?_).trans (map_resources_hset hp ?_) <;> rfl

theorem enq_sameHoldings {qid : QueueId} {p : Pid} {s s' : SysState}
    (he : enq qid p s = .ok s') : sameHoldings s s' := by
  cases hq : enqueue_pcb (some p) (some (getQ s qid)) s.heap with
  | error e =>
    have hrun : enq qid p s = .error e := by
      simp only [enq, hq, error_bind]
    rw [hrun] at he
    exact Except.noConfusion he
  | ok r =>
    match r with
    | (none, h2) =>
      have hrun : enq qid p s = .error .nullDeref := by
        simp only [enq, hq, ok_bind]
      rw [hrun] at he
      exact Except.noConfusion he
    | (some q2, h2) =>
      have hrun : enq qid p s = .ok (setQ { s with heap := h2 } qid q2) := by
        simp only [enq, hq, ok_bind]
      rw [hrun] at he
      cases he
      cases qid <;> exact ⟨rfl, enqueue_pcb_resources hq⟩

theorem setState_sameHoldings {p : Pid} {st : state_t} {s s' : SysState}
    (he : setState p st s = .ok s') : sameHoldings s s' := by
  cases hp : hget s.heap p with
  | none =>
    have hrun : setState p st s = .error .invalidPid := by
      simp only [setState, hread, hp, error_bind]
    rw [hrun] at he
    exact Except.noConfusion he
  | some pc =>
    have hrun : setState p st s
        = .ok { s with heap := hset s.heap p { pc with state := st } } := by
      simp only [setState, hread, hp, ok_bind]
    rw [hrun] at he
    cases he
    exact ⟨rfl, map_resources_hset hp rfl⟩

theorem logEvent_sameHoldings (e : Event) (s : SysState) :
    sameHoldings s (logEvent e s) := ⟨rfl, rfl⟩

theorem move_proc_to_rq_sameHoldings {p : Option Pid} {s s' : SysState}
    (he : move_proc_to_rq p s = .ok s') : sameHoldings s s' := by
  match p with
  | none => cases he; exact sameHoldings_refl s
  | some p =>
    cases hp : hget s.heap p with
    | none =>
      have hrun : move_proc_to_rq (some p) s = .error .invalidPid := by
        simp only [move_proc_to_rq, hread, hp, error_bind]
      rw [hrun] at he
      exact Except.noConfusion he
    | some pc =>
      cases hq : enq .readyQ p { s with heap := hset s.heap p { pc with state := .READY } } with
      | error e =>
        have hrun : move_proc_to_rq (some p) s = .error e := by
          simp only [move_proc_to_rq, hread, hp, ok_bind, hq, error_bind]
        rw [hrun] at he
        exact Except.noConfusion he
      | ok s2 =>
        have hrun : move_proc_to_rq (some p) s = .ok (logEvent (.evReady pc.name) s2) := by
          simp only [move_proc_to_rq, hread, hp, ok_bind, hq]
        rw [hrun] at he
        cases he
        refine sameHoldings_trans (sameHoldings_trans ?_ (enq_sameHoldings hq))
          (logEvent_sameHoldings _ _)
        exact ⟨rfl, map_resources_hset hp rfl⟩

theorem move_proc_to_wq_sameHoldings {p : Option Pid} {rn : String} {s s' : SysState}
    (he : move_proc_to_wq p rn s = .ok s') : sameHoldings s s' := by
  match p with
  | none => cases he; exact sameHoldings_refl s
  | some p =>
    cases hp : hget s.heap p with
    | none =>
      have hrun : move_proc_to_wq (some p) rn s = .error .invalidPid := by
        simp only [move_proc_to_wq, hread, hp, error_bind]
      rw [hrun] at he
      exact Except.noConfusion he
    | some pc =>
      cases hq : enq .waitingQ p { s with heap := hset s.heap p { pc with state := .WAITING } } with
      | error e =>
        have hrun : move_proc_to_wq (some p) rn s = .error e := by
          simp only [move_proc_to_wq, hread, hp, ok_bind, hq, error_bind]
        rw [hrun] at he
        exact Except.noConfusion he
      | ok s2 =>
        have hrun : move_proc_to_wq (some p) rn s
            = .ok (logEvent (.evWaiting pc.name rn) s2) := by
          simp only [move_proc_to_wq, hread, hp, ok_bind, hq]
        rw [hrun] at he
        cases he
        refine sameHoldings_trans (sameHoldings_trans ?_ (enq_sameHoldings hq))
          (logEvent_sameHoldings _ _)
        exact ⟨rfl, map_resources_hset hp rfl⟩

theorem move_proc_to_tq_sameHoldings {p : Option Pid} {s s' : SysState}
    (he : move_proc_to_tq p s = .ok s') : sameHoldings s s' := by
  match p with
  | none => cases he; exact sameHoldings_refl s
  | some p =>
    cases hp : hget s.heap p with
    | none =>
      have hrun : move_proc_to_tq (some p) s = .error .invalidPid := by
        simp only [move_proc_to_tq, hread, hp, error_bind]
      rw [hrun] at he
      exact Except.noConfusion he
    | some pc =>
      cases hq : enq .termQ p { s with heap := hset s.heap p { pc with state := .TERMINATED } } with
      | error e =>
        have hrun : move_proc_to_tq (some p) s = .error e := by
          simp only [move_proc_to_tq, hread, hp, ok_bind, hq, error_bind]
        rw [hrun] at he
        exact Except.noConfusion he
      | ok s2 =>
        have hrun : move_proc_to_tq (some p) s = .ok (logEvent (.evTerminated pc.name) s2) := by
          simp only [move_proc_to_tq, hread, hp, ok_bind, hq]
        rw [hrun] at he
        cases he
        refine sameHoldings_trans (sameHoldings_trans ?_ (enq_sameHoldings hq))
          (logEvent_sameHoldings _ _)
        exact ⟨rfl, map_resources_hset hp rfl⟩

theorem check_for_new_arrivals_sameHoldings {s s' : SysState} {b : Bool}
    (he : check_for_new_arrivals s = .ok (b, s')) : sameHoldings s s' := by
  cases ha : s.arrivals with
  | nil =>
    have hrun : check_for_new_arrivals s = .ok (false, s) := by
      simp only [check_for_new_arrivals, get_new_pcb, ha]
    rw [hrun] at he
    cases he
    exact sameHoldings_refl s
  | cons p rest =>
    cases hm : move_proc_to_rq (some p) { s with arrivals := rest } with
    | error e =>
      have hrun : check_for_new_arrivals s = .error e := by
        simp only [check_for_new_arrivals, get_new_pcb, ha, hm, error_bind]
      rw [hrun] at he
      exact Except.noConfusion he
    | ok s2 =>
      have hrun : check_for_new_arrivals s = .ok (true, s2) := by
        simp only [check_for_new_arrivals, get_new_pcb, ha, hm, ok_bind]
      rw [hrun] at he
      cases he
      exact sameHoldings_trans
        (⟨rfl, rfl⟩ : sameHoldings s { s with arrivals := rest })
        (move_proc_to_rq_sameHoldings hm)

theorem dequeue_pcb_resources {q : Option pcb_queue_t} {h : List pcb_t}
    {popt : Option Pid} {q' : Option pcb_queue_t} {h' : List pcb_t}
    (he : dequeue_pcb q h = .ok (popt, q', h')) :
    h'.map pcb_t.resources = h.map pcb_t.resources := by
  match q with
  | none => cases he; rfl
  | some qq =>
    cases hf : qq.first with
    | none =>
      have hrun : dequeue_pcb (some qq) h = .ok (none, some qq, h) := by
        simp only [dequeue_pcb, hf]
      rw [hrun] at he
      cases he
      rfl
    | some p =>
      cases hp : hget h p with
      | none =>
        have hrun : dequeue_pcb (some qq) h = .error .invalidPid := by
          simp only [dequeue_pcb, hread, hf, hp, error_bind]
        rw [hrun] at he
        exact Except.noConfusion he
      | some pc =>
        have hrun : dequeue_pcb (some qq) h
            = .ok (some p, some ⟨pc.next, if pc.next = none then none else qq.last⟩,
                hset h p { pc with next := none }) := by
          simp only [dequeue_pcb, hread, hf, hp, ok_bind]
        rw [hrun] at he
        cases he
        exact map_resources_hset hp rfl

theorem rpfr_unlink_sameHoldings {p f : Pid} {fuel : Nat} {s s1 : SysState}
    (he : rpfr_unlink p f fuel s = .ok s1) : sameHoldings s s1 := by
  by_cases hfp : f = p
  · cases hp : hget s.heap p with
    | none =>
      have hrun : rpfr_unlink p f fuel s = .error .invalidPid := by
        simp only [rpfr_unlink, if_pos hfp, hread, hp, error_bind]
      rw [hrun] at he
      exact Except.noConfusion he
    | some pc =>
      have hrun : rpfr_unlink p f fuel s
          = .ok { s with readyq :=
              ⟨pc.next, if s.readyq.last = some p then none else s.readyq.last⟩ } := by
        simp only [rpfr_unlink, if_pos hfp, hread, hp, ok_bind]
      rw [hrun] at he
      cases he
      exact ⟨rfl, rfl⟩
  · cases hsc : rpfr_scan s.heap p fuel (some f) with
    | error e =>
      have hrun : rpfr_unlink p f fuel s = .error e := by
        simp only [rpfr_unlink, if_neg hfp, hsc, error_bind]
      rw [hrun] at he
      exact Except.noConfusion he
    | ok found =>
      match found with
      | none =>
        have hrun : rpfr_unlink p f fuel s = .ok s := by
          simp only [rpfr_unlink, if_neg hfp, hsc, ok_bind]
        rw [hrun] at he
        cases he
        exact sameHoldings_refl s
      | some c =>
        cases hc : hget s.heap c with
        | none =>
          have hrun : rpfr_unlink p f fuel s = .error .invalidPid := by
            simp only [rpfr_unlink, if_neg hfp, hsc, ok_bind, hread, hc, error_bind]
          rw [hrun] at he
          exact Except.noConfusion he
        | some cc =>
          cases hp : hget s.heap p with
          | none =>
            have hrun : rpfr_unlink p f fuel s = .error .invalidPid := by
              simp only [rpfr_unlink, if_neg hfp, hsc, ok_bind, hread, hc, hp, error_bind]
            rw [hrun] at he
            exact Except.noConfusion he
          | some pc =>
            have hrun : rpfr_unlink p f fuel s
                = .ok { s with
                        heap := hset s.heap c { cc with next := pc.next },
                        readyq := (if s.readyq.last = some p
                                   then { s.readyq with last := some c }
                                   else s.readyq) } := by
              simp only [rpfr_unlink, if_neg hfp, hsc, ok_bind, hread, hc, hp]
            rw [hrun] at he
            cases he
            exact ⟨rfl, map_resources_hset hc rfl⟩

theorem remove_proc_from_readyq_sameHoldings {p : Option Pid} {fuel : Nat} {s s' : SysState}
    (he : remove_proc_from_readyq p fuel s = .ok s') : sameHoldings s s' := by
  match p with
  | none => cases he; exact sameHoldings_refl s
  | some p =>
    cases hf : s.readyq.first with
    | none =>
      have hrun : remove_proc_from_readyq (some p) fuel s = .ok s := by
        simp only [remove_proc_from_readyq, hf]
      rw [hrun] at he
      cases he
      exact sameHoldings_refl s
    | some f =>
      cases hu : rpfr_unlink p f fuel s with
      | error e =>
        have hrun : remove_proc_from_readyq (some p) fuel s = .error e := by
          simp only [remove_proc_from_readyq, hf, hu, error_bind]
        rw [hrun] at he
        exact Except.noConfusion he
      | ok s1 =>
        cases hp2 : hget s1.heap p with
        | none =>
          have hrun : remove_proc_from_readyq (some p) fuel s = .error .invalidPid := by
            simp only [remove_proc_from_readyq, hf, hu, ok_bind, hread, hp2, error_bind]
          rw [hrun] at he
          exact Except.noConfusion he
        | some pc2 =>
          have hrun : remove_proc_from_readyq (some p) fuel s
              = .ok { s1 with heap := hset s1.heap p { pc2 with next := none } } := by
            simp only [remove_proc_from_readyq, hf, hu, ok_bind, hread, hp2]
          rw [hrun] at he
          cases he
          exact sameHoldings_trans (rpfr_unlink_sameHoldings hu)
            ⟨rfl, map_resources_hset hp2 rfl⟩

theorem mwpr_tail_sameHoldings (rn : String) (fuel : Nat)
    {prev temp : Option Pid} {c : Pid} {sb s' : SysState}
    (ih : ∀ (prev cur : Option Pid) (s s' : SysState),
        mwpr_loop rn fuel prev cur s = .ok s' → sameHoldings s s')
    (h : (do
        let cc2 ← hread sb.heap c
        let s2 : SysState := { sb with heap := hset sb.heap c { cc2 with next := none } }
        let s3 ← move_proc_to_rq (some c) s2
        mwpr_loop rn fuel prev temp s3) = .ok s') :
    sameHoldings sb s' := by
  cases hcc2 : hget sb.heap c with
  | none =>
    simp only [hread, hcc2, error_bind] at h
    exact Except.noConfusion h
  | some cc2 =>
    simp only [hread, hcc2, ok_bind] at h
    cases hm : move_proc_to_rq (some c)
        { sb with heap := hset sb.heap c { cc2 with next := none } } with
    | error e =>
      simp only [hm, error_bind] at h
      exact Except.noConfusion h
    | ok s3 =>
      simp only [hm, ok_bind] at h
      have h1 : sameHoldings sb s3 := by
        refine sameHoldings_trans ?_ (move_proc_to_rq_sameHoldings hm)
        exact ⟨rfl, map_resources_hset hcc2 rfl⟩
      exact sameHoldings_trans h1 (ih prev temp s3 s' h)

theorem mwpr_loop_sameHoldings (rn : String) :
    ∀ (fuel : Nat) (prev cur : Option Pid) (s s' : SysState),
      mwpr_loop rn fuel prev cur s = .ok s' → sameHoldings s s' := by
  intro fuel
  induction fuel with
  | zero =>
    intro prev cur s s' h
    cases cur with
    | none => cases h; exact sameHoldings_refl s
    | some c => exact Except.noConfusion h
  | succ fuel ih =>
    intro prev cur s s' h
    cases cur with
    | none => cases h; exact sameHoldings_refl s
    | some c =>
      simp only [mwpr_loop] at h
      cases hw : is_waiting_for_resource s.heap (some c) (some rn) with
      | false =>
        simp only [hw, Bool.false_eq_true, if_false] at h
        cases hcc : hget s.heap c with
        | none =>
          simp only [hread, hcc, error_bind] at h
          exact Except.noConfusion h
        | some cc =>
          simp only [hread, hcc, ok_bind] at h
          exact ih (some c) cc.next s s' h
      | true =>
        simp only [hw, if_true] at h
        cases hcc : hget s.heap c with
        | none =>
          simp only [hread, hcc, error_bind] at h
          exact Except.noConfusion h
        | some cc =>
          simp only [hread, hcc, ok_bind] at h
          cases prev with
          | none =>
            simp only [ok_bind] at h
            set sa : SysState := { s with waitingq := { s.waitingq with first := cc.next } } with hsa
            have hsame_a : sameHoldings s sa := ⟨rfl, rfl⟩
            by_cases hlast : sa.waitingq.last = some c
            · rw [if_pos hlast] at h
              have htail := mwpr_tail_sameHoldings rn fuel ih h
              exact sameHoldings_trans ⟨rfl, rfl⟩ htail
            · rw [if_neg hlast] at h
              have htail := mwpr_tail_sameHoldings rn fuel ih h
              exact sameHoldings_trans ⟨rfl, rfl⟩ htail
          | some pr =>
            cases hpr : hget s.heap pr with
            | none =>
              simp only [hread, hpr, error_bind] at h
              exact Except.noConfusion h
            | some prc =>
              simp only [hread, hpr, ok_bind] at h
              set sa : SysState :=
                { s with heap := hset s.heap pr { prc with next := cc.next } } with hsa
              have hsame_a : sameHoldings s sa := ⟨rfl, map_resources_hset hpr rfl⟩
              by_cases hlast : sa.waitingq.last = some c
              · rw [if_pos hlast] at h
                have htail := mwpr_tail_sameHoldings rn fuel ih h
                refine sameHoldings_trans ?_ htail
                exact ⟨rfl, map_resources_hset hpr rfl⟩
              · rw [if_neg hlast] at h
                have htail := mwpr_tail_sameHoldings rn fuel ih h
                refine sameHoldings_trans ?_ htail
                exact ⟨rfl, map_resources_hset hpr rfl⟩

theorem mwtr_tail_sameHoldings (fuel : Nat) {prev : Option Pid} {c : Pid} {sb s' : SysState}
    (ih : ∀ (prev : Option Pid) (s s' : SysState),
        mwtr_loop fuel prev s = .ok s' → sameHoldings s s')
    (h : (do
        let s3 ← move_proc_to_rq (some c) sb
        mwtr_loop fuel prev s3) = .ok s') :
    sameHoldings sb s' := by
  cases hm : move_proc_to_rq (some c) sb with
  | error e =>
    simp only [hm, error_bind] at h
    exact Except.noConfusion h
  | ok s3 =>
    simp only [hm, ok_bind] at h
    exact sameHoldings_trans (move_proc_to_rq_sameHoldings hm) (ih prev s3 s' h)

theorem mwtr_loop_sameHoldings :
    ∀ (fuel : Nat) (prev : Option Pid) (s s' : SysState),
      mwtr_loop fuel prev s = .ok s' → sameHoldings s s' := by
  intro fuel
  induction fuel with
  | zero => intro prev s s' h; exact Except.noConfusion h
  | succ fuel ih =>
    intro prev s s' h
    simp only [mwtr_loop] at h
    cases prev with
    | none =>
      simp only [ok_bind] at h
      cases hfst : s.waitingq.first with
      | none =>
        simp only [hfst] at h
        cases h
        exact sameHoldings_refl s
      | some c =>
        simp only [hfst] at h
        cases hpc : hget s.heap c with
        | none =>
          simp only [hread, hpc, error_bind] at h
          exact Except.noConfusion h
        | some pc =>
          simp only [hread, hpc, ok_bind] at h
          cases hcm : mwtr_can_move pc s.resources with
          | false =>
            simp only [hcm, Bool.false_eq_true, if_false] at h
            exact ih (some c) s s' h
          | true =>
            simp only [hcm, if_true, ok_bind] at h
            set sa : SysState := { s with waitingq := { s.waitingq with first := pc.next } } with hsa
            by_cases hlast : sa.waitingq.last = some c
            · rw [if_pos hlast] at h
              have htail := mwtr_tail_sameHoldings fuel ih h
              exact sameHoldings_trans ⟨rfl, rfl⟩ htail
            · rw [if_neg hlast] at h
              have htail := mwtr_tail_sameHoldings fuel ih h
              exact sameHoldings_trans ⟨rfl, rfl⟩ htail
    | some pr =>
      cases hpr : hget s.heap pr with
      | none =>
        simp only [hread, hpr, error_bind] at h
        exact Except.noConfusion h
      | some prc =>
        simp only [hread, hpr, ok_bind] at h
        cases hcur : prc.next with
        | none =>
          simp only [hcur] at h
          cases h
          exact sameHoldings_refl s
        | some c =>
          simp only [hcur] at h
          cases hpc : hget s.heap c with
          | none =>
            simp only [hread, hpc, error_bind] at h
            exact Except.noConfusion h
          | some pc =>
            simp only [hread, hpc, ok_bind] at h
            cases hcm : mwtr_can_move pc s.resources with
            | false =>
              simp only [hcm, Bool.false_eq_true, if_false] at h
              exact ih (some c) s s' h
            | true =>
              simp only [hcm, if_true, hread, hpr, ok_bind] at h
              set sa : SysState :=
                { s with heap := hset s.heap pr { prc with next := pc.next } } with hsa
              by_cases hlast : sa.waitingq.last = some c
              · rw [if_pos hlast] at h
                have htail := mwtr_tail_sameHoldings fuel ih h
                refine sameHoldings_trans ?_ htail
                exact ⟨rfl, map_resources_hset hpr rfl⟩
              · rw [if_neg hlast] at h
                have htail := mwtr_tail_sameHoldings fuel ih h
                refine sameHoldings_trans ?_ htail
                exact ⟨rfl, map_resources_hset hpr rfl⟩

/-! ## Holder counting -/

theorem sum_map_set {α : Type} (f : α → Nat) :
    ∀ (L : List α) (p : Nat) (x old : α), L[p]? = some old →
      ((L.set p x).map f).sum + f old = (L.map f).sum + f x := by
  intro L
  induction L with
  | nil => intro p x old h; simp at h
  | cons a as ih =>
    intro p x old h
    cases p with
    | zero =>
      simp only [List.getElem?_cons_zero, Option.some.injEq] at h
      subst h
      simp [List.set]
      omega
    | succ p =>
      simp only [List.getElem?_cons_succ] at h
      simp only [List.set, List.map_cons, List.sum_cons]
      have := ih p x old h
      omega

theorem getElem_le_sum {α : Type} (f : α → Nat) :
    ∀ (L : List α) (p : Nat) (old : α), L[p]? = some old → f old ≤ (L.map f).sum := by
  intro L
  induction L with
  | nil => intro p old h; simp at h
  | cons a as ih =>
    intro p old h
    cases p with
    | zero =>
      simp only [List.getElem?_cons_zero, Option.some.injEq] at h
      subst h
      simp only [List.map_cons, List.sum_cons]
      omega
    | succ p =>
      simp only [List.getElem?_cons_succ] at h
      have := ih p old h
      simp only [List.map_cons, List.sum_cons]
      omega

theorem holders_eq_sum (s : SysState) (rn : String) :
    holders s rn = ((s.heap.map pcb_t.resources).map (fun l => l.count rn)).sum := rfl

theorem map_resources_getElem {h : List pcb_t} {p : Pid} {pc : pcb_t}
    (hp : hget h p = some pc) :
    (h.map pcb_t.resources)[p]? = some pc.resources := by
  rw [List.getElem?_map]
  rw [hget] at hp
  rw [hp]
  rfl

theorem sum_set :
    ∀ (L : List Nat) (p : Nat) (old : Nat), L[p]? = some old →
      ∀ x, (L.set p x).sum + old = L.sum + x := by
  intro L
  induction L with
  | nil => intro p old h; simp at h
  | cons a as ih =>
    intro p old h x
    cases p with
    | zero =>
      simp only [List.getElem?_cons_zero, Option.some.injEq] at h
      subst h
      simp [List.set]
      omega
    | succ p =>
      simp only [List.getElem?_cons_succ] at h
      simp only [List.set, List.sum_cons]
      have := ih p old h x
      omega

theorem holders_hset_resources {s : SysState} {p : Pid} {pc : pcb_t}
    (hp : hget s.heap p = some pc) (x : pcb_t) (rn : String) :
    ∀ (rq wq tq : pcb_queue_t) (res : List resource_t) (arr : List Pid) (ev : List Event),
      holders ⟨hset s.heap p x, rq, wq, tq, res, arr, ev⟩ rn + pc.resources.count rn
        = holders s rn + x.resources.count rn := by
  intro rq wq tq res arr ev
  rw [holders_eq_sum, holders_eq_sum]
  simp only [hset, List.map_set]
  refine sum_set ((s.heap.map pcb_t.resources).map (fun l => l.count rn)) p
    (pc.resources.count rn) ?_ (x.resources.count rn)
  rw [List.getElem?_map, map_resources_getElem hp]
  rfl

theorem count_le_holders {s : SysState} {p : Pid} {pc : pcb_t}
    (hp : hget s.heap p = some pc) (rn : String) :
    pc.resources.count rn ≤ holders s rn := by
  rw [holders_eq_sum]
  exact getElem_le_sum (fun l => l.count rn) (s.heap.map pcb_t.resources) p
    pc.resources (map_resources_getElem hp)

/-! ## Release-scan and mark characterisation -/

theorem release_scan_none {l : List String} {rn : String} :
    release_scan l rn = none ↔ rn ∉ l := by
  induction l with
  | nil => simp [release_scan]
  | cons a as ih =>
    simp only [release_scan]
    by_cases ha : a == rn
    · simp only [ha, if_true]
      have : a = rn := by simpa using ha
      subst this
      simp
    · simp only [ha, Bool.false_eq_true, if_false, Option.map_eq_none', ih]
      have : ¬a = rn := by simpa using ha
      simp [List.mem_cons, this]
      tauto

theorem release_scan_some {l : List String} {rn : String} {l2 : List String}
    (h : release_scan l rn = some l2) :
    ∃ m1 m2, l = m1 ++ rn :: m2 ∧ rn ∉ m1 ∧ l2 = m1 ++ m2 := by
  induction l generalizing l2 with
  | nil => simp [release_scan] at h
  | cons a as ih =>
    simp only [release_scan] at h
    by_cases ha : a == rn
    · rw [if_pos ha] at h
      cases h
      have : a = rn := by simpa using ha
      subst this
      exact ⟨[], as, rfl, by simp, rfl⟩
    · rw [if_neg ha] at h
      rw [Option.map_eq_some'] at h
      obtain ⟨b, hb, hl2⟩ := h
      obtain ⟨m1, m2, hsplit, hnm, hres⟩ := ih hb
      have hne : ¬a = rn := by simpa using ha
      refine ⟨a :: m1, m2, by simp [hsplit], ?_, by simp [← hl2, hres]⟩
      intro hmem
      rcases List.mem_cons.mp hmem with h | h
      · exact hne h.symm
      · exact hnm h

theorem mark_names (rn : String) (l : List resource_t) :
    (mark_resource_as_available rn l).map resource_t.name = l.map resource_t.name := by
  induction l with
  | nil => rfl
  | cons r rs ih =>
    simp only [mark_resource_as_available]
    by_cases hr : r.name == rn
    · rw [if_pos hr]; simp
    · rw [if_neg hr]; simp [ih]

theorem mark_decomp (rn : String) (l : List resource_t) :
    (mark_resource_as_available rn l = l ∧ ∀ r ∈ l, r.name ≠ rn)
    ∨ ∃ k1 rr k2, l = k1 ++ rr :: k2 ∧ rr.name = rn ∧ (∀ x ∈ k1, x.name ≠ rn)
        ∧ mark_resource_as_available rn l = k1 ++ { rr with available := true } :: k2 := by
  induction l with
  | nil => exact Or.inl ⟨rfl, by simp⟩
  | cons r rs ih =>
    simp only [mark_resource_as_available]
    by_cases hr : r.name == rn
    · refine Or.inr ⟨[], r, rs, rfl, by simpa using hr, by simp, ?_⟩
      rw [if_pos hr]
      rfl
    · have hne : r.name ≠ rn := by simpa using hr
      rw [if_neg hr]
      rcases ih with ⟨heq, hall⟩ | ⟨k1, rr, k2, hsplit, hname, hk1, hmark⟩
      · refine Or.inl ⟨by rw [heq], ?_⟩
        intro x hx
        rcases List.mem_cons.mp hx with rfl | hx
        · exact hne
        · exact hall x hx
      · refine Or.inr ⟨r :: k1, rr, k2, by simp [hsplit], hname, ?_, by simp [hmark]⟩
        intro x hx
        rcases List.mem_cons.mp hx with rfl | hx
        · exact hne
        · exact hk1 x hx

theorem holders_logEvent (e : Event) (s : SysState) (rn : String) :
    holders (logEvent e s) rn = holders s rn := rfl

theorem request_resource_ResInv {p : Pid} {i : instr_t} {s s' : SysState}
    (hi : ResInv s) (he : request_resource p i s = .ok s') : ResInv s' := by
  cases hp : hget s.heap p with
  | none =>
    have hrun : request_resource p i s = .error .invalidPid := by
      simp only [request_resource, hread, hp, error_bind]
    rw [hrun] at he
    exact Except.noConfusion he
  | some pc =>
    cases hscan : request_scan s.resources i.resource_name with
    | none =>
      have hrun : request_resource p i s = move_proc_to_wq (some p) i.resource_name s := by
        simp only [request_resource, hread, hp, ok_bind, hscan]
      rw [hrun] at he
      exact ResInv_of_sameHoldings (move_proc_to_wq_sameHoldings he) hi
    | some res2 =>
      have hrun : request_resource p i s = .ok (logEvent (.acquired pc.name i.resource_name)
          { s with resources := res2,
                   heap := hset s.heap p
                     { pc with resources := i.resource_name :: pc.resources } }) := by
        simp only [request_resource, hread, hp, ok_bind, hscan]
      rw [hrun] at he
      cases he
      obtain ⟨l1, r, l3, hsplit, hname, hav, hnone, hres⟩ := request_scan_some hscan
      obtain ⟨hnd, hle, hava⟩ := hi
      have hcnt : ∀ rn', holders (logEvent (.acquired pc.name i.resource_name)
          { s with resources := res2,
                   heap := hset s.heap p
                     { pc with resources := i.resource_name :: pc.resources } }) rn'
            + pc.resources.count rn'
          = holders s rn' + (i.resource_name :: pc.resources).count rn' :=
        fun rn' => holders_hset_resources hp _ rn' _ _ _ _ _ _
      have hzero : holders s i.resource_name = 0 := by
        have := hava r (by rw [hsplit]; simp) hav
        rwa [hname] at this
      refine ⟨?_, ?_, ?_⟩
      · show (res2.map resource_t.name).Nodup
        rw [hres]
        have hmn : (l1 ++ { r with available := false } :: l3).map resource_t.name
            = (l1 ++ r :: l3).map resource_t.name := by simp
        rw [hmn, ← hsplit]
        exact hnd
      · intro rn'
        have h1 := hcnt rn'
        rw [List.count_cons] at h1
        by_cases heq : i.resource_name = rn'
        · subst heq
          simp only [beq_self_eq_true, if_true] at h1
          omega
        · have hbeq : (i.resource_name == rn') = false := by
            rw [beq_eq_false_iff_ne]; exact heq
          rw [hbeq] at h1
          simp only [Bool.false_eq_true, if_false] at h1
          have := hle rn'
          omega
      · intro r'' hmem hav''
        have hmem' : r'' ∈ l1 ++ { r with available := false } :: l3 := by
          rw [← hres]; exact hmem
        have key : r''.name ≠ i.resource_name ∧ r'' ∈ s.resources := by
          rcases List.mem_append.mp hmem' with h1 | h2
          · refine ⟨fun e => hnone r'' h1 ⟨e, hav''⟩, ?_⟩
            rw [hsplit]; exact List.mem_append_left _ h1
          · rcases List.mem_cons.mp h2 with rfl | h3
            · simp at hav''
            · refine ⟨?_, by rw [hsplit]; exact List.mem_append_right _ (List.mem_cons_of_mem _ h3)⟩
              intro e
              have hnd' := hnd
              rw [hsplit] at hnd'
              simp only [List.map_append, List.map_cons] at hnd'
              have h4 := (List.nodup_append.mp hnd').2.1
              have h5 := (List.nodup_cons.mp h4).1
              exact h5 (hname.trans e.symm ▸ List.mem_map_of_mem resource_t.name h3)
        have h0 : holders s r''.name = 0 := hava r'' key.2 hav''
        have h1 := hcnt r''.name
        rw [List.count_cons] at h1
        have hbeq : (i.resource_name == r''.name) = false := by
          rw [beq_eq_false_iff_ne]; exact fun e => key.1 e.symm
        rw [hbeq] at h1
        simp only [Bool.false_eq_true, if_false] at h1
        omega

theorem release_resource_ResInv {p : Pid} {i : instr_t} {fuel : Nat} {s s' : SysState}
    (hi : ResInv s) (he : release_resource p i fuel s = .ok s') : ResInv s' := by
  cases hp : hget s.heap p with
  | none =>
    have hrun : release_resource p i fuel s = .error .invalidPid := by
      simp only [release_resource, hread, hp, error_bind]
    rw [hrun] at he
    exact Except.noConfusion he
  | some pc =>
    cases hscan : release_scan pc.resources i.resource_name with
    | none =>
      have hrun : release_resource p i fuel s
          = .ok (logEvent (.releaseError pc.name i.resource_name) s) := by
        simp only [release_resource, hread, hp, ok_bind, hscan]
      rw [hrun] at he
      cases he
      exact ResInv_of_sameHoldings ⟨rfl, rfl⟩ hi
    | some held2 =>
      have hrun : release_resource p i fuel s
          = move_waiting_pcbs_to_rq i.resource_name fuel
              (logEvent (.released pc.name i.resource_name)
                { s with heap := hset s.heap p { pc with resources := held2 },
                         resources := mark_resource_as_available i.resource_name s.resources }) := by
        simp only [release_resource, hread, hp, ok_bind, hscan]
      rw [hrun] at he
      simp only [move_waiting_pcbs_to_rq] at he
      have hmw := mwpr_loop_sameHoldings i.resource_name fuel none _ _ _ he
      refine ResInv_of_sameHoldings hmw ?_
      obtain ⟨m1, m2, hsplit, hnm, hheld⟩ := release_scan_some hscan
      obtain ⟨hnd, hle, hava⟩ := hi
      have hcnt : ∀ rn', holders (logEvent (.released pc.name i.resource_name)
          { s with heap := hset s.heap p { pc with resources := held2 },
                   resources := mark_resource_as_available i.resource_name s.resources }) rn'
            + pc.resources.count rn'
          = holders s rn' + held2.count rn' :=
        fun rn' => holders_hset_resources hp _ rn' _ _ _ _ _ _
      have hc1 : pc.resources.count i.resource_name
          = m1.count i.resource_name + (m2.count i.resource_name + 1) := by
        rw [hsplit, List.count_append, List.count_cons]
        simp
      have hm1z : m1.count i.resource_name = 0 := List.count_eq_zero.mpr hnm
      have hc2 : held2.count i.resource_name
          = m1.count i.resource_name + m2.count i.resource_name := by
        rw [hheld, List.count_append]
      have hub := count_le_holders hp i.resource_name
      have hle1 := hle i.resource_name
      have hzero3 : holders (logEvent (.released pc.name i.resource_name)
          { s with heap := hset s.heap p { pc with resources := held2 },
                   resources := mark_resource_as_available i.resource_name s.resources })
            i.resource_name = 0 := by
        have h1 := hcnt i.resource_name
        omega
      have hceq : ∀ rn', i.resource_name ≠ rn'
          → held2.count rn' = pc.resources.count rn' := by
        intro rn' hne
        have hbeq : (i.resource_name == rn') = false := by
          rw [beq_eq_false_iff_ne]; exact hne
        rw [hheld, hsplit, List.count_append, List.count_append, List.count_cons, hbeq]
        simp
      refine ⟨?_, ?_, ?_⟩
      · show ((mark_resource_as_available i.resource_name s.resources).map resource_t.name).Nodup
        rw [mark_names]
        exact hnd
      · intro rn'
        by_cases heq : i.resource_name = rn'
        · subst heq
          rw [hzero3]
          omega
        · have h1 := hcnt rn'
          rw [hceq rn' heq] at h1
          have := hle rn'
          omega
      · intro r'' hmem hav''
        have hmem2 : r'' ∈ mark_resource_as_available i.resource_name s.resources := hmem
        rcases mark_decomp i.resource_name s.resources with ⟨heqm, hallm⟩
          | ⟨k1, rr, k2, hsplitm, hnamem, hk1, hmarkm⟩
        · rw [heqm] at hmem2
          have hne : r''.name ≠ i.resource_name := hallm r'' hmem2
          have h0 : holders s r''.name = 0 := hava r'' hmem2 hav''
          have h1 := hcnt r''.name
          rw [hceq r''.name (fun e => hne e.symm)] at h1
          omega
        · rw [hmarkm] at hmem2
          rcases List.mem_append.mp hmem2 with h1 | h2
          · have hne : r''.name ≠ i.resource_name := hk1 r'' h1
            have hm : r'' ∈ s.resources := by
              rw [hsplitm]; exact List.mem_append_left _ h1
            have h0 : holders s r''.name = 0 := hava r'' hm hav''
            have hx := hcnt r''.name
            rw [hceq r''.name (fun e => hne e.symm)] at hx
            omega
          · rcases List.mem_cons.mp h2 with rfl | h3
            · show holders _ ({ rr with available := true } : resource_t).name = 0
              have hrr : ({ rr with available := true } : resource_t).name
                  = i.resource_name := hnamem
              rw [hrr]
              exact hzero3
            · have hm : r'' ∈ s.resources := by
                rw [hsplitm]
                exact List.mem_append_right _ (List.mem_cons_of_mem _ h3)
              have hne : r''.name ≠ i.resource_name := by
                intro e
                have hnd' := hnd
                rw [hsplitm] at hnd'
                simp only [List.map_append, List.map_cons] at hnd'
                have h4 := (List.nodup_append.mp hnd').2.1
                have h5 := (List.nodup_cons.mp h4).1
                exact h5 (hnamem.trans e.symm ▸ List.mem_map_of_mem resource_t.name h3)
              have h0 : holders s r''.name = 0 := hava r'' hm hav''
              have hx := hcnt r''.name
              rw [hceq r''.name (fun e => hne e.symm)] at hx
              omega

theorem execute_instr_ResInv {p : Pid} {i : Option instr_t} {fuel : Nat} {s s' : SysState}
    (hi : ResInv s) (he : execute_instr p i fuel s = .ok s') : ResInv s' := by
  match i with
  | none => cases he; exact hi
  | some ⟨.REQ_OP, rn, msg⟩ => exact request_resource_ResInv hi he
  | some ⟨.SEND_OP, rn, msg⟩ => cases he; exact hi
  | some ⟨.RECV_OP, rn, msg⟩ => cases he; exact hi
  | some ⟨.REL_OP, rn, msg⟩ =>
    have he2 : (release_resource p ⟨.REL_OP, rn, msg⟩ fuel s
        >>= fun s2 => move_waiting_to_ready_based_on_resources fuel s2) = .ok s' := he
    cases hrel : release_resource p ⟨.REL_OP, rn, msg⟩ fuel s with
    | error e =>
      rw [hrel, error_bind] at he2
      exact Except.noConfusion he2
    | ok s2 =>
      rw [hrel, ok_bind] at he2
      simp only [move_waiting_to_ready_based_on_resources] at he2
      exact ResInv_of_sameHoldings (mwtr_loop_sameHoldings fuel none s2 s' he2)
        (release_resource_ResInv hi hrel)

theorem MStep_ResInv {s s' : SysState} (h : MStep s s') (hi : ResInv s) : ResInv s' := by
  cases h with
  | exec p i fuel _ _ he => exact execute_instr_ResInv hi he
  | arrivals b _ _ he =>
    exact ResInv_of_sameHoldings (check_for_new_arrivals_sameHoldings he) hi
  | toRq p _ _ he => exact ResInv_of_sameHoldings (move_proc_to_rq_sameHoldings he) hi
  | toWq p rn _ _ he => exact ResInv_of_sameHoldings (move_proc_to_wq_sameHoldings he) hi
  | toTq p _ _ he => exact ResInv_of_sameHoldings (move_proc_to_tq_sameHoldings he) hi
  | deqReady popt q' h' _ he =>
    refine ResInv_of_sameHoldings ?_ hi
    exact ⟨rfl, dequeue_pcb_resources he⟩
  | setSt p st _ _ he => exact ResInv_of_sameHoldings (setState_sameHoldings he) hi
  | setCursor p pc il _ hp =>
    refine ResInv_of_sameHoldings ?_ hi
    exact ⟨rfl, map_resources_hset hp rfl⟩
  | rmReady p fuel _ _ he =>
    exact ResInv_of_sameHoldings (remove_proc_from_readyq_sameHoldings he) hi
  | logE e _ => exact ResInv_of_sameHoldings ⟨rfl, rfl⟩ hi

theorem MReach_ResInv {s0 s : SysState} (h : MReach s0 s) (hi : ResInv s0) : ResInv s := by
  induction h with
  | refl => exact hi
  | tail h1 h2 ih => exact MStep_ResInv h2 ih

theorem preempt_check_ResInv {fuel : Nat} {cur cur' : Option Pid} {s s' : SysState}
    (hi : ResInv s) (he : preempt_check fuel cur s = .ok (cur', s')) : ResInv s' := by
  simp only [preempt_check] at he
  cases hf : find_highest_priority_proc fuel s with
  | error e =>
    rw [hf, error_bind] at he
    exact Except.noConfusion he
  | ok hp =>
    rw [hf, ok_bind] at he
    cases hp with
    | none =>
      cases he
      exact hi
    | some hh =>
      cases hhc : hget s.heap hh with
      | none =>
        simp only [hread, hhc, error_bind] at he
        exact Except.noConfusion he
      | some hc =>
        simp only [hread, hhc, ok_bind] at he
        cases cur with
        | none =>
          simp only [pure_bindE, eq_self_iff_true, if_true, ok_bind] at he
          cases hrm : remove_proc_from_readyq (some hh) fuel s with
          | error e =>
            rw [hrm, error_bind] at he
            exact Except.noConfusion he
          | ok s2 =>
            rw [hrm, ok_bind] at he
            cases hst : setState hh .RUNNING s2 with
            | error e =>
              rw [hst, error_bind] at he
              exact Except.noConfusion he
            | ok s3 =>
              rw [hst, ok_bind] at he
              cases he
              exact ResInv_of_sameHoldings (setState_sameHoldings hst)
                (ResInv_of_sameHoldings (remove_proc_from_readyq_sameHoldings hrm) hi)
        | some c =>
          cases hcc : hget s.heap c with
          | none =>
            simp only [hread, hcc, error_bind] at he
            exact Except.noConfusion he
          | some cc =>
            simp only [hread, hcc, ok_bind, pure_bindE] at he
            cases hhp : higher_priority hc.priority cc.priority with
            | false =>
              simp only [hhp, Bool.false_eq_true, if_false] at he
              cases he
              exact hi
            | true =>
              simp only [hhp, if_true] at he
              cases hst1 : setState c .READY s with
              | error e =>
                simp only [hst1, error_bind] at he
                exact Except.noConfusion he
              | ok s1 =>
                simp only [hst1, ok_bind] at he
                cases hmv : move_proc_to_rq (some c) s1 with
                | error e =>
                  simp only [hmv, error_bind] at he
                  exact Except.noConfusion he
                | ok s2 =>
                  simp only [hmv, ok_bind] at he
                  cases hrm : remove_proc_from_readyq (some hh) fuel s2 with
                  | error e =>
                    rw [hrm, error_bind] at he
                    exact Except.noConfusion he
                  | ok s3 =>
                    rw [hrm, ok_bind] at he
                    cases hst2 : setState hh .RUNNING s3 with
                    | error e =>
                      rw [hst2, error_bind] at he
                      exact Except.noConfusion he
                    | ok s4 =>
                      rw [hst2, ok_bind] at he
                      cases he
                      exact ResInv_of_sameHoldings (setState_sameHoldings hst2)
                        (ResInv_of_sameHoldings (remove_proc_from_readyq_sameHoldings hrm)
                          (ResInv_of_sameHoldings (move_proc_to_rq_sameHoldings hmv)
                            (ResInv_of_sameHoldings (setState_sameHoldings hst1) hi)))

theorem pri_select_phase_ResInv {fuel : Nat} {cur cur1 : Option Pid} {s s1 : SysState}
    (hi : ResInv s) (he : pri_select_phase fuel cur s = .ok (cur1, s1)) : ResInv s1 := by
  cases cur with
  | some c => cases he; exact hi
  | none =>
    simp only [pri_select_phase] at he
    cases hf : find_highest_priority_proc fuel s with
    | error e =>
      rw [hf, error_bind] at he
      exact Except.noConfusion he
    | ok hp =>
      rw [hf, ok_bind] at he
      cases hp with
      | none => cases he; exact hi
      | some p =>
        simp only [] at he
        cases hrm : remove_proc_from_readyq (some p) fuel s with
        | error e =>
          rw [hrm, error_bind] at he
          exact Except.noConfusion he
        | ok s2 =>
          rw [hrm, ok_bind] at he
          cases hst : setState p .RUNNING s2 with
          | error e =>
            rw [hst, error_bind] at he
            exact Except.noConfusion he
          | ok s3 =>
            rw [hst, ok_bind] at he
            cases he
            exact ResInv_of_sameHoldings (setState_sameHoldings hst)
              (ResInv_of_sameHoldings (remove_proc_from_readyq_sameHoldings hrm) hi)

theorem pri_cursor_phase_ResInv {c : Pid} {cur1 : Option Pid} {s s1 : SysState}
    (hi : ResInv s) (he : pri_cursor_phase c s = .ok (cur1, s1)) : ResInv s1 := by
  simp only [pri_cursor_phase] at he
  cases hpc : hget s.heap c with
  | none =>
    simp only [hread, hpc, error_bind] at he
    exact Except.noConfusion he
  | some pc2 =>
    simp only [hread, hpc, ok_bind] at he
    cases hni : pc2.next_instruction with
    | cons i rest =>
      rw [hni] at he
      simp only [] at he
      by_cases hst : pc2.state = .RUNNING
      · rw [if_pos hst] at he
        cases he
        refine ResInv_of_sameHoldings ?_ hi
        exact ⟨rfl, map_resources_hset hpc rfl⟩
      · rw [if_neg hst] at he
        cases he
        exact hi
    | nil =>
      rw [hni] at he
      simp only [] at he
      cases hst : setState c .TERMINATED s with
      | error e =>
        rw [hst, error_bind] at he
        exact Except.noConfusion he
      | ok s2 =>
        rw [hst, ok_bind] at he
        cases hmt : move_proc_to_tq (some c) s2 with
        | error e =>
          rw [hmt, error_bind] at he
          exact Except.noConfusion he
        | ok s3 =>
          rw [hmt, ok_bind] at he
          cases he
          exact ResInv_of_sameHoldings (move_proc_to_tq_sameHoldings hmt)
            (ResInv_of_sameHoldings (setState_sameHoldings hst) hi)

theorem pri_exec_phase_ResInv {fuel : Nat} {cur cur1 : Option Pid} {s s1 : SysState}
    (hi : ResInv s) (he : pri_exec_phase fuel cur s = .ok (cur1, s1)) : ResInv s1 := by
  cases cur with
  | none => cases he; exact hi
  | some c =>
    simp only [pri_exec_phase] at he
    cases hpc : hget s.heap c with
    | none =>
      simp only [hread, hpc, error_bind] at he
      exact Except.noConfusion he
    | some pc =>
      simp only [hread, hpc, ok_bind] at he
      by_cases hrun : pc.state = .RUNNING
      · rw [if_pos hrun] at he
        cases hex : execute_instr c pc.next_instruction.head? fuel s with
        | error e =>
          rw [hex, error_bind] at he
          exact Except.noConfusion he
        | ok sE =>
          rw [hex, ok_bind] at he
          have hiE := execute_instr_ResInv hi hex
          cases hca : check_for_new_arrivals sE with
          | error e =>
            rw [hca, error_bind] at he
            exact Except.noConfusion he
          | ok r =>
            match r with
            | (b, sA) =>
              rw [hca, ok_bind] at he
              have hiA := ResInv_of_sameHoldings (check_for_new_arrivals_sameHoldings hca) hiE
              cases hcp : pri_cursor_phase c sA with
              | error e =>
                rw [hcp, error_bind] at he
                exact Except.noConfusion he
              | ok r2 =>
                match r2 with
                | (cur2, sB) =>
                  rw [hcp, ok_bind] at he
                  have hiB := pri_cursor_phase_ResInv hiA hcp
                  simp only [] at he
                  cases b with
                  | false =>
                    rw [if_neg (by simp)] at he
                    simp only [pure_bindE] at he
                    cases hp2 : preempt_check fuel cur2 sB with
                    | error e =>
                      rw [hp2, error_bind] at he
                      exact Except.noConfusion he
                    | ok r3 =>
                      match r3 with
                      | (cur3, sC) =>
                        rw [hp2, ok_bind] at he
                        cases he
                        exact preempt_check_ResInv hiB hp2
                  | true =>
                    rw [if_pos rfl] at he
                    cases hp1 : preempt_check fuel cur2 sB with
                    | error e =>
                      rw [hp1, error_bind] at he
                      exact Except.noConfusion he
                    | ok r3 =>
                      match r3 with
                      | (cur3, sC) =>
                        rw [hp1, ok_bind] at he
                        simp only [] at he
                        have hiC := preempt_check_ResInv hiB hp1
                        cases hp2 : preempt_check fuel cur3 sC with
                        | error e =>
                          rw [hp2, error_bind] at he
                          exact Except.noConfusion he
                        | ok r4 =>
                          match r4 with
                          | (cur4, sD) =>
                            rw [hp2, ok_bind] at he
                            cases he
                            exact preempt_check_ResInv hiC hp2
      · rw [if_neg hrun] at he
        by_cases hwait : pc.state = .WAITING
        · rw [if_pos hwait] at he
          cases he
          exact hi
        · rw [if_neg hwait] at he
          cases he
          exact hi

theorem pri_phases_ResInv {fuel : Nat} {cur cur1 : Option Pid} {s s1 : SysState}
    (hi : ResInv s) (he : pri_phases fuel cur s = .ok (cur1, s1)) : ResInv s1 := by
  simp only [pri_phases] at he
  cases hsel : pri_select_phase fuel cur s with
  | error e =>
    rw [hsel, error_bind] at he
    exact Except.noConfusion he
  | ok r =>
    match r with
    | (curA, sA) =>
      rw [hsel, ok_bind] at he
      have hiA := pri_select_phase_ResInv hi hsel
      cases hex : pri_exec_phase fuel curA sA with
      | error e =>
        rw [hex, error_bind] at he
        exact Except.noConfusion he
      | ok r2 =>
        match r2 with
        | (curB, sB) =>
          rw [hex, ok_bind] at he
          cases he
          exact pri_exec_phase_ResInv hiA hex

theorem check_deadlock_ResInv (s2 : SysState) (h2 : ResInv s2) :
    ResInv (check_deadlock s2).2 := by
  by_cases hc : s2.readyq.first = none ∧ s2.waitingq.first ≠ none
  · simp only [check_deadlock, if_pos hc]
    exact ResInv_of_sameHoldings ⟨rfl, rfl⟩ h2
  · simp only [check_deadlock, if_neg hc]
    exact h2

theorem pri_body_ResInv {fuel : Nat} {cur cur' : Option Pid} {s s' : SysState} {brk : Bool}
    (hi : ResInv s) (he : pri_body fuel cur s = .ok (cur', s', brk)) : ResInv s' := by
  simp only [pri_body] at he
  cases hph : pri_phases fuel cur s with
  | error e =>
    rw [hph, error_bind] at he
    exact Except.noConfusion he
  | ok r =>
    match r with
    | (cur1, s1) =>
      rw [hph, ok_bind] at he
      have hi1 := pri_phases_ResInv hi hph
      cases cur1 with
      | some c =>
        simp only [pure_bindE] at he
        rw [if_neg (by simp)] at he
        cases hcd : check_deadlock s1 with
        | mk dl s2 =>
          rw [hcd] at he
          simp only [] at he
          cases he
          have hx := check_deadlock_ResInv s1 hi1
          rw [hcd] at hx
          exact hx
      | none =>
        simp only [] at he
        by_cases hq : s1.readyq.first = none ∧ s1.waitingq.first = none
        · rw [if_pos hq] at he
          cases hca : check_for_new_arrivals s1 with
          | error e =>
            rw [hca, error_bind] at he
            exact Except.noConfusion he
          | ok r2 =>
            match r2 with
            | (arr, s2) =>
              rw [hca, ok_bind] at he
              have hi2 := ResInv_of_sameHoldings (check_for_new_arrivals_sameHoldings hca) hi1
              simp only [pure_bindE] at he
              cases arr with
              | false =>
                simp only [Bool.not_false] at he
                rw [if_pos trivial] at he
                cases he
                exact hi2
              | true =>
                simp only [Bool.not_true] at he
                rw [if_neg (by simp)] at he
                cases hcd : check_deadlock s2 with
                | mk dl s3 =>
                  rw [hcd] at he
                  simp only [] at he
                  cases he
                  have hx := check_deadlock_ResInv s2 hi2
                  rw [hcd] at hx
                  exact hx
        · rw [if_neg hq] at he
          simp only [pure_bindE] at he
          rw [if_neg (by simp)] at he
          cases hcd : check_deadlock s1 with
          | mk dl s2 =>
            rw [hcd] at he
            simp only [] at he
            cases he
            have hx := check_deadlock_ResInv s1 hi1
            rw [hcd] at hx
            exact hx

theorem pri_loop_ResInv :
    ∀ {fuel : Nat} {cur : Option Pid} {s s' : SysState},
      ResInv s → pri_loop fuel cur s = .ok s' → ResInv s' := by
  intro fuel
  induction fuel with
  | zero => intro cur s s' hi he; exact Except.noConfusion he
  | succ fuel ih =>
    intro cur s s' hi he
    simp only [pri_loop] at he
    by_cases hc : s.readyq.first ≠ none ∨ s.waitingq.first ≠ none ∨ cur ≠ none
    · rw [if_pos hc] at he
      cases hb : pri_body fuel cur s with
      | error e =>
        rw [hb, error_bind] at he
        exact Except.noConfusion he
      | ok r =>
        match r with
        | (cur1, s1, brk) =>
          rw [hb, ok_bind] at he
          have hi1 := pri_body_ResInv hi hb
          cases brk with
          | true =>
            rw [if_pos rfl] at he
            cases he
            exact hi1
          | false =>
            rw [if_neg (by simp)] at he
            exact ih hi1 he
    · rw [if_neg hc] at he
      cases he
      exact hi

theorem fcfs_inner_ResInv {p : Pid} {fuel : Nat} :
    ∀ {cursor : List instr_t} {s s' : SysState},
      ResInv s → fcfs_inner p fuel cursor s = .ok s' → ResInv s' := by
  intro cursor
  induction cursor with
  | nil =>
    intro s s' hi he
    simp only [fcfs_inner] at he
    cases hpc : hget s.heap p with
    | none =>
      simp only [hread, hpc, error_bind] at he
      exact Except.noConfusion he
    | some pc =>
      simp only [hread, hpc, ok_bind] at he
      by_cases hw : pc.state = .WAITING
      · rw [if_neg (fun hcon => hcon hw)] at he
        cases he
        exact hi
      · rw [if_pos hw] at he
        exact ResInv_of_sameHoldings (move_proc_to_tq_sameHoldings he) hi
  | cons i rest ih =>
    intro s s' hi he
    simp only [fcfs_inner] at he
    cases hex : execute_instr p (some i) fuel s with
    | error e =>
      rw [hex, error_bind] at he
      exact Except.noConfusion he
    | ok sE =>
      rw [hex, ok_bind] at he
      have hiE := execute_instr_ResInv hi hex
      cases hca : check_for_new_arrivals sE with
      | error e =>
        rw [hca, error_bind] at he
        exact Except.noConfusion he
      | ok r =>
        match r with
        | (b, sA) =>
          rw [hca, ok_bind] at he
          have hiA := ResInv_of_sameHoldings (check_for_new_arrivals_sameHoldings hca) hiE
          cases hpc : hget sA.heap p with
          | none =>
            simp only [hread, hpc, error_bind] at he
            exact Except.noConfusion he
          | some pc =>
            simp only [hread, hpc, ok_bind] at he
            by_cases hw : pc.state = .WAITING
            · rw [if_pos hw] at he
              exact ResInv_of_sameHoldings (move_proc_to_wq_sameHoldings he) hiA
            · rw [if_neg hw] at he
              refine ih ?_ he
              refine ResInv_of_sameHoldings ?_ hiA
              exact ⟨rfl, map_resources_hset hpc rfl⟩

theorem fcfs_loop_ResInv :
    ∀ {fuel : Nat} {s s' : SysState}, ResInv s → fcfs_loop fuel s = .ok s' → ResInv s' := by
  intro fuel
  induction fuel with
  | zero => intro s s' hi he; exact Except.noConfusion he
  | succ fuel ih =>
    intro s s' hi he
    simp only [fcfs_loop] at he
    cases hf : s.readyq.first with
    | none =>
      rw [hf] at he
      cases he
      exact hi
    | some f =>
      rw [hf] at he
      cases hdq : dequeue_pcb (some s.readyq) s.heap with
      | error e =>
        rw [hdq, error_bind] at he
        exact Except.noConfusion he
      | ok r =>
        match r with
        | (popt, q2, h2) =>
          rw [hdq, ok_bind] at he
          have hiD : ResInv { s with heap := h2, readyq := q2.getD s.readyq } := by
            refine ResInv_of_sameHoldings ?_ hi
            exact ⟨rfl, dequeue_pcb_resources hdq⟩
          cases popt with
          | none =>
            simp only [] at he
            cases he
            exact hiD
          | some p =>
            simp only [] at he
            cases hst : setState p .RUNNING { s with heap := h2, readyq := q2.getD s.readyq } with
            | error e =>
              rw [hst, error_bind] at he
              exact Except.noConfusion he
            | ok s2 =>
              rw [hst, ok_bind] at he
              have hi2 := ResInv_of_sameHoldings (setState_sameHoldings hst) hiD
              cases hpc : hget s2.heap p with
              | none =>
                simp only [hread, hpc, error_bind] at he
                exact Except.noConfusion he
              | some pc =>
                simp only [hread, hpc, ok_bind] at he
                cases hin : fcfs_inner p fuel pc.next_instruction s2 with
                | error e =>
                  rw [hin, error_bind] at he
                  exact Except.noConfusion he
                | ok s3 =>
                  rw [hin, ok_bind] at he
                  exact ih (fcfs_inner_ResInv hi2 hin) he

theorem schedule_processes_ResInv {sched : schedule_t} {q : Int} {fuel : Nat}
    {s s' : SysState} (hi : ResInv s)
    (he : schedule_processes sched q fuel s = .ok s') : ResInv s' := by
  cases sched with
  | PRIOR => exact pri_loop_ResInv hi he
  | RR => exact fcfs_loop_ResInv hi he
  | FCFS => exact fcfs_loop_ResInv hi he

/-- C3: mutual exclusion.  From any state satisfying the resource
invariant (distinct ledger names, at most one holder per resource, no
holder of an Available record) — in particular any freshly loaded
workload — every state reached by primitive scheduler mutations, and the
final state of any complete `schedule_processes` run, again has at most
one holder for every resource, and a resource marked Available is held by
nobody. -/
theorem mutual_exclusion (s0 s : SysState) (hi : ResInv s0)
    (hreach : MReach s0 s ∨ ∃ (sched : schedule_t) (q : Int) (fuel : Nat),
        schedule_processes sched q fuel s0 = .ok s) :
    (∀ rn, holders s rn ≤ 1)
    ∧ (∀ r ∈ s.resources, r.available = true → holders s r.name = 0) := by
  have hs : ResInv s := by
    rcases hreach with h | ⟨sched, q, fuel, h⟩
    · exact MReach_ResInv h hi
    · exact schedule_processes_ResInv hi h
  exact ⟨hs.2.1, hs.2.2⟩

/-- Witness for C3: the invariant holds of the final state of a concrete
acquire-release run. -/
theorem mutual_exclusion_witness :
    (∀ rn, holders exMutEnd rn ≤ 1)
    ∧ (∀ r ∈ exMutEnd.resources, r.available = true → holders exMutEnd r.name = 0) :=
  mutual_exclusion exMut exMutEnd
    ⟨by decide,
     fun rn => by
       have h : holders exMut rn = 0 := rfl
       omega,
     fun r hr ha => rfl⟩
    (Or.inr ⟨.FCFS, 1, 5, rfl⟩)

/-- C5: request semantics.  If some ledger record named R is Available,
`request_resource` marks the first such record Held, head-inserts a handle
for R on the process's held list and logs "acquired"; otherwise — every
record named R Held, or no such record — the process is moved to the
waiting queue: its state becomes WAITING, a "waiting" event is logged, it
becomes the waiting queue's tail, and the ledger is untouched. -/
theorem request_resource_spec (s : SysState) (p : Pid) (i : instr_t) (pc : pcb_t)
    (hp : hget s.heap p = some pc)
    (hq : s.waitingq.first = none
          ∨ ∃ l lc, s.waitingq.last = some l ∧ hget s.heap l = some lc) :
    ((∃ r ∈ s.resources, r.name = i.resource_name ∧ r.available = true) →
      ∃ l1 r l3, s.resources = l1 ++ r :: l3 ∧ r.name = i.resource_name
        ∧ r.available = true
        ∧ (∀ x ∈ l1, ¬(x.name = i.resource_name ∧ x.available = true))
        ∧ request_resource p i s = .ok (logEvent (.acquired pc.name i.resource_name)
            { s with
              resources := l1 ++ { r with available := false } :: l3,
              heap := hset s.heap p
                { pc with resources := i.resource_name :: pc.resources } }))
    ∧ ((∀ r ∈ s.resources, ¬(r.name = i.resource_name ∧ r.available = true)) →
      ∃ s2, request_resource p i s = .ok s2
        ∧ (hget s2.heap p).map pcb_t.state = some .WAITING
        ∧ s2.events = s.events ++ [.evWaiting pc.name i.resource_name]
        ∧ s2.waitingq.last = some p
        ∧ s2.resources = s.resources
        ∧ s2.readyq = s.readyq) := by
  constructor
  · intro hex
    cases hscan : request_scan s.resources i.resource_name with
    | none =>
      obtain ⟨r, hr, hn, hav⟩ := hex
      exact absurd ⟨hn, hav⟩ (request_scan_none.mp hscan r hr)
    | some l2 =>
      obtain ⟨l1, r, l3, hsplit, hn, hav, hnone, hres⟩ := request_scan_some hscan
      refine ⟨l1, r, l3, hsplit, hn, hav, hnone, ?_⟩
      simp only [request_resource, hread, hp, ok_bind, hscan, hres]
  · intro hall
    have hscan : request_scan s.resources i.resource_name = none :=
      request_scan_none.mpr hall
    obtain ⟨s2, h2, hstate, hev, hlast, hresources, hready⟩ := move_proc_to_wq_ok i.resource_name hp hq
    refine ⟨s2, ?_, hstate, hev, hlast, hresources, hready⟩
    simp only [request_resource, hread, hp, ok_bind, hscan]
    exact h2

/-- Witness for C5: on `exReq` the available record for A is found (first
conjunct of the specification theorem), and requesting the absent B moves
the process to WAITING (second conjunct). -/
theorem request_resource_spec_witness :
    (∃ l1 r l3, exReq.resources = l1 ++ r :: l3 ∧ r.name = "A" ∧ r.available = true
       ∧ (∀ x ∈ l1, ¬(x.name = "A" ∧ x.available = true)))
    ∧ (∃ s2, request_resource 0 (reqI "B") exReq = .ok s2
       ∧ (hget s2.heap 0).map pcb_t.state = some .WAITING) := by
  constructor
  · obtain ⟨l1, r, l3, h1, h2, h3, h4, _⟩ :=
      (request_resource_spec exReq 0 (reqI "A") (mkPcb "P" 0 [reqI "A"]) rfl (Or.inl rfl)).1
        ⟨⟨"A", true⟩, by decide, rfl, rfl⟩
    exact ⟨l1, r, l3, h1, h2, h3, h4⟩
  · obtain ⟨s2, h1, h2, _⟩ :=
      (request_resource_spec exReq 0 (reqI "B") (mkPcb "P" 0 [reqI "A"]) rfl (Or.inl rfl)).2
        (by decide)
    exact ⟨s2, h1, h2⟩


/-! ## Queue representation lemmas and the remaining claim theorems -/

/-! ## Basic chain lemmas -/

theorem chain_none_nil (h : List pcb_t) : chain h none [] = true := rfl

theorem chain_none_cons (h : List pcb_t) (q : Pid) (qs : List Pid) :
    chain h none (q :: qs) = false := rfl

theorem chain_some_nil (h : List pcb_t) (p : Pid) : chain h (some p) [] = false := rfl

theorem chain_cons (h : List pcb_t) (p q : Pid) (qs : List Pid) :
    chain h (some p) (q :: qs) =
      (p == q &&
        (match hget h p with
         | some pc => chain h pc.next qs
         | none => false)) := rfl

theorem chain_cons_elim {h : List pcb_t} {p q : Pid} {qs : List Pid}
    (hc : chain h (some p) (q :: qs) = true) :
    p = q ∧ ∃ pc, hget h p = some pc ∧ chain h pc.next qs = true := by
  rw [chain_cons] at hc
  rcases Bool.and_eq_true_iff.mp hc with ⟨h1, h2⟩
  refine ⟨by simpa using h1, ?_⟩
  cases hp : hget h p with
  | none => rw [hp] at h2; exact absurd h2 (by simp)
  | some pc => rw [hp] at h2; exact ⟨pc, rfl, h2⟩

theorem chain_cons_intro {h : List pcb_t} {q : Pid} {qs : List Pid} {pc : pcb_t}
    (hp : hget h q = some pc) (hrest : chain h pc.next qs = true) :
    chain h (some q) (q :: qs) = true := by
  rw [chain_cons]
  refine Bool.and_eq_true_iff.mpr ⟨by simp, ?_⟩
  rw [hp]
  exact hrest

theorem chain_none_eq {h : List pcb_t} {ls : List Pid}
    (hc : chain h none ls = true) : ls = [] := by
  cases ls with
  | nil => rfl
  | cons q qs => rw [chain_none_cons] at hc; exact absurd hc (by simp)

theorem chain_head {h : List pcb_t} {o : Option Pid} {ls : List Pid}
    (hc : chain h o ls = true) : o = ls.head? := by
  cases o with
  | none => rw [chain_none_eq hc]; rfl
  | some p =>
    cases ls with
    | nil => rw [chain_some_nil] at hc; exact absurd hc (by simp)
    | cons q qs => rw [(chain_cons_elim hc).1]; rfl

theorem chain_valid {h : List pcb_t} :
    ∀ {ls : List Pid} {o : Option Pid}, chain h o ls = true →
      ∀ x ∈ ls, ∃ pc, hget h x = some pc := by
  intro ls
  induction ls with
  | nil => intro o _ x hx; cases hx
  | cons q qs ih =>
    intro o hc x hx
    cases o with
    | none => rw [chain_none_cons] at hc; exact absurd hc (by simp)
    | some p =>
      obtain ⟨hpq, pc, hp, hrest⟩ := chain_cons_elim hc
      rcases List.mem_cons.mp hx with rfl | hx'
      · exact ⟨pc, hpq ▸ hp⟩
      · exact ih hrest x hx'

theorem chain_hset {h : List pcb_t} {y : Pid} {x : pcb_t} :
    ∀ {ls : List Pid} {o : Option Pid}, chain h o ls = true → y ∉ ls →
      chain (hset h y x) o ls = true := by
  intro ls
  induction ls with
  | nil =>
    intro o hc _
    cases o with
    | none => exact rfl
    | some p => rw [chain_some_nil] at hc; exact absurd hc (by simp)
  | cons q qs ih =>
    intro o hc hy
    cases o with
    | none => rw [chain_none_cons] at hc; exact absurd hc (by simp)
    | some p =>
      obtain ⟨hpq, pc, hp, hrest⟩ := chain_cons_elim hc
      have hyp : y ≠ p := fun hcontra => hy (by rw [hcontra, hpq]; exact List.mem_cons_self q qs)
      rw [chain_cons]
      refine Bool.and_eq_true_iff.mpr ⟨by simpa using hpq, ?_⟩
      rw [hget_hset_ne hyp x, hp]
      exact ih hrest (fun hmem => hy (List.mem_cons_of_mem q hmem))

theorem chain_det {h : List pcb_t} :
    ∀ {ls ls' : List Pid} {o : Option Pid},
      chain h o ls = true → chain h o ls' = true → ls = ls' := by
  intro ls
  induction ls with
  | nil =>
    intro ls' o hc hc'
    cases o with
    | none => exact (chain_none_eq hc').symm
    | some p => rw [chain_some_nil] at hc; exact absurd hc (by simp)
  | cons q qs ih =>
    intro ls' o hc hc'
    cases o with
    | none => rw [chain_none_cons] at hc; exact absurd hc (by simp)
    | some p =>
      obtain ⟨hpq, pc, hp, hrest⟩ := chain_cons_elim hc
      cases ls' with
      | nil => rw [chain_some_nil] at hc'; exact absurd hc' (by simp)
      | cons q' qs' =>
        obtain ⟨hpq', pc', hp', hrest'⟩ := chain_cons_elim hc'
        have hq : q = q' := hpq ▸ hpq'
        have hpc : pc = pc' := by rw [hp] at hp'; exact Option.some.inj hp'
        rw [hq, ih hrest (hpc ▸ hrest')]

theorem chain_suffix {h : List pcb_t} :
    ∀ {l1 : List Pid} {x : Pid} {l2 : List Pid} {o : Option Pid},
      chain h o (l1 ++ x :: l2) = true → chain h (some x) (x :: l2) = true := by
  intro l1
  induction l1 with
  | nil =>
    intro x l2 o hc
    have := chain_head hc
    simp only [List.nil_append, List.head?_cons] at this
    rw [this] at hc
    exact hc
  | cons a l1 ih =>
    intro x l2 o hc
    cases o with
    | none => rw [List.cons_append, chain_none_cons] at hc; exact absurd hc (by simp)
    | some p =>
      rw [List.cons_append] at hc
      obtain ⟨_, pc, _, hrest⟩ := chain_cons_elim hc
      exact ih hrest

theorem chain_nodup {h : List pcb_t} :
    ∀ {ls : List Pid} {o : Option Pid}, chain h o ls = true → ls.Nodup := by
  intro ls
  induction ls with
  | nil => exact fun _ => List.nodup_nil
  | cons q qs ih =>
    intro o hc
    cases o with
    | none => rw [chain_none_cons] at hc; exact absurd hc (by simp)
    | some p =>
      obtain ⟨hpq, pc, hp, hrest⟩ := chain_cons_elim hc
      refine List.nodup_cons.mpr ⟨?_, ih hrest⟩
      intro hmem
      obtain ⟨l1, l2, hqs⟩ := List.append_of_mem hmem
      subst hqs
      have h2 : chain h (some q) (q :: l2) = true := chain_suffix hrest
      have h1 : chain h (some q) (q :: (l1 ++ q :: l2)) = true := by
        rw [hpq] at hc; exact hc
      have heq := List.cons.inj (chain_det h1 h2)
      have hlen := congrArg List.length heq.2
      simp [List.length_append] at hlen
      omega

theorem chain_nil_next {h : List pcb_t} {o : Option Pid}
    (hc : chain h o [] = true) : o = none := by
  cases o with
  | none => rfl
  | some p => rw [chain_some_nil] at hc; exact absurd hc (by simp)

theorem chain_last_next {h : List pcb_t} :
    ∀ {ls : List Pid} {o : Option Pid} {lst : Pid} {lc : pcb_t},
      chain h o ls = true → ls.getLast? = some lst → hget h lst = some lc →
      lc.next = none := by
  intro ls
  induction ls with
  | nil => intro o lst lc _ hl; simp at hl
  | cons q qs ih =>
    intro o lst lc hc hl hg
    cases o with
    | none => rw [chain_none_cons] at hc; exact absurd hc (by simp)
    | some p =>
      obtain ⟨hpq, pc, hp, hrest⟩ := chain_cons_elim hc
      cases qs with
      | nil =>
        have hlq : lst = q := by simpa using hl.symm
        subst hlq
        rw [← hpq, hp] at hg
        have hpc : pc = lc := Option.some.inj hg
        subst hpc
        exact chain_nil_next hrest
      | cons b bs =>
        rw [List.getLast?_cons_cons] at hl
        exact ih hrest hl hg

theorem chain_congr {h h' : List pcb_t} :
    ∀ {ls : List Pid} {o : Option Pid}, (∀ z ∈ ls, hget h' z = hget h z) →
      chain h' o ls = chain h o ls := by
  intro ls
  induction ls with
  | nil =>
    intro o _
    cases o with
    | none => rfl
    | some p => rw [chain_some_nil, chain_some_nil]
  | cons q qs ih =>
    intro o hag
    cases o with
    | none => rw [chain_none_cons, chain_none_cons]
    | some p =>
      rw [chain_cons, chain_cons]
      by_cases hb : (p == q) = true
      · have hpq : p = q := by simpa using hb
        rw [hag p (hpq ▸ List.mem_cons_self q qs)]
        cases hg : hget h p with
        | none => rfl
        | some pc =>
          show (p == q && chain h' pc.next qs) = (p == q && chain h pc.next qs)
          rw [ih (fun z hz => hag z (List.mem_cons_of_mem q hz))]
      · rw [Bool.not_eq_true] at hb
        rw [hb]
        simp

theorem chain_snoc {h : List pcb_t} {p lst : Pid} {lstc A : pcb_t}
    (hplen : p < h.length) (hAnext : A.next = none) :
    ∀ {ls : List Pid} {o : Option Pid},
      chain h o ls = true → p ∉ ls → ls.getLast? = some lst →
      hget h lst = some lstc →
      chain (hset (hset h p A) lst { lstc with next := some p }) o (ls ++ [p]) = true := by
  intro ls
  induction ls with
  | nil => intro o _ _ hl _; simp at hl
  | cons q qs ih =>
    intro o hc hnm hl hlst
    cases o with
    | none => rw [chain_none_cons] at hc; exact absurd hc (by simp)
    | some p0 =>
      obtain ⟨hpq, pc, hp, hrest⟩ := chain_cons_elim hc
      subst hpq
      have hpp0 : p0 ≠ p := fun hcontra => hnm (hcontra ▸ List.mem_cons_self p0 qs)
      cases qs with
      | nil =>
        have hlq : lst = p0 := by simpa using hl.symm
        subst hlq
        have hlc : pc = lstc := by rw [hp] at hlst; exact Option.some.inj hlst
        subst hlc
        have hlstlen : lst < (hset h p A).length := by
          rw [length_hset]; exact hget_lt hp
        have h1 : hget (hset (hset h p A) lst { pc with next := some p }) lst
            = some { pc with next := some p } := hget_hset_self hlstlen _
        have h2 : hget (hset (hset h p A) lst { pc with next := some p }) p
            = some A := by
          rw [hget_hset_ne hpp0 _, hget_hset_self hplen]
        refine chain_cons_intro h1 ?_
        show chain _ (some p) ([] ++ [p]) = true
        refine chain_cons_intro h2 ?_
        show chain _ A.next [] = true
        rw [hAnext]
        exact chain_none_nil _
      | cons b bs =>
        rw [List.getLast?_cons_cons] at hl
        have hlmem : lst ∈ b :: bs := List.mem_of_getLast?_eq_some hl
        have hnd : (p0 :: b :: bs).Nodup := chain_nodup hc
        have hq_ne_lst : p0 ≠ lst := by
          intro hcontra
          exact (List.nodup_cons.mp hnd).1 (hcontra ▸ hlmem)
        have hg2 : hget (hset (hset h p A) lst { lstc with next := some p }) p0
            = some pc := by
          rw [hget_hset_ne (Ne.symm hq_ne_lst) _, hget_hset_ne (Ne.symm hpp0) _]
          exact hp
        exact chain_cons_intro hg2
          (ih hrest (fun hmem => hnm (List.mem_cons_of_mem p0 hmem)) hl hlst)

theorem hget_map_hset {h : List pcb_t} {y : Pid} {yc x : pcb_t} (hy : hget h y = some yc)
    {A : Type} (f : pcb_t → A) (hf : f x = f yc) (z : Pid) :
    (hget (hset h y x) z).map f = (hget h z).map f := by
  by_cases hzy : z = y
  · subst hzy
    rw [hget_hset_self (hget_lt hy) x, hy, Option.map_some', Option.map_some', hf]
  · rw [hget_hset_ne (Ne.symm hzy) x]

theorem head?_of_chain {h : List pcb_t} {o : Option Pid} {ls : List Pid}
    (hc : chain h o ls = true) : ls.head? = o := (chain_head hc).symm

/-- Successful enqueue of a fresh process under `repQ`: the process is
appended at the tail with a cleared link. -/
theorem enqueue_pcb_rep {h : List pcb_t} {q : pcb_queue_t} {ls : List Pid} {p : Pid}
    {pc : pcb_t} (hr : repQ h q ls) (hp : hget h p = some pc) (hnm : p ∉ ls) :
    ∃ h', enqueue_pcb (some p) (some q) h
        = .ok (some ⟨(ls ++ [p]).head?, some p⟩, h')
      ∧ repQ h' ⟨(ls ++ [p]).head?, some p⟩ (ls ++ [p])
      ∧ (∀ z, z ∉ ls → z ≠ p → hget h' z = hget h z)
      ∧ hget h' p = some { pc with next := none }
      ∧ (∀ z, (hget h' z).map pcbCore = (hget h z).map pcbCore)
      ∧ (∀ z, (hget h' z).map pcb_t.state = (hget h z).map pcb_t.state)
      ∧ h'.length = h.length := by
  obtain ⟨hc, hl⟩ := hr
  have hplen : p < h.length := hget_lt hp
  cases ls with
  | nil =>
    have hfirst : q.first = none := by rw [chain_head hc]; rfl
    refine ⟨hset h p { pc with next := none }, ?_, ?_, ?_, ?_, ?_, ?_, ?_⟩
    · show enqueue_pcb (some p) (some q) h = _
      simp only [enqueue_pcb, hread, hp, ok_bind, hfirst]
      rfl
    · constructor
      · exact chain_cons_intro (hget_hset_self hplen _) rfl
      · rfl
    · intro z _ hzp
      exact hget_hset_ne (Ne.symm hzp) _
    · exact hget_hset_self hplen _
    · exact hget_map_hset (x := { pc with next := none }) hp pcbCore rfl
    · exact hget_map_hset (x := { pc with next := none }) hp pcb_t.state rfl
    · exact length_hset h p _
  | cons a as =>
    have hfirst : q.first = some a := by rw [chain_head hc]; rfl
    obtain ⟨lst, hlst⟩ : ∃ lst, (a :: as).getLast? = some lst :=
      ⟨(a :: as).getLast (by simp), List.getLast?_eq_getLast _ (by simp)⟩
    obtain ⟨lstc, hlstc⟩ := chain_valid hc lst (List.mem_of_getLast?_eq_some hlst)
    have hlast : q.last = some lst := hl.trans hlst
    have hplst : p ≠ lst := fun hcontra =>
      hnm (hcontra ▸ List.mem_of_getLast?_eq_some hlst)
    have hlst2 : hget (hset h p { pc with next := none }) lst = some lstc := by
      rw [hget_hset_ne hplst _]; exact hlstc
    refine ⟨hset (hset h p { pc with next := none }) lst { lstc with next := some p },
      ?_, ?_, ?_, ?_, ?_, ?_, ?_⟩
    · simp only [enqueue_pcb, hread, hp, ok_bind, hfirst, hlast, hlst2]
      rfl
    · constructor
      · have := chain_snoc (A := { pc with next := none }) hplen rfl
          hc hnm hlst hlstc
        have hh : ((a :: as) ++ [p]).head? = q.first := by
          rw [chain_head hc]; rfl
        rw [hh]
        exact this
      · rw [List.getLast?_concat]
    · intro z hzl hzp
      have hzlst : z ≠ lst := fun hcontra => hzl (hcontra ▸ List.mem_of_getLast?_eq_some hlst)
      rw [hget_hset_ne (Ne.symm hzlst) _, hget_hset_ne (Ne.symm hzp) _]
    · rw [hget_hset_ne (Ne.symm hplst) _, hget_hset_self hplen]
    · intro z
      rw [hget_map_hset (x := { lstc with next := some p }) hlst2 pcbCore rfl z,
        hget_map_hset (x := { pc with next := none }) hp pcbCore rfl z]
    · intro z
      rw [hget_map_hset (x := { lstc with next := some p }) hlst2 pcb_t.state rfl z,
        hget_map_hset (x := { pc with next := none }) hp pcb_t.state rfl z]
    · rw [length_hset, length_hset]
  
/-- Successful dequeue under `repQ`: the former head is returned with its
link cleared and the tail is still well represented. -/
theorem dequeue_pcb_rep {h : List pcb_t} {q : pcb_queue_t} {p : Pid} {ls : List Pid}
    (hr : repQ h q (p :: ls)) :
    ∃ pc, hget h p = some pc
      ∧ dequeue_pcb (some q) h
        = .ok (some p, some ⟨ls.head?, if ls.isEmpty then none else q.last⟩,
            hset h p { pc with next := none })
      ∧ repQ (hset h p { pc with next := none })
          ⟨ls.head?, if ls.isEmpty then none else q.last⟩ ls
      ∧ (∀ z, z ≠ p → hget (hset h p { pc with next := none }) z = hget h z)
      ∧ hget (hset h p { pc with next := none }) p = some { pc with next := none } := by
  obtain ⟨hc, hl⟩ := hr
  have hfirst : q.first = some p := by rw [chain_head hc]; rfl
  obtain ⟨hpq, pc, hp, hrest⟩ := chain_cons_elim (hfirst ▸ hc)
  have hplen : p < h.length := hget_lt hp
  have hnd := chain_nodup (hfirst ▸ hc)
  have hpls : p ∉ ls := (List.nodup_cons.mp hnd).1
  have hnext : pc.next = ls.head? := by rw [chain_head hrest]
  refine ⟨pc, hp, ?_, ?_, ?_, ?_⟩
  · show dequeue_pcb (some q) h = _
    simp only [dequeue_pcb, hread, hfirst, hp, ok_bind]
    cases ls with
    | nil =>
      have : pc.next = none := by rw [hnext]; rfl
      rw [this]
      rfl
    | cons b bs =>
      have : pc.next = some b := by rw [hnext]; rfl
      rw [this]
      rfl
  · constructor
    · show chain _ ls.head? ls = true
      have := chain_hset (x := { pc with next := none }) hrest hpls
      rw [hnext] at this
      exact this
    · cases ls with
      | nil => rfl
      | cons b bs =>
        show q.last = (b :: bs).getLast?
        rw [hl, List.getLast?_cons_cons]
  · intro z hzp
    exact hget_hset_ne (Ne.symm hzp) _
  · exact hget_hset_self hplen _

/-- C10 (amended): under a well-formed queue representation, and for a
process not already in the queue, the queue operations are total at their
interface: dequeue of an absent or empty queue returns nothing and changes
nothing, enqueue with an absent argument is a no-op, a successful dequeue
returns the former head with its link cleared and leaves the tail
represented, enqueue appends the fresh process at the tail with a cleared
link, and the first/last pointers are consistent (first is NULL iff last
is). -/
theorem queue_ops_spec (h : List pcb_t) (q : pcb_queue_t) (ls : List Pid)
    (p : Pid) (pc : pcb_t)
    (hr : repQ h q ls) (hp : hget h p = some pc) (hfresh : p ∉ ls) :
    dequeue_pcb none h = .ok (none, none, h)
    ∧ (ls = [] → dequeue_pcb (some q) h = .ok (none, some q, h))
    ∧ enqueue_pcb none (some q) h = .ok (some q, h)
    ∧ enqueue_pcb (some p) none h = .ok (none, h)
    ∧ (∀ x xs, ls = x :: xs → ∃ xc, hget h x = some xc
        ∧ dequeue_pcb (some q) h
            = .ok (some x, some ⟨xs.head?, if xs.isEmpty then none else q.last⟩,
                hset h x { xc with next := none })
        ∧ repQ (hset h x { xc with next := none })
            ⟨xs.head?, if xs.isEmpty then none else q.last⟩ xs
        ∧ (hget (hset h x { xc with next := none }) x).map pcb_t.next = some none)
    ∧ (∃ h', enqueue_pcb (some p) (some q) h = .ok (some ⟨(ls ++ [p]).head?, some p⟩, h')
        ∧ repQ h' ⟨(ls ++ [p]).head?, some p⟩ (ls ++ [p])
        ∧ (hget h' p).map pcb_t.next = some none)
    ∧ (q.first = none ↔ q.last = none) := by
  obtain ⟨hc, hl⟩ := hr
  refine ⟨rfl, ?_, rfl, rfl, ?_, ?_, ?_⟩
  · intro hnil
    subst hnil
    have hfirst : q.first = none := by rw [chain_head hc]; rfl
    simp only [dequeue_pcb, hfirst]
  · intro x xs hxs
    subst hxs
    obtain ⟨xc, hx, hdeq, hrep, _, hx2⟩ := dequeue_pcb_rep ⟨hc, hl⟩
    exact ⟨xc, hx, hdeq, hrep, by rw [hx2]; rfl⟩
  · obtain ⟨h', henq, hrep, _, hp2, _, _, _⟩ := enqueue_pcb_rep ⟨hc, hl⟩ hp hfresh
    exact ⟨h', henq, hrep, by rw [hp2]; rfl⟩
  · rw [chain_head hc, hl]
    constructor
    · intro hh
      rw [List.head?_eq_none_iff.mp hh]
      rfl
    · intro hh
      rw [List.getLast?_eq_none_iff.mp hh]
      rfl

theorem queue_ops_spec_witness :
    ∃ h', enqueue_pcb (some 1) (some ⟨some 0, some 0⟩) exQh
        = .ok (some ⟨some 0, some 1⟩, h')
      ∧ repQ h' ⟨some 0, some 1⟩ [0, 1]
      ∧ (hget h' 1).map pcb_t.next = some none :=
  (queue_ops_spec exQh ⟨some 0, some 0⟩ [0] 1 (mkPcb "B" 0 [])
    ⟨rfl, rfl⟩ rfl (by decide)).2.2.2.2.2.1

/-- C10 counterexample: `enqueue_pcb` of the node that is already the
queue's tail (exactly what the FCFS scheduler does when it moves a blocked
process to the waiting queue a second time) self-links the node: the
resulting queue object represents no finite pid list at all, so "enqueue
always places the process at the tail with a cleared link, keeping the
first/last pointers consistent" fails without the freshness premise. -/
theorem enqueue_self_link_counterexample :
    enqueue_pcb (some 0) (some ⟨some 0, some 0⟩) [mkPcb "P" 0 []]
      = .ok (some ⟨some 0, some 0⟩, [{ mkPcb "P" 0 [] with next := some 0 }])
    ∧ ¬ ∃ ls : List Pid,
        repQ [{ mkPcb "P" 0 [] with next := some 0 }] ⟨some 0, some 0⟩ ls := by
  constructor
  · rfl
  · rintro ⟨ls, hc, hl⟩
    cases ls with
    | nil => exact absurd hc (by rw [chain_some_nil]; simp)
    | cons q qs =>
      obtain ⟨hpq, pc, hp, hrest⟩ := chain_cons_elim hc
      cases hpq
      have hnd := chain_nodup hc
      have hpc : pc = { mkPcb "P" 0 [] with next := some 0 } :=
        Option.some.inj hp.symm
      rw [hpc] at hrest
      have hh : qs.head? = some 0 := (chain_head hrest).symm
      cases qs with
      | nil => simp at hh
      | cons b bs =>
        have hb : b = 0 := by simpa using hh
        subst hb
        exact (List.nodup_cons.mp hnd).1 (List.mem_cons_self 0 bs)

/-- The ready-queue scan keeps the first node whose priority strictly
exceeds every priority seen before it: it returns `best` unchanged when no
node beats `bpri`, and otherwise the first maximal node of the remaining
chain. -/
theorem fhpp_loop_spec {h : List pcb_t} :
    ∀ {ls : List Pid} {o : Option Pid} {fuel : Nat} {best : Option Pid} {bpri : Int},
      chain h o ls = true → ls.length ≤ fuel →
      ∃ r, fhpp_loop h fuel o best bpri = .ok r
        ∧ ((r = best ∧ ∀ x ∈ ls, ∀ xc, hget h x = some xc → xc.priority ≤ bpri)
          ∨ (∃ b bc l1 l2, r = some b ∧ ls = l1 ++ b :: l2 ∧ hget h b = some bc
              ∧ bpri < bc.priority
              ∧ (∀ x ∈ l1, ∀ xc, hget h x = some xc → xc.priority < bc.priority)
              ∧ (∀ x ∈ l2, ∀ xc, hget h x = some xc → xc.priority ≤ bc.priority))) := by
  intro ls
  induction ls with
  | nil =>
    intro o fuel best bpri hc _
    rw [chain_nil_next hc]
    refine ⟨best, ?_, Or.inl ⟨rfl, by intro x hx; cases hx⟩⟩
    cases fuel <;> rfl
  | cons q qs ih =>
    intro o fuel best bpri hc hlen
    cases o with
    | none => rw [chain_none_cons] at hc; exact absurd hc (by simp)
    | some p =>
      obtain ⟨hpq, pc, hp, hrest⟩ := chain_cons_elim hc
      cases hpq
      cases fuel with
      | zero => simp at hlen
      | succ f =>
        have hlen2 : qs.length ≤ f := by
          simp only [List.length_cons] at hlen
          omega
        have heq : fhpp_loop h (f + 1) (some q) best bpri
            = if bpri < pc.priority then fhpp_loop h f pc.next (some q) pc.priority
              else fhpp_loop h f pc.next best bpri := by
          simp only [fhpp_loop, hread, hp, ok_bind]
        by_cases hlt : bpri < pc.priority
        · obtain ⟨r, hr, hcase⟩ := @ih _ f (some q) pc.priority hrest hlen2
          refine ⟨r, ?_, ?_⟩
          · rw [heq, if_pos hlt]; exact hr
          · rcases hcase with ⟨hrb, hall⟩ | ⟨b, bc, l1, l2, hrb, hsplit, hgb, hblt, hl1, hl2⟩
            · refine Or.inr ⟨q, pc, [], qs, hrb, rfl, hp, hlt, ?_, hall⟩
              intro x hx; cases hx
            · refine Or.inr ⟨b, bc, q :: l1, l2, hrb, by rw [hsplit, List.cons_append], hgb,
                lt_trans hlt hblt, ?_, hl2⟩
              intro x hx xc hxc
              rcases List.mem_cons.mp hx with rfl | hx'
              · have : xc = pc := by rw [hp] at hxc; exact Option.some.inj hxc.symm
                rw [this]; exact hblt
              · exact hl1 x hx' xc hxc
        · obtain ⟨r, hr, hcase⟩ := @ih _ f best bpri hrest hlen2
          refine ⟨r, ?_, ?_⟩
          · rw [heq, if_neg hlt]; exact hr
          · have hle : pc.priority ≤ bpri := not_lt.mp hlt
            rcases hcase with ⟨hrb, hall⟩ | ⟨b, bc, l1, l2, hrb, hsplit, hgb, hblt, hl1, hl2⟩
            · refine Or.inl ⟨hrb, ?_⟩
              intro x hx xc hxc
              rcases List.mem_cons.mp hx with rfl | hx'
              · have : xc = pc := by rw [hp] at hxc; exact Option.some.inj hxc.symm
                rw [this]; exact hle
              · exact hall x hx' xc hxc
            · refine Or.inr ⟨b, bc, q :: l1, l2, hrb, by rw [hsplit, List.cons_append], hgb, hblt, ?_, hl2⟩
              intro x hx xc hxc
              rcases List.mem_cons.mp hx with rfl | hx'
              · have : xc = pc := by rw [hp] at hxc; exact Option.some.inj hxc.symm
                rw [this]; exact lt_of_le_of_lt hle hblt
              · exact hl1 x hx' xc hxc

/-- `find_highest_priority_proc` returns the first maximal-priority node of
the ready chain (or NULL when no ready priority exceeds `INT_MIN`). -/
theorem find_highest_spec {s : SysState} {ls : List Pid} {fuel : Nat}
    (hr : repQ s.heap s.readyq ls) (hf : ls.length ≤ fuel) :
    ∃ r, find_highest_priority_proc fuel s = .ok r
      ∧ ((r = none ∧ ∀ x ∈ ls, ∀ xc, hget s.heap x = some xc → xc.priority ≤ INT_MIN)
        ∨ (∃ b bc l1 l2, r = some b ∧ ls = l1 ++ b :: l2 ∧ hget s.heap b = some bc
            ∧ INT_MIN < bc.priority
            ∧ (∀ x ∈ l1, ∀ xc, hget s.heap x = some xc → xc.priority < bc.priority)
            ∧ (∀ x ∈ l2, ∀ xc, hget s.heap x = some xc → xc.priority ≤ bc.priority))) :=
  fhpp_loop_spec hr.1 hf

/-- The predecessor scan of `remove_proc_from_readyq` finds the unique
in-chain node whose link points at the process being removed. -/
theorem rpfr_scan_spec {h : List pcb_t} {p : Pid} :
    ∀ {l1 : List Pid} {pred : Pid} {l2 : List Pid} {o : Option Pid} {fuel : Nat},
      chain h o (l1 ++ pred :: p :: l2) = true →
      l1.length + 1 ≤ fuel →
      rpfr_scan h p fuel o = .ok (some pred) := by
  intro l1
  induction l1 with
  | nil =>
    intro pred l2 o fuel hc hf
    rw [List.nil_append] at hc
    cases o with
    | none => rw [chain_none_cons] at hc; exact absurd hc (by simp)
    | some p0 =>
      obtain ⟨hpq, predc, hpred, hrest⟩ := chain_cons_elim hc
      cases hpq
      have hnext : predc.next = some p := by
        rw [chain_head hrest]; rfl
      cases fuel with
      | zero => simp at hf
      | succ f =>
        simp only [rpfr_scan, hread, hpred, ok_bind, if_pos hnext]
  | cons a t ih =>
    intro pred l2 o fuel hc hf
    rw [List.cons_append] at hc
    cases o with
    | none => rw [chain_none_cons] at hc; exact absurd hc (by simp)
    | some p0 =>
      obtain ⟨hpq, ac, ha, hrest⟩ := chain_cons_elim hc
      cases hpq
      have hnd := chain_nodup hc
      have hanext : ac.next = (t ++ pred :: p :: l2).head? := chain_head hrest
      have hne : ¬ (ac.next = some p) := by
        rw [hanext]
        cases t with
        | nil =>
          intro hcontra
          have hpp : pred = p := by simpa using hcontra
          have hnd2 := (List.nodup_cons.mp hnd).2
          rw [List.nil_append] at hnd2
          exact (List.nodup_cons.mp hnd2).1 (hpp ▸ List.mem_cons_self p l2)
        | cons w t2 =>
          intro hcontra
          have hwp : w = p := by simpa using hcontra
          have hnd2 := (List.nodup_cons.mp hnd).2
          rw [List.cons_append] at hnd2
          refine (List.nodup_cons.mp hnd2).1 ?_
          rw [hwp]
          exact List.mem_append_right t2 (List.mem_cons_of_mem pred (List.mem_cons_self p l2))
      cases fuel with
      | zero => simp at hf
      | succ f =>
        have hf2 : t.length + 1 ≤ f := by
          simp only [List.length_cons] at hf; omega
        simp only [rpfr_scan, hread, ha, ok_bind, if_neg hne]
        exact ih hrest hf2

/-- Splicing a node out of the middle of a chain: the predecessor's link is
redirected past it and its own link is cleared. -/
theorem chain_splice {h : List pcb_t} {pred p : Pid} {predc pcc : pcb_t}
    (hpredc : hget h pred = some predc) (hpcc : hget h p = some pcc) :
    ∀ {l1 l2 : List Pid} {o : Option Pid},
      chain h o (l1 ++ pred :: p :: l2) = true →
      chain (hset (hset h pred { predc with next := pcc.next }) p { pcc with next := none })
        o (l1 ++ pred :: l2) = true := by
  intro l1
  induction l1 with
  | nil =>
    intro l2 o hc
    rw [List.nil_append] at hc
    cases o with
    | none => rw [chain_none_cons] at hc; exact absurd hc (by simp)
    | some p0 =>
      obtain ⟨hpq, predc2, hpred2, hrest⟩ := chain_cons_elim hc
      cases hpq
      have hpr : predc2 = predc := by rw [hpredc] at hpred2; exact Option.some.inj hpred2.symm
      subst hpr
      have hnd := chain_nodup hc
      have hpred_ne_p : pred ≠ p := fun hcontra =>
        (List.nodup_cons.mp hnd).1 (hcontra ▸ List.mem_cons_self p l2)
      have hnext : predc2.next = some p := by rw [chain_head hrest]; rfl
      rw [hnext] at hrest
      obtain ⟨_, pcc2, hp2, hrest2⟩ := chain_cons_elim hrest
      have hpc : pcc2 = pcc := by rw [hpcc] at hp2; exact Option.some.inj hp2.symm
      subst hpc
      have hpl2 : p ∉ l2 := (List.nodup_cons.mp (List.nodup_cons.mp hnd).2).1
      have hpredl2 : pred ∉ l2 := fun hmem =>
        (List.nodup_cons.mp hnd).1 (List.mem_cons_of_mem p hmem)
      have hg1 : hget (hset (hset h pred { predc2 with next := pcc2.next }) p
          { pcc2 with next := none }) pred = some { predc2 with next := pcc2.next } := by
        rw [hget_hset_ne (Ne.symm hpred_ne_p) _]
        exact hget_hset_self (hget_lt hpredc) _
      refine chain_cons_intro hg1 ?_
      show chain _ pcc2.next (l2) = true
      exact chain_hset (chain_hset hrest2 hpredl2) hpl2
  | cons a t ih =>
    intro l2 o hc
    rw [List.cons_append] at hc
    cases o with
    | none => rw [chain_none_cons] at hc; exact absurd hc (by simp)
    | some p0 =>
      obtain ⟨hpq, ac, ha, hrest⟩ := chain_cons_elim hc
      cases hpq
      have hnd := chain_nodup hc
      have hrestmem := (List.nodup_cons.mp hnd).1
      have ha_ne_pred : a ≠ pred := by
        intro hcontra
        refine hrestmem ?_
        rw [hcontra]
        exact List.mem_append_right t (List.mem_cons_self pred (p :: l2))
      have ha_ne_p : a ≠ p := by
        intro hcontra
        refine hrestmem ?_
        rw [hcontra]
        exact List.mem_append_right t (List.mem_cons_of_mem pred (List.mem_cons_self p l2))
      have hg1 : hget (hset (hset h pred { predc with next := pcc.next }) p
          { pcc with next := none }) a = some ac := by
        rw [hget_hset_ne (Ne.symm ha_ne_p) _, hget_hset_ne (Ne.symm ha_ne_pred) _]
        exact ha
      rw [List.cons_append]
      exact chain_cons_intro hg1 (ih hrest)

theorem remove_rep {s : SysState} {p : Pid} {l1 l2 : List Pid} {fuel : Nat}
    (hr : repQ s.heap s.readyq (l1 ++ p :: l2)) (hf : l1.length + 1 ≤ fuel) :
    ∃ s', remove_proc_from_readyq (some p) fuel s = .ok s'
      ∧ repQ s'.heap s'.readyq (l1 ++ l2)
      ∧ (∀ z, z ∉ l1 ++ p :: l2 → hget s'.heap z = hget s.heap z)
      ∧ (∀ z, (hget s'.heap z).map pcbCore = (hget s.heap z).map pcbCore)
      ∧ (∀ z, (hget s'.heap z).map pcb_t.state = (hget s.heap z).map pcb_t.state)
      ∧ (hget s'.heap p).map pcb_t.next = some none
      ∧ s'.waitingq = s.waitingq ∧ s'.terminatedq = s.terminatedq
      ∧ s'.resources = s.resources ∧ s'.arrivals = s.arrivals
      ∧ s'.events = s.events ∧ s'.heap.length = s.heap.length := by
  obtain ⟨hc, hl⟩ := hr
  have hnd := chain_nodup hc
  cases l1 with
  | nil =>
    rw [List.nil_append] at hc hl hnd
    have hfirst : s.readyq.first = some p := by rw [chain_head hc]; rfl
    obtain ⟨_, pcc, hp, hrest⟩ := chain_cons_elim (hfirst ▸ hc)
    have hpl2 : p ∉ l2 := (List.nodup_cons.mp hnd).1
    have hu : rpfr_unlink p p fuel s
        = .ok { s with readyq :=
            ⟨pcc.next, if s.readyq.last = some p then none else s.readyq.last⟩ } := by
      simp only [rpfr_unlink, hread, hp, ok_bind]
      rw [if_pos trivial]
    have hrun : remove_proc_from_readyq (some p) fuel s
        = .ok { s with
            heap := hset s.heap p { pcc with next := none },
            readyq :=
              ⟨pcc.next, if s.readyq.last = some p then none else s.readyq.last⟩ } := by
      simp only [remove_proc_from_readyq, hfirst, hu, ok_bind, hread, hp]
    refine ⟨_, hrun, ⟨?_, ?_⟩, ?_, ?_, ?_, ?_, rfl, rfl, rfl, rfl, rfl, ?_⟩
    · show chain (hset s.heap p { pcc with next := none }) pcc.next ([] ++ l2) = true
      rw [List.nil_append]
      exact chain_hset hrest hpl2
    · show (if s.readyq.last = some p then none else s.readyq.last) = ([] ++ l2).getLast?
      rw [List.nil_append]
      cases l2 with
      | nil =>
        have : s.readyq.last = some p := by rw [hl]; rfl
        rw [if_pos this]
        rfl
      | cons b bs =>
        obtain ⟨g, hg⟩ : ∃ g, (b :: bs).getLast? = some g :=
          ⟨(b :: bs).getLast (by simp), List.getLast?_eq_getLast _ (by simp)⟩
        have hlast2 : s.readyq.last = some g := by
          rw [hl, List.getLast?_cons_cons, hg]
        have hgp : g ≠ p := fun hcontra =>
          hpl2 (hcontra ▸ List.mem_of_getLast?_eq_some hg)
        rw [if_neg (by rw [hlast2]; exact fun hcontra => hgp (Option.some.inj hcontra)),
          hlast2, hg]
    · intro z hz
      have hzp : z ≠ p := fun hcontra => hz (hcontra ▸ List.mem_cons_self p l2)
      exact hget_hset_ne (Ne.symm hzp) _
    · exact hget_map_hset hp pcbCore rfl
    · exact hget_map_hset hp pcb_t.state rfl
    · rw [hget_hset_self (hget_lt hp) _]
      rfl
    · exact length_hset s.heap p _
  | cons a t =>
    obtain ⟨l1i, pred, hdecomp⟩ : ∃ L b, a :: t = L ++ [b] := by
      rcases List.eq_nil_or_concat (a :: t) with hcontra | ⟨L, b, hLb⟩
      · exact absurd hcontra (by simp)
      · exact ⟨L, b, by rw [hLb, List.concat_eq_append]⟩
    rw [hdecomp] at hc hl hnd hf ⊢
    rw [List.append_assoc, List.singleton_append] at hc hl hnd
    have hfp : ∃ f, s.readyq.first = some f ∧ ¬ (f = p) := by
      cases l1i with
      | nil =>
        refine ⟨pred, by rw [chain_head hc]; rfl, fun hcontra => ?_⟩
        rw [List.nil_append] at hnd
        exact (List.nodup_cons.mp hnd).1 (hcontra ▸ List.mem_cons_self p l2)
      | cons w ws =>
        refine ⟨w, by rw [chain_head hc]; rfl, fun hcontra => ?_⟩
        rw [List.cons_append] at hnd
        refine (List.nodup_cons.mp hnd).1 ?_
        rw [hcontra]
        exact List.mem_append_right ws
          (List.mem_cons_of_mem pred (List.mem_cons_self p l2))
    obtain ⟨f, hfirst, hfnp⟩ := hfp
    have hpredc : ∃ predc, hget s.heap pred = some predc :=
      chain_valid hc pred (List.mem_append_right l1i (List.mem_cons_self pred (p :: l2)))
    obtain ⟨predc, hpredc⟩ := hpredc
    have hpcc : ∃ pcc, hget s.heap p = some pcc :=
      chain_valid hc p (List.mem_append_right l1i
        (List.mem_cons_of_mem pred (List.mem_cons_self p l2)))
    obtain ⟨pcc, hpcc⟩ := hpcc
    have hscan : rpfr_scan s.heap p fuel (some f) = .ok (some pred) := by
      have := @rpfr_scan_spec _ _ _ _ _ _ fuel hc (by
        simp only [List.length_append, List.length_singleton] at hf
        omega)
      rw [← hfirst]
      exact this
    have hpred_ne_p : pred ≠ p := by
      have hsub : (pred :: p :: l2).Nodup := List.Nodup.sublist
        (List.sublist_append_right l1i (pred :: p :: l2)) hnd
      exact fun hcontra => (List.nodup_cons.mp hsub).1 (hcontra ▸ List.mem_cons_self p l2)
    have hpl2 : p ∉ l2 := by
      have hsub : (pred :: p :: l2).Nodup := List.Nodup.sublist
        (List.sublist_append_right l1i (pred :: p :: l2)) hnd
      exact (List.nodup_cons.mp (List.nodup_cons.mp hsub).2).1
    have hu : rpfr_unlink p f fuel s
        = .ok { s with
                heap := hset s.heap pred { predc with next := pcc.next },
                readyq := (if s.readyq.last = some p
                           then { s.readyq with last := some pred }
                           else s.readyq) } := by
      simp only [rpfr_unlink, if_neg hfnp, hscan, ok_bind, hread, hpredc, hpcc]
    have hp1 : hget (hset s.heap pred { predc with next := pcc.next }) p = some pcc := by
      rw [hget_hset_ne hpred_ne_p _]
      exact hpcc
    have hrun : remove_proc_from_readyq (some p) fuel s
        = .ok { s with
            heap := hset (hset s.heap pred { predc with next := pcc.next }) p
              { pcc with next := none },
            readyq := (if s.readyq.last = some p
                       then { s.readyq with last := some pred }
                       else s.readyq) } := by
      simp only [remove_proc_from_readyq, hfirst, hu, ok_bind, hread, hp1]
    have hqfirst : (if s.readyq.last = some p then { s.readyq with last := some pred }
        else s.readyq).first = s.readyq.first := by
      by_cases hcase : s.readyq.last = some p
      · rw [if_pos hcase]
      · rw [if_neg hcase]
    refine ⟨_, hrun, ⟨?_, ?_⟩, ?_, ?_, ?_, ?_, rfl, rfl, rfl, rfl, rfl, ?_⟩
    · show chain _ ((if s.readyq.last = some p then { s.readyq with last := some pred }
        else s.readyq).first) ((l1i ++ [pred]) ++ l2) = true
      rw [hqfirst, List.append_assoc, List.singleton_append]
      exact chain_splice hpredc hpcc hc
    · show (if s.readyq.last = some p then { s.readyq with last := some pred }
          else s.readyq).last = ((l1i ++ [pred]) ++ l2).getLast?
      cases l2 with
      | nil =>
        have hlp : s.readyq.last = some p := by
          rw [hl, List.getLast?_append]
          rfl
        rw [if_pos hlp]
        show some pred = ((l1i ++ [pred]) ++ ([] : List Pid)).getLast?
        rw [List.append_nil, List.getLast?_concat]
      | cons b bs =>
        obtain ⟨g, hg⟩ : ∃ g, (b :: bs).getLast? = some g :=
          ⟨(b :: bs).getLast (by simp), List.getLast?_eq_getLast _ (by simp)⟩
        have hgl2 : g ∈ b :: bs := List.mem_of_getLast?_eq_some hg
        have hlast2 : s.readyq.last = some g := by
          rw [hl, List.getLast?_append, List.getLast?_cons_cons, List.getLast?_cons_cons, hg]
          rfl
        have hgp : g ≠ p := fun hcontra => hpl2 (hcontra ▸ hgl2)
        rw [if_neg (by rw [hlast2]; exact fun hcontra => hgp (Option.some.inj hcontra)),
          hlast2, List.getLast?_append, hg]
        rfl
    · intro z hz
      have hzpred : z ≠ pred := by
        intro hcontra
        refine hz ?_
        rw [hcontra]
        exact List.mem_append_left _ (List.mem_append_right l1i (List.mem_cons_self pred []))
      have hzp : z ≠ p := by
        intro hcontra
        refine hz ?_
        rw [hcontra]
        exact List.mem_append_right _ (List.mem_cons_self p l2)
      rw [hget_hset_ne (Ne.symm hzp) _, hget_hset_ne (Ne.symm hzpred) _]
    · intro z
      show Option.map pcbCore (hget (hset (hset s.heap pred { predc with next := pcc.next })
          p { pcc with next := none }) z) = Option.map pcbCore (hget s.heap z)
      rw [hget_map_hset (x := { pcc with next := none }) hp1 pcbCore rfl z,
        hget_map_hset (x := { predc with next := pcc.next }) hpredc pcbCore rfl z]
    · intro z
      show Option.map pcb_t.state (hget (hset (hset s.heap pred { predc with next := pcc.next })
          p { pcc with next := none }) z) = Option.map pcb_t.state (hget s.heap z)
      rw [hget_map_hset (x := { pcc with next := none }) hp1 pcb_t.state rfl z,
        hget_map_hset (x := { predc with next := pcc.next }) hpredc pcb_t.state rfl z]
    · rw [hget_hset_self (by rw [length_hset]; exact hget_lt hpcc) _]
      rfl
    · rw [length_hset, length_hset]

/-- Enqueue into a global queue under `repQ` (state-level wrapper around
`enqueue_pcb_rep`). -/
theorem enq_rep {s : SysState} {qid : QueueId} {p : Pid} {pc : pcb_t} {ls : List Pid}
    (hr : repQ s.heap (getQ s qid) ls) (hp : hget s.heap p = some pc) (hnm : p ∉ ls) :
    ∃ h', enq qid p s = .ok (setQ { s with heap := h' } qid ⟨(ls ++ [p]).head?, some p⟩)
      ∧ repQ h' ⟨(ls ++ [p]).head?, some p⟩ (ls ++ [p])
      ∧ (∀ z, z ∉ ls → z ≠ p → hget h' z = hget s.heap z)
      ∧ hget h' p = some { pc with next := none }
      ∧ (∀ z, (hget h' z).map pcbCore = (hget s.heap z).map pcbCore)
      ∧ (∀ z, (hget h' z).map pcb_t.state = (hget s.heap z).map pcb_t.state)
      ∧ h'.length = s.heap.length := by
  obtain ⟨h', henq, hrep, hfr, hp2, hcore, hstate, hlen⟩ := enqueue_pcb_rep hr hp hnm
  refine ⟨h', ?_, hrep, hfr, hp2, hcore, hstate, hlen⟩
  simp only [enq, henq, ok_bind]

/-- `move_proc_to_rq` under `repQ`: set READY, append at the ready tail,
log the ready event. -/
theorem move_proc_to_rq_rep {s : SysState} {p : Pid} {pc : pcb_t} {rs : List Pid}
    (hr : repQ s.heap s.readyq rs) (hp : hget s.heap p = some pc) (hnm : p ∉ rs) :
    ∃ h', move_proc_to_rq (some p) s
        = .ok (logEvent (.evReady pc.name)
            (setQ { s with heap := h' } .readyQ ⟨(rs ++ [p]).head?, some p⟩))
      ∧ repQ h' ⟨(rs ++ [p]).head?, some p⟩ (rs ++ [p])
      ∧ (∀ z, z ∉ rs → z ≠ p → hget h' z = hget s.heap z)
      ∧ hget h' p = some { pc with state := .READY, next := none }
      ∧ (∀ z, (hget h' z).map pcbCore = (hget s.heap z).map pcbCore)
      ∧ (∀ z, z ≠ p → (hget h' z).map pcb_t.state = (hget s.heap z).map pcb_t.state)
      ∧ h'.length = s.heap.length := by
  obtain ⟨hc, hl⟩ := hr
  have hplen : p < s.heap.length := hget_lt hp
  have hr1 : repQ (hset s.heap p { pc with state := .READY })
      (getQ { s with heap := hset s.heap p { pc with state := .READY } } .readyQ) rs :=
    ⟨chain_hset hc hnm, hl⟩
  have hp1 : hget (hset s.heap p { pc with state := .READY }) p
      = some { pc with state := .READY } := hget_hset_self hplen _
  obtain ⟨h', henq, hrep, hfr, hp2, hcore, hstate, hlen⟩ :=
    enq_rep (s := { s with heap := hset s.heap p { pc with state := .READY } }) hr1 hp1 hnm
  refine ⟨h', ?_, hrep, ?_, hp2, ?_, ?_, ?_⟩
  · show move_proc_to_rq (some p) s = _
    simp only [move_proc_to_rq, hread, hp, ok_bind, henq]
  · intro z hzl hzp
    rw [hfr z hzl hzp, hget_hset_ne (Ne.symm hzp) _]
  · intro z
    rw [hcore z, hget_map_hset (x := { pc with state := .READY }) hp pcbCore rfl z]
  · intro z hzp
    rw [hstate z]
    by_cases hzy : z = p
    · exact absurd hzy hzp
    · rw [hget_hset_ne (Ne.symm hzy) _]
  · rw [hlen, length_hset]

/-- `move_proc_to_wq` under `repQ`: set WAITING, append at the waiting
tail, log the waiting event. -/
theorem move_proc_to_wq_rep {s : SysState} {p : Pid} {rn : String} {pc : pcb_t}
    {ws : List Pid}
    (hr : repQ s.heap s.waitingq ws) (hp : hget s.heap p = some pc) (hnm : p ∉ ws) :
    ∃ h', move_proc_to_wq (some p) rn s
        = .ok (logEvent (.evWaiting pc.name rn)
            (setQ { s with heap := h' } .waitingQ ⟨(ws ++ [p]).head?, some p⟩))
      ∧ repQ h' ⟨(ws ++ [p]).head?, some p⟩ (ws ++ [p])
      ∧ (∀ z, z ∉ ws → z ≠ p → hget h' z = hget s.heap z)
      ∧ hget h' p = some { pc with state := .WAITING, next := none }
      ∧ (∀ z, (hget h' z).map pcbCore = (hget s.heap z).map pcbCore)
      ∧ (∀ z, z ≠ p → (hget h' z).map pcb_t.state = (hget s.heap z).map pcb_t.state)
      ∧ h'.length = s.heap.length := by
  obtain ⟨hc, hl⟩ := hr
  have hplen : p < s.heap.length := hget_lt hp
  have hr1 : repQ (hset s.heap p { pc with state := .WAITING })
      (getQ { s with heap := hset s.heap p { pc with state := .WAITING } } .waitingQ) ws :=
    ⟨chain_hset hc hnm, hl⟩
  have hp1 : hget (hset s.heap p { pc with state := .WAITING }) p
      = some { pc with state := .WAITING } := hget_hset_self hplen _
  obtain ⟨h', henq, hrep, hfr, hp2, hcore, hstate, hlen⟩ :=
    enq_rep (s := { s with heap := hset s.heap p { pc with state := .WAITING } }) hr1 hp1 hnm
  refine ⟨h', ?_, hrep, ?_, hp2, ?_, ?_, ?_⟩
  · show move_proc_to_wq (some p) rn s = _
    simp only [move_proc_to_wq, hread, hp, ok_bind, henq]
  · intro z hzl hzp
    rw [hfr z hzl hzp, hget_hset_ne (Ne.symm hzp) _]
  · intro z
    rw [hcore z, hget_map_hset (x := { pc with state := .WAITING }) hp pcbCore rfl z]
  · intro z hzp
    rw [hstate z]
    by_cases hzy : z = p
    · exact absurd hzy hzp
    · rw [hget_hset_ne (Ne.symm hzy) _]
  · rw [hlen, length_hset]

/-- `move_proc_to_tq` under `repQ`: set TERMINATED, append at the
terminated tail, log the terminated event. -/
theorem move_proc_to_tq_rep {s : SysState} {p : Pid} {pc : pcb_t} {ts : List Pid}
    (hr : repQ s.heap s.terminatedq ts) (hp : hget s.heap p = some pc) (hnm : p ∉ ts) :
    ∃ h', move_proc_to_tq (some p) s
        = .ok (logEvent (.evTerminated pc.name)
            (setQ { s with heap := h' } .termQ ⟨(ts ++ [p]).head?, some p⟩))
      ∧ repQ h' ⟨(ts ++ [p]).head?, some p⟩ (ts ++ [p])
      ∧ (∀ z, z ∉ ts → z ≠ p → hget h' z = hget s.heap z)
      ∧ hget h' p = some { pc with state := .TERMINATED, next := none }
      ∧ (∀ z, (hget h' z).map pcbCore = (hget s.heap z).map pcbCore)
      ∧ (∀ z, z ≠ p → (hget h' z).map pcb_t.state = (hget s.heap z).map pcb_t.state)
      ∧ h'.length = s.heap.length := by
  obtain ⟨hc, hl⟩ := hr
  have hplen : p < s.heap.length := hget_lt hp
  have hr1 : repQ (hset s.heap p { pc with state := .TERMINATED })
      (getQ { s with heap := hset s.heap p { pc with state := .TERMINATED } } .termQ) ts :=
    ⟨chain_hset hc hnm, hl⟩
  have hp1 : hget (hset s.heap p { pc with state := .TERMINATED }) p
      = some { pc with state := .TERMINATED } := hget_hset_self hplen _
  obtain ⟨h', henq, hrep, hfr, hp2, hcore, hstate, hlen⟩ :=
    enq_rep (s := { s with heap := hset s.heap p { pc with state := .TERMINATED } }) hr1 hp1 hnm
  refine ⟨h', ?_, hrep, ?_, hp2, ?_, ?_, ?_⟩
  · show move_proc_to_tq (some p) s = _
    simp only [move_proc_to_tq, hread, hp, ok_bind, henq]
  · intro z hzl hzp
    rw [hfr z hzl hzp, hget_hset_ne (Ne.symm hzp) _]
  · intro z
    rw [hcore z, hget_map_hset (x := { pc with state := .TERMINATED }) hp pcbCore rfl z]
  · intro z hzp
    rw [hstate z]
    by_cases hzy : z = p
    · exact absurd hzy hzp
    · rw [hget_hset_ne (Ne.symm hzy) _]
  · rw [hlen, length_hset]

theorem setState_rep {s : SysState} {p : Pid} {pc : pcb_t} (st : state_t)
    (hp : hget s.heap p = some pc) :
    setState p st s = .ok { s with heap := hset s.heap p { pc with state := st } } := by
  simp only [setState, hread, hp, ok_bind]

theorem hget_core_trans {h1 h2 : List pcb_t} {x : Pid} {xc : pcb_t}
    (hmap : (hget h1 x).map pcbCore = (hget h2 x).map pcbCore)
    (hx : hget h1 x = some xc) :
    ∃ xc0, hget h2 x = some xc0 ∧ xc.priority = xc0.priority ∧ xc.name = xc0.name
      ∧ xc.next_instruction = xc0.next_instruction ∧ xc.resources = xc0.resources := by
  rw [hx, Option.map_some'] at hmap
  cases hg : hget h2 x with
  | none => rw [hg] at hmap; exact absurd hmap (by simp)
  | some xc0 =>
    rw [hg, Option.map_some'] at hmap
    have hcoreEq : pcbCore xc = pcbCore xc0 := Option.some.inj hmap
    exact ⟨xc0, rfl, congrArg (fun t => t.2.2.1) hcoreEq, congrArg (fun t => t.1) hcoreEq,
      congrArg (fun t => t.2.1) hcoreEq, congrArg (fun t => t.2.2.2) hcoreEq⟩

theorem nodup_middle_not_mem {l1 l2 : List Pid} {b : Pid}
    (hnd : (l1 ++ b :: l2).Nodup) : b ∉ l1 ++ l2 := by
  intro hmem
  rcases List.mem_append.mp hmem with h1 | h2
  · exact (List.disjoint_of_nodup_append hnd) h1 (List.mem_cons_self b l2)
  · exact (List.nodup_cons.mp (List.nodup_append.mp hnd).2.1).1 h2

/-- C7: `higher_priority` holds iff the first priority is strictly greater
(so an equal-priority Ready process never preempts); whenever Ready is
non-empty, `find_highest_priority_proc` selects the first maximal-priority
element of the Ready chain; and the preemption re-check leaves a running
process whose priority bounds every priority in the (well formed) Ready
queue — preempting the current process exactly when a strictly higher
priority is ready. -/
theorem priority_scheduling_invariant (fuel : Nat) (cur : Option Pid) (s : SysState)
    (ls : List Pid)
    (hr : repQ s.heap s.readyq ls)
    (hfuel : ls.length + 2 ≤ fuel)
    (hpri : ∀ x ∈ ls, ∀ xc, hget s.heap x = some xc → INT_MIN < xc.priority)
    (hcur : ∀ c, cur = some c → (∃ cc, hget s.heap c = some cc) ∧ c ∉ ls) :
    (∀ a b : Int, higher_priority a b = decide (a > b))
    ∧ (ls ≠ [] → ∃ b bc l1 l2, find_highest_priority_proc fuel s = .ok (some b)
        ∧ ls = l1 ++ b :: l2 ∧ hget s.heap b = some bc
        ∧ (∀ x ∈ l1, ∀ xc, hget s.heap x = some xc → xc.priority < bc.priority)
        ∧ (∀ x ∈ l2, ∀ xc, hget s.heap x = some xc → xc.priority ≤ bc.priority))
    ∧ (∃ cur' s', preempt_check fuel cur s = .ok (cur', s')
        ∧ ∃ ls', repQ s'.heap s'.readyq ls'
          ∧ (∀ c', cur' = some c' → ∃ cc', hget s'.heap c' = some cc'
              ∧ ∀ x ∈ ls', ∀ xc, hget s'.heap x = some xc → xc.priority ≤ cc'.priority)
          ∧ (cur' = none → ls = [] ∧ cur = none ∧ s' = s)
          ∧ (∀ c cc, cur = some c → hget s.heap c = some cc →
              (∀ x ∈ ls, ∀ xc, hget s.heap x = some xc → xc.priority ≤ cc.priority) →
              cur' = some c ∧ s' = s)) := by
  have hfls : ls.length ≤ fuel := by omega
  obtain ⟨r, hfind, hcase⟩ := find_highest_spec hr hfls
  refine ⟨?_, ?_, ?_⟩
  · intro a b
    by_cases hab : a > b
    · rw [higher_priority, if_pos hab, (decide_eq_true hab).symm]
    · rw [higher_priority, if_neg hab, (decide_eq_false hab).symm]
  · intro hne
    rcases hcase with ⟨hrnone, hall⟩ | ⟨b, bc, l1, l2, hrb, hsplit, hgb, _, hl1, hl2⟩
    · exfalso
      cases ls with
      | nil => exact hne rfl
      | cons x xs =>
        obtain ⟨xc, hxc⟩ := chain_valid hr.1 x (List.mem_cons_self x xs)
        exact absurd (hall x (List.mem_cons_self x xs) xc hxc)
          (not_le.mpr (hpri x (List.mem_cons_self x xs) xc hxc))
    · exact ⟨b, bc, l1, l2, by rw [hfind, hrb], hsplit, hgb, hl1, hl2⟩
  · rcases hcase with ⟨hrnone, hall⟩ | ⟨b, bc, l1, l2, hrb, hsplit, hgb, _, hl1, hl2⟩
    · -- no candidate: the ready queue must be empty
      subst hrnone
      have hlsnil : ls = [] := by
        cases ls with
        | nil => rfl
        | cons x xs =>
          obtain ⟨xc, hxc⟩ := chain_valid hr.1 x (List.mem_cons_self x xs)
          exact absurd (hall x (List.mem_cons_self x xs) xc hxc)
            (not_le.mpr (hpri x (List.mem_cons_self x xs) xc hxc))
      subst hlsnil
      have hrun : preempt_check fuel cur s = .ok (cur, s) := by
        simp only [preempt_check, hfind, ok_bind]
      refine ⟨cur, s, hrun, [], hr, ?_, ?_, ?_⟩
      · intro c' hc'
        obtain ⟨⟨cc, hcc⟩, _⟩ := hcur c' hc'
        exact ⟨cc, hcc, fun x hx => absurd hx (List.not_mem_nil x)⟩
      · intro hnone
        exact ⟨rfl, hnone, rfl⟩
      · intro c cc hc _ _
        exact ⟨hc, rfl⟩
    · -- a first maximal ready process b exists
      subst hrb
      have hnd : (l1 ++ b :: l2).Nodup := chain_nodup (hsplit ▸ hr).1
      have hbmem : b ∈ ls := hsplit ▸ List.mem_append_right l1 (List.mem_cons_self b l2)
      have hbnotin : b ∉ l1 ++ l2 := nodup_middle_not_mem hnd
      have hremfuel : l1.length + 1 ≤ fuel := by
        have := congrArg List.length hsplit
        simp only [List.length_append, List.length_cons] at this
        omega
      have hboundls : ∀ x ∈ ls, ∀ xc, hget s.heap x = some xc →
          xc.priority ≤ bc.priority := by
        intro x hx xc hxc
        rw [hsplit] at hx
        rcases List.mem_append.mp hx with hx1 | hx2
        · exact le_of_lt (hl1 x hx1 xc hxc)
        · rcases List.mem_cons.mp hx2 with rfl | hx3
          · rw [hgb] at hxc; rw [Option.some.inj hxc.symm]
          · exact hl2 x hx3 xc hxc
      cases cur with
      | none =>
        obtain ⟨s1, hrem, hrep1, hfr1, hcore1, hstate1, hnext1, hwq1, htq1,
          hres1, harr1, hev1, hlen1⟩ := remove_rep (hsplit ▸ hr) hremfuel
        obtain ⟨bc1, hbc1, hbcpri, _, _, _⟩ := hget_core_trans (hcore1 b).symm hgb
        have hsetb := setState_rep .RUNNING hbc1
        have hrun : preempt_check fuel none s
            = .ok (some b, { s1 with heap := hset s1.heap b { bc1 with state := .RUNNING } }) := by
          simp only [preempt_check, hfind, ok_bind, hread, hgb, pure_bindE, hrem, hsetb]
          rw [if_pos trivial]
        refine ⟨some b, _, hrun, l1 ++ l2, ⟨chain_hset hrep1.1 hbnotin, hrep1.2⟩, ?_, ?_, ?_⟩
        · intro c' hc'
          cases Option.some.inj hc'
          refine ⟨{ bc1 with state := .RUNNING }, hget_hset_self (hget_lt hbc1) _, ?_⟩
          intro x hx xc hxc
          have hxb : x ≠ b := fun hcontra => hbnotin (hcontra ▸ hx)
          rw [hget_hset_ne (Ne.symm hxb) _] at hxc
          obtain ⟨xc0, hxc0, hxpri, _, _, _⟩ := hget_core_trans (hcore1 x) hxc
          have hb0 : xc0.priority ≤ bc.priority := by
            rcases List.mem_append.mp hx with h1 | h2
            · exact le_of_lt (hl1 x h1 xc0 hxc0)
            · exact hl2 x h2 xc0 hxc0
          calc xc.priority = xc0.priority := hxpri
            _ ≤ bc.priority := hb0
            _ = bc1.priority := hbcpri
            _ = ({ bc1 with state := state_t.RUNNING } : pcb_t).priority := rfl
        · intro hcontra
          exact Option.noConfusion hcontra
        · intro c cc hc _ _
          exact Option.noConfusion hc
      | some c =>
        obtain ⟨⟨cc, hcc⟩, hcnotin⟩ := hcur c rfl
        have hbc_ne : b ≠ c := fun hcontra => hcnotin (hcontra ▸ hbmem)
        by_cases hgt : bc.priority > cc.priority
        · -- strictly higher priority ready: preempt
          have hhp : higher_priority bc.priority cc.priority = true := by
            rw [higher_priority, if_pos hgt]
          have hsetc := setState_rep .READY hcc
          have hrA : repQ (hset s.heap c { cc with state := .READY }) s.readyq ls :=
            ⟨chain_hset hr.1 hcnotin, hr.2⟩
          have hcA : hget (hset s.heap c { cc with state := .READY }) c
              = some { cc with state := .READY } := hget_hset_self (hget_lt hcc) _
          obtain ⟨hB, hmvrun, hrepB, hfrB, hcB, hcoreB, hstateB, hlenB⟩ :=
            move_proc_to_rq_rep
              (s := { s with heap := hset s.heap c { cc with state := .READY } })
              hrA hcA hcnotin
          have hmvrun2 : move_proc_to_rq (some c)
              { s with heap := hset s.heap c { cc with state := .READY } }
              = .ok ⟨hB, ⟨(ls ++ [c]).head?, some c⟩, s.waitingq, s.terminatedq, s.resources, s.arrivals,
            s.events ++ [.evReady cc.name]⟩ := hmvrun
          have hlseq : ls ++ [c] = l1 ++ b :: (l2 ++ [c]) := by
            rw [hsplit, List.append_assoc, List.cons_append]
          have hrB2 : repQ hB ⟨(ls ++ [c]).head?, some c⟩ (l1 ++ b :: (l2 ++ [c])) :=
            hlseq ▸ hrepB
          obtain ⟨sC, hremC, hrepC, hfrC, hcoreC, hstateC, hnextC, hwqC, htqC,
            hresC, harrC, hevC, hlenC⟩ :=
            @remove_rep ⟨hB, ⟨(ls ++ [c]).head?, some c⟩, s.waitingq, s.terminatedq, s.resources, s.arrivals,
            s.events ++ [.evReady cc.name]⟩ _ l1 (l2 ++ [c]) fuel hrB2 hremfuel
          have hcoreAll : ∀ z, (hget sC.heap z).map pcbCore = (hget s.heap z).map pcbCore := by
            intro z
            rw [hcoreC z]
            show (hget hB z).map pcbCore = (hget s.heap z).map pcbCore
            rw [hcoreB z]
            exact hget_map_hset (x := { cc with state := .READY }) hcc pcbCore rfl z
          obtain ⟨bc1, hbc1, hbcpri, _, _, _⟩ := hget_core_trans (hcoreAll b).symm hgb
          have hsetb := setState_rep .RUNNING hbc1
          have hrun : preempt_check fuel (some c) s
              = .ok (some b, { sC with heap := hset sC.heap b { bc1 with state := .RUNNING } }) := by
            simp only [preempt_check, hfind, ok_bind, hread, hgb, hcc, pure_bindE, hhp,
              hsetc, hmvrun2, hremC, hsetb]
            rw [if_pos trivial]
          have hbnot2 : b ∉ l1 ++ (l2 ++ [c]) := by
            intro hmem
            rcases List.mem_append.mp hmem with h1 | h2
            · exact hbnotin (List.mem_append_left l2 h1)
            · rcases List.mem_append.mp h2 with h3 | h4
              · exact hbnotin (List.mem_append_right l1 h3)
              · exact hbc_ne (List.mem_singleton.mp h4)
          refine ⟨some b, _, hrun, l1 ++ (l2 ++ [c]),
            ⟨chain_hset hrepC.1 hbnot2, hrepC.2⟩, ?_, ?_, ?_⟩
          · intro c' hc'
            cases Option.some.inj hc'
            refine ⟨{ bc1 with state := .RUNNING }, hget_hset_self (hget_lt hbc1) _, ?_⟩
            intro x hx xc hxc
            have hxb : x ≠ b := fun hcontra => hbnot2 (hcontra ▸ hx)
            rw [hget_hset_ne (Ne.symm hxb) _] at hxc
            obtain ⟨xc0, hxc0, hxpri, _, _, _⟩ := hget_core_trans (hcoreAll x) hxc
            have hb0 : xc0.priority ≤ bc.priority := by
              rcases List.mem_append.mp hx with h1 | h2
              · exact le_of_lt (hl1 x h1 xc0 hxc0)
              · rcases List.mem_append.mp h2 with h3 | h4
                · exact hl2 x h3 xc0 hxc0
                · have hxc_eq : x = c := List.mem_singleton.mp h4
                  subst hxc_eq
                  have : xc0 = cc := by rw [hcc] at hxc0; exact (Option.some.inj hxc0).symm
                  rw [this]
                  exact le_of_lt hgt
            calc xc.priority = xc0.priority := hxpri
              _ ≤ bc.priority := hb0
              _ = bc1.priority := hbcpri
              _ = ({ bc1 with state := state_t.RUNNING } : pcb_t).priority := rfl
          · intro hcontra
            exact Option.noConfusion hcontra
          · intro c0 cc0 hc0 hcc0 hboundc
            exfalso
            cases Option.some.inj hc0
            have hcc0eq : cc0 = cc := by rw [hcc] at hcc0; exact (Option.some.inj hcc0).symm
            rw [hcc0eq] at hboundc
            exact absurd (hboundc b hbmem bc hgb) (not_le.mpr hgt)
        · -- no strictly higher priority: current process keeps running
          have hhp : higher_priority bc.priority cc.priority = false := by
            rw [higher_priority, if_neg hgt]
          have hrun : preempt_check fuel (some c) s = .ok (some c, s) := by
            simp only [preempt_check, hfind, ok_bind, hread, hgb, hcc, pure_bindE, hhp]
            rw [if_neg Bool.false_ne_true]
          refine ⟨some c, s, hrun, ls, hr, ?_, ?_, ?_⟩
          · intro c' hc'
            cases Option.some.inj hc'
            refine ⟨cc, hcc, ?_⟩
            intro x hx xc hxc
            exact le_trans (hboundls x hx xc hxc) (not_lt.mp hgt)
          · intro hcontra
            exact Option.noConfusion hcontra
          · intro c0 cc0 hc0 _ _
            exact ⟨hc0, rfl⟩

theorem priority_scheduling_invariant_witness :
    ∃ cur' s', preempt_check 5 (some 0) exPri = .ok (cur', s')
      ∧ ∃ ls', repQ s'.heap s'.readyq ls'
        ∧ (∀ c', cur' = some c' → ∃ cc', hget s'.heap c' = some cc'
            ∧ ∀ x ∈ ls', ∀ xc, hget s'.heap x = some xc → xc.priority ≤ cc'.priority)
        ∧ (cur' = none → [1] = ([] : List Pid) ∧ (some 0 : Option Pid) = none ∧ s' = exPri)
        ∧ (∀ c cc, (some 0 : Option Pid) = some c → hget exPri.heap c = some cc →
            (∀ x ∈ [1], ∀ xc, hget exPri.heap x = some xc → xc.priority ≤ cc.priority) →
            cur' = some c ∧ s' = exPri) :=
  (priority_scheduling_invariant 5 (some 0) exPri [1] ⟨rfl, rfl⟩ (by decide)
    (by
      intro x hx xc hxc
      have hx1 : x = 1 := List.mem_singleton.mp hx
      subst hx1
      have hpri1 : xc.priority = 1 := by
        have h0 : (hget exPri.heap 1).map (fun pc => pc.priority) = some 1 := rfl
        rw [hxc] at h0
        exact Option.some.inj h0
      rw [hpri1]
      decide)
    (by
      intro c hc
      cases Option.some.inj hc
      exact ⟨⟨_, rfl⟩, by decide⟩)).2.2

/-- C7 counterexample: a Ready process with priority `INT_MIN` is the unique
(hence first maximal) element of the Ready queue, yet
`find_highest_priority_proc` returns NULL — its running maximum starts at
`INT_MIN` and only a strictly greater priority is ever kept — so the
selection phase picks nothing and leaves the CPU idle: "selection takes the
first maximal-priority element of Ready" fails at this extreme priority. -/
theorem int_min_priority_never_selected :
    exPriMin.readyq.first = some 0
    ∧ find_highest_priority_proc 5 exPriMin = .ok none
    ∧ pri_select_phase 5 none exPriMin = .ok (none, exPriMin) :=
  ⟨rfl, rfl, rfl⟩

/-! ## Broadcast wake-up of the release path -/

theorem is_waiting_eq (h : List pcb_t) (x : Pid) (rn : String) :
    is_waiting_for_resource h (some x) (some rn)
      = (match hget h x with
         | none => false
         | some pc => pc.state == state_t.WAITING &&
             pc.next_instruction.any fun i =>
               i.type == instr_types_t.REQ_OP && i.resource_name == rn) := rfl

theorem is_waiting_congr {h1 h2 : List pcb_t} {x : Pid} {rn : String}
    (hstate : (hget h1 x).map pcb_t.state = (hget h2 x).map pcb_t.state)
    (hcore : (hget h1 x).map pcbCore = (hget h2 x).map pcbCore) :
    is_waiting_for_resource h1 (some x) (some rn)
      = is_waiting_for_resource h2 (some x) (some rn) := by
  rw [is_waiting_eq, is_waiting_eq]
  cases hg1 : hget h1 x with
  | none =>
    cases hg2 : hget h2 x with
    | none => rfl
    | some pc2 => rw [hg1, hg2] at hstate; exact absurd hstate (by simp)
  | some pc1 =>
    cases hg2 : hget h2 x with
    | none => rw [hg1, hg2] at hstate; exact absurd hstate (by simp)
    | some pc2 =>
      rw [hg1, hg2] at hstate hcore
      have hs : pc1.state = pc2.state := Option.some.inj hstate
      have hcoreEq : pcbCore pc1 = pcbCore pc2 := Option.some.inj hcore
      have hi : pc1.next_instruction = pc2.next_instruction :=
        congrArg (fun t : String × List instr_t × Int × List String => t.2.1) hcoreEq
      show (pc1.state == state_t.WAITING && pc1.next_instruction.any fun i =>
          i.type == instr_types_t.REQ_OP && i.resource_name == rn)
        = (pc2.state == state_t.WAITING && pc2.next_instruction.any fun i =>
          i.type == instr_types_t.REQ_OP && i.resource_name == rn)
      rw [hs, hi]

theorem pcbName_congr {h1 h2 : List pcb_t} {x : Pid}
    (hcore : (hget h1 x).map pcbCore = (hget h2 x).map pcbCore) :
    pcbName h1 x = pcbName h2 x := by
  unfold pcbName
  cases hg1 : hget h1 x with
  | none =>
    cases hg2 : hget h2 x with
    | none => rfl
    | some pc2 => rw [hg1, hg2] at hcore; exact absurd hcore (by simp)
  | some pc1 =>
    cases hg2 : hget h2 x with
    | none => rw [hg1, hg2] at hcore; exact absurd hcore (by simp)
    | some pc2 =>
      rw [hg1, hg2] at hcore
      have hcoreEq : pcbCore pc1 = pcbCore pc2 := Option.some.inj hcore
      show pc1.name = pc2.name
      exact congrArg (fun t : String × List instr_t × Int × List String => t.1) hcoreEq

/-- Common tail of one wake-up step of `move_waiting_pcbs_to_rq`: after the
unlink surgery (`vB`), the process is moved to the ready queue and the loop
continues from its old link. -/
theorem mwpr_step_finish {rn : String} {f : Nat} {prev : Option Pid} {c : Pid} {cc : pcb_t}
    {done rest rs : List Pid} {s vB : SysState}
    (hrun1 : mwpr_loop rn (f + 1) prev (some c) s
      = (move_proc_to_rq (some c) vB) >>= fun s => mwpr_loop rn f prev cc.next s)
    (hchainB : chain vB.heap vB.waitingq.first (done ++ rest) = true)
    (hlastB : vB.waitingq.last = (done ++ rest).getLast?)
    (hreadyB : repQ vB.heap vB.readyq rs)
    (hcB : hget vB.heap c = some { cc with next := none })
    (hcnotrs : c ∉ rs)
    (hcnotdr : c ∉ done ++ rest)
    (hdnotrs : ∀ x ∈ done ++ rest, x ∉ rs)
    (hcoreB : ∀ z, (hget vB.heap z).map pcbCore = (hget s.heap z).map pcbCore)
    (hstateB : ∀ z, z ≠ c → (hget vB.heap z).map pcb_t.state = (hget s.heap z).map pcb_t.state)
    (htqB : vB.terminatedq = s.terminatedq)
    (hresB : vB.resources = s.resources)
    (harrB : vB.arrivals = s.arrivals)
    (hevB : vB.events = s.events)
    (hlenB : vB.heap.length = s.heap.length)
    (hname : cc.name = pcbName s.heap c)
    (hfullB : ∀ z, z ∉ done ++ rest → z ∉ rs → z ≠ c → hget vB.heap z = hget s.heap z) :
    ∃ s2, mwpr_loop rn (f + 1) prev (some c) s = mwpr_loop rn f prev cc.next s2
      ∧ chain s2.heap s2.waitingq.first (done ++ rest) = true
      ∧ s2.waitingq.last = (done ++ rest).getLast?
      ∧ repQ s2.heap s2.readyq (rs ++ [c])
      ∧ (hget s2.heap c).map pcb_t.state = some .READY
      ∧ (∀ z, (hget s2.heap z).map pcbCore = (hget s.heap z).map pcbCore)
      ∧ (∀ z, z ≠ c → (hget s2.heap z).map pcb_t.state = (hget s.heap z).map pcb_t.state)
      ∧ s2.terminatedq = s.terminatedq
      ∧ s2.resources = s.resources
      ∧ s2.arrivals = s.arrivals
      ∧ s2.events = s.events ++ [.evReady (pcbName s.heap c)]
      ∧ s2.heap.length = s.heap.length
      ∧ (∀ z, z ∉ done ++ rest → z ∉ rs → z ≠ c → hget s2.heap z = hget s.heap z) := by
  obtain ⟨h2, hmv, hrep2, hfr2, hc2, hcore2, hstate2, hlen2⟩ :=
    move_proc_to_rq_rep hreadyB hcB hcnotrs
  refine ⟨logEvent (.evReady ({ cc with next := none } : pcb_t).name)
      (setQ { vB with heap := h2 } .readyQ ⟨(rs ++ [c]).head?, some c⟩),
    ?_, ?_, hlastB, hrep2, ?_, ?_, ?_, htqB, hresB, harrB, ?_, ?_, ?_⟩
  · rw [hrun1, hmv, ok_bind]
  · show chain h2 vB.waitingq.first (done ++ rest) = true
    rw [chain_congr (h := vB.heap) (fun z hz => hfr2 z (hdnotrs z hz)
      (fun hcontra => hcnotdr (hcontra ▸ hz)))]
    exact hchainB
  · show (hget h2 c).map pcb_t.state = some .READY
    rw [hc2]
    rfl
  · intro z
    show (hget h2 z).map pcbCore = (hget s.heap z).map pcbCore
    rw [hcore2 z]
    exact hcoreB z
  · intro z hzc
    show (hget h2 z).map pcb_t.state = (hget s.heap z).map pcb_t.state
    rw [hstate2 z hzc]
    exact hstateB z hzc
  · show vB.events ++ [Event.evReady ({ cc with next := none } : pcb_t).name]
      = s.events ++ [.evReady (pcbName s.heap c)]
    rw [hevB]
    show s.events ++ [Event.evReady cc.name] = s.events ++ [.evReady (pcbName s.heap c)]
    rw [hname]
  · show h2.length = s.heap.length
    rw [hlen2]
    exact hlenB
  · intro z hzdr hzrs hzc
    show hget h2 z = hget s.heap z
    rw [hfr2 z hzrs hzc]
    exact hfullB z hzdr hzrs hzc

/-- One wake-up step of `move_waiting_pcbs_to_rq`: the matching process at
the cursor is unlinked from the waiting chain (head surgery when it is the
first node, predecessor surgery otherwise; the tail pointer is pulled back
when it was the last node) and moved to the ready queue. -/
theorem mwpr_step (rn : String) (f : Nat) (prev : Option Pid) (c : Pid) (cc : pcb_t)
    (rest done rs : List Pid) (s : SysState)
    (hw : chain s.heap s.waitingq.first (done ++ c :: rest) = true)
    (hlast : s.waitingq.last = (done ++ c :: rest).getLast?)
    (hprev : prev = done.getLast?)
    (hcc : hget s.heap c = some cc)
    (hm : is_waiting_for_resource s.heap (some c) (some rn) = true)
    (hready : repQ s.heap s.readyq rs)
    (hdisj : ∀ x ∈ done ++ c :: rest, x ∉ rs) :
    ∃ s2, mwpr_loop rn (f + 1) prev (some c) s = mwpr_loop rn f prev cc.next s2
      ∧ chain s2.heap s2.waitingq.first (done ++ rest) = true
      ∧ s2.waitingq.last = (done ++ rest).getLast?
      ∧ repQ s2.heap s2.readyq (rs ++ [c])
      ∧ (hget s2.heap c).map pcb_t.state = some .READY
      ∧ (∀ z, (hget s2.heap z).map pcbCore = (hget s.heap z).map pcbCore)
      ∧ (∀ z, z ≠ c → (hget s2.heap z).map pcb_t.state = (hget s.heap z).map pcb_t.state)
      ∧ s2.terminatedq = s.terminatedq
      ∧ s2.resources = s.resources
      ∧ s2.arrivals = s.arrivals
      ∧ s2.events = s.events ++ [.evReady (pcbName s.heap c)]
      ∧ s2.heap.length = s.heap.length
      ∧ (∀ z, z ∉ done ++ rest → z ∉ rs → z ≠ c → hget s2.heap z = hget s.heap z) := by
  have hnd := chain_nodup hw
  have hchainc : chain s.heap (some c) (c :: rest) = true := chain_suffix hw
  obtain ⟨_, cc2, hcc2x, hrest0⟩ := chain_cons_elim hchainc
  have hrestchain : chain s.heap cc.next rest = true := by
    have hcc2e : cc2 = cc := by rw [hcc] at hcc2x; exact (Option.some.inj hcc2x).symm
    rw [← hcc2e]
    exact hrest0
  have hcmemfull : c ∈ done ++ c :: rest :=
    List.mem_append_right done (List.mem_cons_self c rest)
  have hcnotrs : c ∉ rs := hdisj c hcmemfull
  have hcnotd : c ∉ done := fun hcd =>
    (List.disjoint_of_nodup_append hnd) hcd (List.mem_cons_self c rest)
  have hcnotrest : c ∉ rest := (List.nodup_cons.mp (List.nodup_append.mp hnd).2.1).1
  have hcnotdr : c ∉ done ++ rest := by
    intro hmem
    rcases List.mem_append.mp hmem with h1 | h2
    · exact hcnotd h1
    · exact hcnotrest h2
  have hdnotrs : ∀ x ∈ done ++ rest, x ∉ rs := by
    intro x hx
    apply hdisj
    rcases List.mem_append.mp hx with h1 | h2
    · exact List.mem_append_left _ h1
    · exact List.mem_append_right _ (List.mem_cons_of_mem c h2)
  have hclen : c < s.heap.length := hget_lt hcc
  have hname : cc.name = pcbName s.heap c := by unfold pcbName; rw [hcc]; rfl
  rcases List.eq_nil_or_concat done with hdnil | ⟨di, pr, hdpr⟩
  · subst hdnil
    have hprevn : prev = none := by rw [hprev]; rfl
    subst hprevn
    cases rest with
    | nil =>
      have hfixT : s.waitingq.last = some c := by rw [hlast]; rfl
      have hrun1 : mwpr_loop rn (f + 1) none (some c) s
          = (move_proc_to_rq (some c)
              { s with heap := hset s.heap c { cc with next := none },
                       waitingq := ⟨cc.next, none⟩ })
            >>= fun s => mwpr_loop rn f none cc.next s := by
        simp only [mwpr_loop, hm, hread, hcc, ok_bind]
        rw [if_pos hfixT, if_pos trivial]
        simp only [hread, hcc, ok_bind]
      refine mwpr_step_finish hrun1 ?_ rfl ⟨chain_hset hready.1 hcnotrs, hready.2⟩
        (hget_hset_self hclen _) hcnotrs hcnotdr hdnotrs
        (hget_map_hset (x := { cc with next := none }) hcc pcbCore rfl)
        (fun z hzc => by rw [hget_hset_ne (Ne.symm hzc) _])
        rfl rfl rfl rfl (length_hset s.heap c _) hname
        (fun z _ _ hzc => hget_hset_ne (Ne.symm hzc) _)
      show chain _ cc.next ([] ++ []) = true
      rw [chain_head hrestchain]
      rfl
    | cons g gs =>
      obtain ⟨gl, hgl⟩ : ∃ gl, (g :: gs).getLast? = some gl :=
        ⟨(g :: gs).getLast (by simp), List.getLast?_eq_getLast _ (by simp)⟩
      have hlast2 : s.waitingq.last = some gl := by
        rw [hlast, List.nil_append, List.getLast?_cons_cons, hgl]
      have hfixF : ¬ (s.waitingq.last = some c) := by
        intro hcontra
        rw [hlast2] at hcontra
        exact hcnotrest ((Option.some.inj hcontra) ▸ List.mem_of_getLast?_eq_some hgl)
      have hrun1 : mwpr_loop rn (f + 1) none (some c) s
          = (move_proc_to_rq (some c)
              { s with heap := hset s.heap c { cc with next := none },
                       waitingq := { s.waitingq with first := cc.next } })
            >>= fun s => mwpr_loop rn f none cc.next s := by
        simp only [mwpr_loop, hm, hread, hcc, ok_bind]
        rw [if_neg hfixF, if_pos trivial]
        simp only [hread, hcc, ok_bind]
      refine mwpr_step_finish hrun1 ?_ ?_ ⟨chain_hset hready.1 hcnotrs, hready.2⟩
        (hget_hset_self hclen _) hcnotrs hcnotdr hdnotrs
        (hget_map_hset (x := { cc with next := none }) hcc pcbCore rfl)
        (fun z hzc => by rw [hget_hset_ne (Ne.symm hzc) _])
        rfl rfl rfl rfl (length_hset s.heap c _) hname
        (fun z _ _ hzc => hget_hset_ne (Ne.symm hzc) _)
      · show chain (hset s.heap c { cc with next := none }) cc.next ([] ++ g :: gs) = true
        rw [List.nil_append]
        exact chain_hset hrestchain hcnotrest
      · show s.waitingq.last = ([] ++ g :: gs).getLast?
        rw [hlast2, List.nil_append, hgl]
  · subst hdpr
    rw [List.concat_eq_append] at *
    have hprevs : prev = some pr := by rw [hprev, List.getLast?_concat]
    subst hprevs
    have hprmem : pr ∈ di ++ [pr] := List.mem_append_right di (List.mem_cons_self pr [])
    obtain ⟨prc, hprc⟩ := chain_valid hw pr (List.mem_append_left _ hprmem)
    have hpr_ne_c : pr ≠ c := fun hcontra => hcnotd (hcontra ▸ hprmem)
    have hcc2 : hget (hset s.heap pr { prc with next := cc.next }) c = some cc := by
      rw [hget_hset_ne hpr_ne_c _]
      exact hcc
    have hprnotrs : pr ∉ rs := hdisj pr (List.mem_append_left _ hprmem)
    have hwassoc : chain s.heap s.waitingq.first (di ++ pr :: c :: rest) = true := by
      have := hw
      rw [List.append_assoc, List.singleton_append] at this
      exact this
    have hsplice := chain_splice hprc hcc hwassoc
    have hclen2 : c < (hset s.heap pr { prc with next := cc.next }).length := by
      rw [length_hset]
      exact hclen
    cases rest with
    | nil =>
      have hfixT : s.waitingq.last = some c := by rw [hlast, List.getLast?_concat]
      have hrun1 : mwpr_loop rn (f + 1) (some pr) (some c) s
          = (move_proc_to_rq (some c)
              { s with heap := hset (hset s.heap pr { prc with next := cc.next }) c
                         { cc with next := none },
                       waitingq := { s.waitingq with last := some pr } })
            >>= fun s => mwpr_loop rn f (some pr) cc.next s := by
        simp only [mwpr_loop, hm, hread, hcc, ok_bind, hprc, hcc2]
        rw [if_pos hfixT, if_pos trivial]
        simp only [hread, hcc2, ok_bind]
      refine mwpr_step_finish hrun1 ?_ ?_
        ⟨chain_hset (chain_hset hready.1 hprnotrs) hcnotrs, hready.2⟩
        (hget_hset_self hclen2 _) hcnotrs hcnotdr hdnotrs
        (fun z => by
          rw [hget_map_hset (x := { cc with next := none }) hcc2 pcbCore rfl z,
            hget_map_hset (x := { prc with next := cc.next }) hprc pcbCore rfl z])
        (fun z _ => by
          rw [hget_map_hset (x := { cc with next := none }) hcc2 pcb_t.state rfl z,
            hget_map_hset (x := { prc with next := cc.next }) hprc pcb_t.state rfl z])
        rfl rfl rfl rfl (by rw [length_hset, length_hset]) hname
        (fun z hzdr _ hzc => by
          rw [hget_hset_ne (Ne.symm hzc) _,
            hget_hset_ne (Ne.symm (fun hzpr => hzdr (by
              rw [hzpr]; exact List.mem_append_left _ hprmem))) _])
      · show chain (hset (hset s.heap pr { prc with next := cc.next }) c
            { cc with next := none }) s.waitingq.first ((di ++ [pr]) ++ []) = true
        rw [List.append_nil]
        exact hsplice
      · show (some pr : Option Pid) = ((di ++ [pr]) ++ []).getLast?
        rw [List.append_nil, List.getLast?_concat]
    | cons g gs =>
      obtain ⟨gl, hgl⟩ : ∃ gl, (g :: gs).getLast? = some gl :=
        ⟨(g :: gs).getLast (by simp), List.getLast?_eq_getLast _ (by simp)⟩
      have hlast2 : s.waitingq.last = some gl := by
        rw [hlast, List.getLast?_append, List.getLast?_cons_cons, hgl]
        rfl
      have hfixF : ¬ (s.waitingq.last = some c) := by
        intro hcontra
        rw [hlast2] at hcontra
        exact hcnotrest ((Option.some.inj hcontra) ▸ List.mem_of_getLast?_eq_some hgl)
      have hrun1 : mwpr_loop rn (f + 1) (some pr) (some c) s
          = (move_proc_to_rq (some c)
              { s with heap := hset (hset s.heap pr { prc with next := cc.next }) c
                         { cc with next := none } })
            >>= fun s => mwpr_loop rn f (some pr) cc.next s := by
        simp only [mwpr_loop, hm, hread, hcc, ok_bind, hprc, hcc2]
        rw [if_neg hfixF, if_pos trivial]
        simp only [hread, hcc2, ok_bind]
      refine mwpr_step_finish hrun1 ?_ ?_
        ⟨chain_hset (chain_hset hready.1 hprnotrs) hcnotrs, hready.2⟩
        (hget_hset_self hclen2 _) hcnotrs hcnotdr hdnotrs
        (fun z => by
          rw [hget_map_hset (x := { cc with next := none }) hcc2 pcbCore rfl z,
            hget_map_hset (x := { prc with next := cc.next }) hprc pcbCore rfl z])
        (fun z _ => by
          rw [hget_map_hset (x := { cc with next := none }) hcc2 pcb_t.state rfl z,
            hget_map_hset (x := { prc with next := cc.next }) hprc pcb_t.state rfl z])
        rfl rfl rfl rfl (by rw [length_hset, length_hset]) hname
        (fun z hzdr _ hzc => by
          rw [hget_hset_ne (Ne.symm hzc) _,
            hget_hset_ne (Ne.symm (fun hzpr => hzdr (by
              rw [hzpr]; exact List.mem_append_left _ hprmem))) _])
      · show chain (hset (hset s.heap pr { prc with next := cc.next }) c
            { cc with next := none }) s.waitingq.first ((di ++ [pr]) ++ g :: gs) = true
        rw [List.append_assoc, List.singleton_append]
        exact hsplice
      · show s.waitingq.last = ((di ++ [pr]) ++ g :: gs).getLast?
        rw [hlast2, List.getLast?_append, hgl]
        rfl

/-- Main induction for `move_waiting_pcbs_to_rq`: traversing the remainder
`ws` of the waiting chain (with `done` the already-scanned non-matching
prefix) moves exactly the matching processes to the ready tail, in their
waiting order. -/
theorem mwpr_go (rn : String) :
    ∀ (ws done rs : List Pid) (prev cur : Option Pid) (s : SysState) (fuel : Nat),
      chain s.heap s.waitingq.first (done ++ ws) = true →
      s.waitingq.last = (done ++ ws).getLast? →
      prev = done.getLast? →
      cur = ws.head? →
      (∀ x ∈ done, is_waiting_for_resource s.heap (some x) (some rn) = false) →
      repQ s.heap s.readyq rs →
      (∀ x ∈ done ++ ws, x ∉ rs) →
      ws.length ≤ fuel →
      ∃ s', mwpr_loop rn fuel prev cur s = .ok s'
        ∧ repQ s'.heap s'.waitingq
            (done ++ ws.filter (fun x => !(is_waiting_for_resource s.heap (some x) (some rn))))
        ∧ repQ s'.heap s'.readyq
            (rs ++ ws.filter (fun x => is_waiting_for_resource s.heap (some x) (some rn)))
        ∧ (∀ x ∈ ws.filter (fun x => is_waiting_for_resource s.heap (some x) (some rn)),
            (hget s'.heap x).map pcb_t.state = some .READY)
        ∧ (∀ z, (hget s'.heap z).map pcbCore = (hget s.heap z).map pcbCore)
        ∧ (∀ z, z ∉ ws.filter (fun x => is_waiting_for_resource s.heap (some x) (some rn)) →
            (hget s'.heap z).map pcb_t.state = (hget s.heap z).map pcb_t.state)
        ∧ s'.terminatedq = s.terminatedq
        ∧ s'.resources = s.resources
        ∧ s'.arrivals = s.arrivals
        ∧ s'.events = s.events
            ++ (ws.filter (fun x => is_waiting_for_resource s.heap (some x) (some rn))).map
                (fun x => Event.evReady (pcbName s.heap x))
        ∧ s'.heap.length = s.heap.length
        ∧ (∀ z, z ∉ done ++ ws → z ∉ rs → hget s'.heap z = hget s.heap z) := by
  intro ws
  induction ws with
  | nil =>
    intro done rs prev cur s fuel hw hlast hprev hcur hnm hready hdisj hfuel
    have hcur2 : cur = none := hcur
    subst hcur2
    refine ⟨s, by cases fuel <;> rfl, ⟨?_, ?_⟩, ?_, ?_, fun z => rfl, fun z _ => rfl,
      rfl, rfl, rfl, ?_, rfl, fun z _ _ => rfl⟩
    · rw [List.filter_nil]
      exact hw
    · rw [List.filter_nil]
      exact hlast
    · rw [List.filter_nil, List.append_nil]
      exact hready
    · intro x hx
      rw [List.filter_nil] at hx
      cases hx
    · rw [List.filter_nil, List.map_nil, List.append_nil]
  | cons c rest ih =>
    intro done rs prev cur s fuel hw hlast hprev hcur hnm hready hdisj hfuel
    have hcur2 : cur = some c := hcur
    subst hcur2
    cases fuel with
    | zero => simp at hfuel
    | succ f =>
    have hfuel2 : rest.length ≤ f := by
      simp only [List.length_cons] at hfuel
      omega
    obtain ⟨cc, hcc⟩ := chain_valid hw c
      (List.mem_append_right done (List.mem_cons_self c rest))
    have hchainc : chain s.heap (some c) (c :: rest) = true := chain_suffix hw
    obtain ⟨_, cc2, hcc2x, hrest0⟩ := chain_cons_elim hchainc
    have hrestchain : chain s.heap cc.next rest = true := by
      have hcc2e : cc2 = cc := by rw [hcc] at hcc2x; exact (Option.some.inj hcc2x).symm
      rw [← hcc2e]
      exact hrest0
    have hcnext : cc.next = rest.head? := chain_head hrestchain
    have hnd := chain_nodup hw
    have hcnotrest : c ∉ rest := (List.nodup_cons.mp (List.nodup_append.mp hnd).2.1).1
    have hcnotd : c ∉ done := fun hcd =>
      (List.disjoint_of_nodup_append hnd) hcd (List.mem_cons_self c rest)
    by_cases hm : is_waiting_for_resource s.heap (some c) (some rn) = true
    · obtain ⟨s2, hstep, hw2, hlast2, hready2, hst2c, hcore2, hstate2, htq2, hres2,
        harr2, hev2, hlen2, hfull2⟩ :=
        mwpr_step rn f prev c cc rest done rs s hw hlast hprev hcc hm hready hdisj
      have hdisj2 : ∀ x ∈ done ++ rest, x ∉ rs ++ [c] := by
        intro x hx hmem
        rcases List.mem_append.mp hmem with h1 | h2
        · refine hdisj x ?_ h1
          rcases List.mem_append.mp hx with hd | hr
          · exact List.mem_append_left _ hd
          · exact List.mem_append_right _ (List.mem_cons_of_mem c hr)
        · have hxc : x = c := List.mem_singleton.mp h2
          subst hxc
          rcases List.mem_append.mp hx with hd | hr
          · exact hcnotd hd
          · exact hcnotrest hr
      have hnm2 : ∀ x ∈ done, is_waiting_for_resource s2.heap (some x) (some rn) = false := by
        intro x hxd
        have hxc : x ≠ c := fun hcontra => hcnotd (hcontra ▸ hxd)
        rw [is_waiting_congr (hstate2 x hxc) (hcore2 x)]
        exact hnm x hxd
      obtain ⟨s', hrun', hw', hr', hst', hcore', hstfr', htq', hres', harr', hev', hlen',
        hfull'⟩ :=
        ih done (rs ++ [c]) prev cc.next s2 f hw2 hlast2 hprev hcnext hnm2 hready2
          hdisj2 hfuel2
      have hfeq : ∀ x ∈ rest, is_waiting_for_resource s2.heap (some x) (some rn)
          = is_waiting_for_resource s.heap (some x) (some rn) := by
        intro x hx
        exact is_waiting_congr (hstate2 x (fun hcontra => hcnotrest (hcontra ▸ hx)))
          (hcore2 x)
      have hfilters : rest.filter (fun x => is_waiting_for_resource s2.heap (some x) (some rn))
          = rest.filter (fun x => is_waiting_for_resource s.heap (some x) (some rn)) :=
        List.filter_congr hfeq
      have hfilterneg :
          rest.filter (fun x => !(is_waiting_for_resource s2.heap (some x) (some rn)))
          = rest.filter (fun x => !(is_waiting_for_resource s.heap (some x) (some rn))) :=
        List.filter_congr (fun x hx => by rw [hfeq x hx])
      have hfc : (c :: rest).filter
            (fun x => is_waiting_for_resource s.heap (some x) (some rn))
          = c :: rest.filter (fun x => is_waiting_for_resource s.heap (some x) (some rn)) :=
        List.filter_cons_of_pos hm
      have hfcneg : (c :: rest).filter
            (fun x => !(is_waiting_for_resource s.heap (some x) (some rn)))
          = rest.filter (fun x => !(is_waiting_for_resource s.heap (some x) (some rn))) :=
        List.filter_cons_of_neg (by rw [hm]; exact Bool.false_ne_true)
      refine ⟨s', by rw [hstep]; exact hrun', ?_, ?_, ?_, ?_, ?_, ?_, ?_, ?_, ?_, ?_, ?_⟩
      · rw [hfcneg, ← hfilterneg]
        exact hw'
      · rw [hfc]
        have hassoc : rs ++ c :: rest.filter
              (fun x => is_waiting_for_resource s.heap (some x) (some rn))
            = (rs ++ [c]) ++ rest.filter
              (fun x => is_waiting_for_resource s.heap (some x) (some rn)) := by
          rw [List.append_assoc, List.singleton_append]
        rw [hassoc, ← hfilters]
        exact hr'
      · intro x hx
        rw [hfc] at hx
        rcases List.mem_cons.mp hx with rfl | hx2
        · have hcnotf : x ∉ rest.filter
              (fun y => is_waiting_for_resource s2.heap (some y) (some rn)) :=
            fun hmem => hcnotrest (List.mem_filter.mp hmem).1
          rw [hstfr' x hcnotf]
          exact hst2c
        · rw [← hfilters] at hx2
          exact hst' x hx2
      · intro z
        rw [hcore' z]
        exact hcore2 z
      · intro z hz
        rw [hfc] at hz
        have hzc : z ≠ c := fun hcontra => hz (hcontra ▸ List.mem_cons_self c _)
        have hznotf : z ∉ rest.filter
            (fun x => is_waiting_for_resource s2.heap (some x) (some rn)) := by
          rw [hfilters]
          exact fun hmem => hz (List.mem_cons_of_mem c hmem)
        rw [hstfr' z hznotf]
        exact hstate2 z hzc
      · rw [htq', htq2]
      · rw [hres', hres2]
      · rw [harr', harr2]
      · have hmapeq : (rest.filter
              (fun x => is_waiting_for_resource s.heap (some x) (some rn))).map
                (fun x => Event.evReady (pcbName s2.heap x))
            = (rest.filter
              (fun x => is_waiting_for_resource s.heap (some x) (some rn))).map
                (fun x => Event.evReady (pcbName s.heap x)) :=
          List.map_congr_left (fun x _ => by rw [pcbName_congr (hcore2 x)])
        rw [hev', hfilters, hmapeq, hev2, hfc, List.map_cons, List.append_assoc,
          List.singleton_append]
      · rw [hlen', hlen2]
      · intro z hzdw hzrs
        have hzc : z ≠ c := fun hcontra => hzdw (by
          rw [hcontra]
          exact List.mem_append_right _ (List.mem_cons_self c rest))
        have hzdr : z ∉ done ++ rest := fun hmem => hzdw (by
          rcases List.mem_append.mp hmem with h1 | h2
          · exact List.mem_append_left _ h1
          · exact List.mem_append_right _ (List.mem_cons_of_mem c h2))
        have hzrs2 : z ∉ (rs ++ [c]) := fun hmem => by
          rcases List.mem_append.mp hmem with h1 | h2
          · exact hzrs h1
          · exact hzc (List.mem_singleton.mp h2)
        rw [hfull' z hzdr hzrs2, hfull2 z hzdr hzrs hzc]
    · have hmf : is_waiting_for_resource s.heap (some c) (some rn) = false :=
        Bool.eq_false_iff.mpr hm
      have hstep : mwpr_loop rn (f + 1) prev (some c) s
          = mwpr_loop rn f (some c) cc.next s := by
        simp only [mwpr_loop, hmf, hread, hcc, ok_bind]
        rw [if_neg Bool.false_ne_true]
      obtain ⟨s', hrun', hw', hr', hst', hcore', hstfr', htq', hres', harr', hev', hlen',
        hfull'⟩ :=
        ih (done ++ [c]) rs (some c) cc.next s f
          (by rw [List.append_assoc, List.singleton_append]; exact hw)
          (by rw [List.append_assoc, List.singleton_append]; exact hlast)
          (by rw [List.getLast?_concat])
          hcnext
          (by
            intro x hx
            rcases List.mem_append.mp hx with h1 | h2
            · exact hnm x h1
            · rw [List.mem_singleton.mp h2]
              exact hmf)
          hready
          (by
            intro x hx
            apply hdisj
            rw [List.append_assoc, List.singleton_append] at hx
            exact hx)
          hfuel2
      have hfc : (c :: rest).filter
            (fun x => is_waiting_for_resource s.heap (some x) (some rn))
          = rest.filter (fun x => is_waiting_for_resource s.heap (some x) (some rn)) :=
        List.filter_cons_of_neg (by rw [hmf]; exact Bool.false_ne_true)
      have hfcneg : (c :: rest).filter
            (fun x => !(is_waiting_for_resource s.heap (some x) (some rn)))
          = c :: rest.filter (fun x => !(is_waiting_for_resource s.heap (some x) (some rn))) :=
        List.filter_cons_of_pos (by rw [hmf]; rfl)
      refine ⟨s', by rw [hstep]; exact hrun', ?_, ?_, ?_, hcore', ?_, htq', hres', harr',
        ?_, hlen', ?_⟩
      · rw [hfcneg]
        rw [List.append_assoc, List.singleton_append] at hw'
        exact hw'
      · rw [hfc]
        exact hr'
      · rw [hfc]
        exact hst'
      · intro z hz
        rw [hfc] at hz
        exact hstfr' z hz
      · rw [hfc]
        exact hev'
      · intro z hz hzr
        refine hfull' z (fun hmem => hz (by
          rw [List.append_assoc, List.singleton_append] at hmem
          exact hmem)) hzr

/-- `move_waiting_pcbs_to_rq` under queue representations: broadcast
wake-up of every matching waiting process, in waiting-queue order. -/
theorem move_waiting_pcbs_to_rq_rep {rn : String} {fuel : Nat} {s : SysState}
    {ws rs : List Pid}
    (hwq : repQ s.heap s.waitingq ws) (hrq : repQ s.heap s.readyq rs)
    (hdisj : ∀ x ∈ ws, x ∉ rs) (hfuel : ws.length ≤ fuel) :
    ∃ s', move_waiting_pcbs_to_rq rn fuel s = .ok s'
      ∧ repQ s'.heap s'.waitingq
          (ws.filter (fun x => !(is_waiting_for_resource s.heap (some x) (some rn))))
      ∧ repQ s'.heap s'.readyq
          (rs ++ ws.filter (fun x => is_waiting_for_resource s.heap (some x) (some rn)))
      ∧ (∀ x ∈ ws.filter (fun x => is_waiting_for_resource s.heap (some x) (some rn)),
          (hget s'.heap x).map pcb_t.state = some .READY)
      ∧ (∀ z, (hget s'.heap z).map pcbCore = (hget s.heap z).map pcbCore)
      ∧ (∀ z, z ∉ ws.filter (fun x => is_waiting_for_resource s.heap (some x) (some rn)) →
          (hget s'.heap z).map pcb_t.state = (hget s.heap z).map pcb_t.state)
      ∧ s'.terminatedq = s.terminatedq
      ∧ s'.resources = s.resources
      ∧ s'.arrivals = s.arrivals
      ∧ s'.events = s.events
          ++ (ws.filter (fun x => is_waiting_for_resource s.heap (some x) (some rn))).map
              (fun x => Event.evReady (pcbName s.heap x))
      ∧ s'.heap.length = s.heap.length
      ∧ (∀ z, z ∉ ws → z ∉ rs → hget s'.heap z = hget s.heap z) := by
  obtain ⟨s', hrun, hw0, hr', hst', hcore', hstfr', htq', hres', harr', hev', hlen',
    hfull'⟩ := mwpr_go rn ws [] rs none s.waitingq.first s fuel
    (by rw [List.nil_append]; exact hwq.1)
    (by rw [List.nil_append]; exact hwq.2)
    rfl
    (chain_head hwq.1)
    (fun x hx => absurd hx (List.not_mem_nil x))
    hrq
    (by
      intro x hx
      rw [List.nil_append] at hx
      exact hdisj x hx)
    hfuel
  refine ⟨s', hrun, ?_, hr', hst', hcore', hstfr', htq', hres', harr', hev', hlen', ?_⟩
  · have := hw0
    rw [List.nil_append] at this
    exact this
  · intro z hz hzr
    exact hfull' z (by rw [List.nil_append]; exact hz) hzr

/-- Pid-level version of the `canMoveToReady` test of the resource-based
sweep. -/
def mwtr_moves (h : List pcb_t) (res : List resource_t) (x : Pid) : Bool :=
  match hget h x with
  | some pc => mwtr_can_move pc res
  | none => false

theorem mwtr_moves_congr {h1 h2 : List pcb_t} {res : List resource_t} {x : Pid}
    (hcore : (hget h1 x).map pcbCore = (hget h2 x).map pcbCore) :
    mwtr_moves h1 res x = mwtr_moves h2 res x := by
  unfold mwtr_moves
  cases hg1 : hget h1 x with
  | none =>
    cases hg2 : hget h2 x with
    | none => rfl
    | some pc2 => rw [hg1, hg2] at hcore; exact absurd hcore (by simp)
  | some pc1 =>
    cases hg2 : hget h2 x with
    | none => rw [hg1, hg2] at hcore; exact absurd hcore (by simp)
    | some pc2 =>
      rw [hg1, hg2] at hcore
      have hcoreEq : pcbCore pc1 = pcbCore pc2 := Option.some.inj hcore
      have hi : pc1.next_instruction = pc2.next_instruction :=
        congrArg (fun t : String × List instr_t × Int × List String => t.2.1) hcoreEq
      show mwtr_can_move pc1 res = mwtr_can_move pc2 res
      unfold mwtr_can_move
      rw [hi]

theorem mwtr_moves_eq {h : List pcb_t} {res : List resource_t} {x : Pid} {pc : pcb_t}
    (hx : hget h x = some pc) : mwtr_moves h res x = mwtr_can_move pc res := by
  unfold mwtr_moves
  rw [hx]

/-- Common tail of one move step of the resource-based sweep. -/
theorem mwtr_step_finish {f : Nat} {prev : Option Pid} {c : Pid} {cc : pcb_t}
    {done rest rs : List Pid} {s vB : SysState}
    (hrun1 : mwtr_loop (f + 1) prev s
      = (move_proc_to_rq (some c) vB) >>= fun s => mwtr_loop f prev s)
    (hchainB : chain vB.heap vB.waitingq.first (done ++ rest) = true)
    (hlastB : vB.waitingq.last = (done ++ rest).getLast?)
    (hreadyB : repQ vB.heap vB.readyq rs)
    (hcB : hget vB.heap c = some cc)
    (hcnotrs : c ∉ rs)
    (hcnotdr : c ∉ done ++ rest)
    (hdnotrs : ∀ x ∈ done ++ rest, x ∉ rs)
    (hcoreB : ∀ z, (hget vB.heap z).map pcbCore = (hget s.heap z).map pcbCore)
    (hstateB : ∀ z, z ≠ c → (hget vB.heap z).map pcb_t.state = (hget s.heap z).map pcb_t.state)
    (htqB : vB.terminatedq = s.terminatedq)
    (hresB : vB.resources = s.resources)
    (harrB : vB.arrivals = s.arrivals)
    (hevB : vB.events = s.events)
    (hlenB : vB.heap.length = s.heap.length)
    (hname : cc.name = pcbName s.heap c)
    (hfullB : ∀ z, z ∉ done ++ rest → z ∉ rs → z ≠ c → hget vB.heap z = hget s.heap z) :
    ∃ s2, mwtr_loop (f + 1) prev s = mwtr_loop f prev s2
      ∧ chain s2.heap s2.waitingq.first (done ++ rest) = true
      ∧ s2.waitingq.last = (done ++ rest).getLast?
      ∧ repQ s2.heap s2.readyq (rs ++ [c])
      ∧ (hget s2.heap c).map pcb_t.state = some .READY
      ∧ (∀ z, (hget s2.heap z).map pcbCore = (hget s.heap z).map pcbCore)
      ∧ (∀ z, z ≠ c → (hget s2.heap z).map pcb_t.state = (hget s.heap z).map pcb_t.state)
      ∧ s2.terminatedq = s.terminatedq
      ∧ s2.resources = s.resources
      ∧ s2.arrivals = s.arrivals
      ∧ s2.events = s.events ++ [.evReady (pcbName s.heap c)]
      ∧ s2.heap.length = s.heap.length
      ∧ (∀ z, z ∉ done ++ rest → z ∉ rs → z ≠ c → hget s2.heap z = hget s.heap z) := by
  obtain ⟨h2, hmv, hrep2, hfr2, hc2, hcore2, hstate2, hlen2⟩ :=
    move_proc_to_rq_rep hreadyB hcB hcnotrs
  refine ⟨logEvent (.evReady cc.name)
      (setQ { vB with heap := h2 } .readyQ ⟨(rs ++ [c]).head?, some c⟩),
    ?_, ?_, hlastB, hrep2, ?_, ?_, ?_, htqB, hresB, harrB, ?_, ?_, ?_⟩
  · rw [hrun1, hmv, ok_bind]
  · show chain h2 vB.waitingq.first (done ++ rest) = true
    rw [chain_congr (h := vB.heap) (fun z hz => hfr2 z (hdnotrs z hz)
      (fun hcontra => hcnotdr (hcontra ▸ hz)))]
    exact hchainB
  · show (hget h2 c).map pcb_t.state = some .READY
    rw [hc2]
    rfl
  · intro z
    show (hget h2 z).map pcbCore = (hget s.heap z).map pcbCore
    rw [hcore2 z]
    exact hcoreB z
  · intro z hzc
    show (hget h2 z).map pcb_t.state = (hget s.heap z).map pcb_t.state
    rw [hstate2 z hzc]
    exact hstateB z hzc
  · show vB.events ++ [Event.evReady cc.name]
      = s.events ++ [.evReady (pcbName s.heap c)]
    rw [hevB, hname]
  · show h2.length = s.heap.length
    rw [hlen2]
    exact hlenB
  · intro z hzdr hzrs hzc
    show hget h2 z = hget s.heap z
    rw [hfr2 z hzrs hzc]
    exact hfullB z hzdr hzrs hzc

/-- Redirecting the predecessor's link past a node (without touching the
node itself) removes it from the chain. -/
theorem chain_splice1 {h : List pcb_t} {pred p : Pid} {predc pcc : pcb_t}
    (hpredc : hget h pred = some predc) (hpcc : hget h p = some pcc) :
    ∀ {l1 l2 : List Pid} {o : Option Pid},
      chain h o (l1 ++ pred :: p :: l2) = true →
      chain (hset h pred { predc with next := pcc.next }) o (l1 ++ pred :: l2) = true := by
  intro l1
  induction l1 with
  | nil =>
    intro l2 o hc
    rw [List.nil_append] at hc
    cases o with
    | none => rw [chain_none_cons] at hc; exact absurd hc (by simp)
    | some p0 =>
      obtain ⟨hpq, predc2, hpred2, hrest⟩ := chain_cons_elim hc
      cases hpq
      have hpr : predc2 = predc := by
        rw [hpredc] at hpred2
        exact (Option.some.inj hpred2).symm
      subst hpr
      have hnd := chain_nodup hc
      have hnext : predc2.next = some p := by rw [chain_head hrest]; rfl
      rw [hnext] at hrest
      obtain ⟨_, pcc2, hp2, hrest2⟩ := chain_cons_elim hrest
      have hpc : pcc2 = pcc := by
        rw [hpcc] at hp2
        exact (Option.some.inj hp2).symm
      subst hpc
      have hpredl2 : pred ∉ l2 := fun hmem =>
        (List.nodup_cons.mp hnd).1 (List.mem_cons_of_mem p hmem)
      have hg1 : hget (hset h pred { predc2 with next := pcc2.next }) pred
          = some { predc2 with next := pcc2.next } := hget_hset_self (hget_lt hpredc) _
      refine chain_cons_intro hg1 ?_
      show chain _ pcc2.next l2 = true
      exact chain_hset hrest2 hpredl2
  | cons a t ih =>
    intro l2 o hc
    rw [List.cons_append] at hc
    cases o with
    | none => rw [chain_none_cons] at hc; exact absurd hc (by simp)
    | some p0 =>
      obtain ⟨hpq, ac, ha, hrest⟩ := chain_cons_elim hc
      cases hpq
      have hnd := chain_nodup hc
      have hrestmem := (List.nodup_cons.mp hnd).1
      have ha_ne_pred : a ≠ pred := by
        intro hcontra
        refine hrestmem ?_
        rw [hcontra]
        exact List.mem_append_right t (List.mem_cons_self pred (p :: l2))
      have hg1 : hget (hset h pred { predc with next := pcc.next }) a = some ac := by
        rw [hget_hset_ne (Ne.symm ha_ne_pred) _]
        exact ha
      rw [List.cons_append]
      exact chain_cons_intro hg1 (ih hrest)

/-- One move step of `move_waiting_to_ready_based_on_resources`. -/
theorem mwtr_step (f : Nat) (prev : Option Pid) (c : Pid) (cc : pcb_t)
    (rest done rs : List Pid) (s : SysState)
    (hw : chain s.heap s.waitingq.first (done ++ c :: rest) = true)
    (hlast : s.waitingq.last = (done ++ c :: rest).getLast?)
    (hprev : prev = done.getLast?)
    (hcc : hget s.heap c = some cc)
    (hm : mwtr_can_move cc s.resources = true)
    (hready : repQ s.heap s.readyq rs)
    (hdisj : ∀ x ∈ done ++ c :: rest, x ∉ rs) :
    ∃ s2, mwtr_loop (f + 1) prev s = mwtr_loop f prev s2
      ∧ chain s2.heap s2.waitingq.first (done ++ rest) = true
      ∧ s2.waitingq.last = (done ++ rest).getLast?
      ∧ repQ s2.heap s2.readyq (rs ++ [c])
      ∧ (hget s2.heap c).map pcb_t.state = some .READY
      ∧ (∀ z, (hget s2.heap z).map pcbCore = (hget s.heap z).map pcbCore)
      ∧ (∀ z, z ≠ c → (hget s2.heap z).map pcb_t.state = (hget s.heap z).map pcb_t.state)
      ∧ s2.terminatedq = s.terminatedq
      ∧ s2.resources = s.resources
      ∧ s2.arrivals = s.arrivals
      ∧ s2.events = s.events ++ [.evReady (pcbName s.heap c)]
      ∧ s2.heap.length = s.heap.length
      ∧ (∀ z, z ∉ done ++ rest → z ∉ rs → z ≠ c → hget s2.heap z = hget s.heap z) := by
  have hnd := chain_nodup hw
  have hchainc : chain s.heap (some c) (c :: rest) = true := chain_suffix hw
  obtain ⟨_, cc2, hcc2x, hrest0⟩ := chain_cons_elim hchainc
  have hrestchain : chain s.heap cc.next rest = true := by
    have hcc2e : cc2 = cc := by rw [hcc] at hcc2x; exact (Option.some.inj hcc2x).symm
    rw [← hcc2e]
    exact hrest0
  have hcmemfull : c ∈ done ++ c :: rest :=
    List.mem_append_right done (List.mem_cons_self c rest)
  have hcnotrs : c ∉ rs := hdisj c hcmemfull
  have hcnotd : c ∉ done := fun hcd =>
    (List.disjoint_of_nodup_append hnd) hcd (List.mem_cons_self c rest)
  have hcnotrest : c ∉ rest := (List.nodup_cons.mp (List.nodup_append.mp hnd).2.1).1
  have hcnotdr : c ∉ done ++ rest := by
    intro hmem
    rcases List.mem_append.mp hmem with h1 | h2
    · exact hcnotd h1
    · exact hcnotrest h2
  have hdnotrs : ∀ x ∈ done ++ rest, x ∉ rs := by
    intro x hx
    apply hdisj
    rcases List.mem_append.mp hx with h1 | h2
    · exact List.mem_append_left _ h1
    · exact List.mem_append_right _ (List.mem_cons_of_mem c h2)
  have hclen : c < s.heap.length := hget_lt hcc
  have hname : cc.name = pcbName s.heap c := by unfold pcbName; rw [hcc]; rfl
  rcases List.eq_nil_or_concat done with hdnil | ⟨di, pr, hdpr⟩
  · subst hdnil
    have hprevn : prev = none := by rw [hprev]; rfl
    subst hprevn
    have hfirstc : s.waitingq.first = some c := by rw [chain_head hw]; rfl
    cases rest with
    | nil =>
      have hfixT : s.waitingq.last = some c := by rw [hlast]; rfl
      have hrun1 : mwtr_loop (f + 1) none s
          = (move_proc_to_rq (some c)
              { s with waitingq := ⟨cc.next, none⟩ })
            >>= fun s => mwtr_loop f none s := by
        simp only [mwtr_loop, ok_bind, hfirstc, hread, hcc, hm]
        rw [if_pos hfixT, if_pos trivial]
      exact mwtr_step_finish hrun1 hrestchain rfl hready hcc hcnotrs hcnotdr hdnotrs
        (fun z => rfl) (fun z _ => rfl) rfl rfl rfl rfl rfl hname
        (fun z _ _ _ => rfl)
    | cons g gs =>
      obtain ⟨gl, hgl⟩ : ∃ gl, (g :: gs).getLast? = some gl :=
        ⟨(g :: gs).getLast (by simp), List.getLast?_eq_getLast _ (by simp)⟩
      have hlast2 : s.waitingq.last = some gl := by
        rw [hlast, List.nil_append, List.getLast?_cons_cons, hgl]
      have hfixF : ¬ (s.waitingq.last = some c) := by
        intro hcontra
        rw [hlast2] at hcontra
        exact hcnotrest ((Option.some.inj hcontra) ▸ List.mem_of_getLast?_eq_some hgl)
      have hrun1 : mwtr_loop (f + 1) none s
          = (move_proc_to_rq (some c)
              { s with waitingq := { s.waitingq with first := cc.next } })
            >>= fun s => mwtr_loop f none s := by
        simp only [mwtr_loop, ok_bind, hfirstc, hread, hcc, hm]
        rw [if_neg hfixF, if_pos trivial]
      refine mwtr_step_finish hrun1 ?_ ?_ hready hcc hcnotrs hcnotdr hdnotrs
        (fun z => rfl) (fun z _ => rfl) rfl rfl rfl rfl rfl hname
        (fun z _ _ _ => rfl)
      · show chain s.heap cc.next ([] ++ g :: gs) = true
        rw [List.nil_append]
        exact hrestchain
      · show s.waitingq.last = ([] ++ g :: gs).getLast?
        rw [hlast2, List.nil_append, hgl]
  · subst hdpr
    rw [List.concat_eq_append] at *
    have hprevs : prev = some pr := by rw [hprev, List.getLast?_concat]
    subst hprevs
    have hprmem : pr ∈ di ++ [pr] := List.mem_append_right di (List.mem_cons_self pr [])
    have hwassoc : chain s.heap s.waitingq.first (di ++ pr :: c :: rest) = true := by
      have := hw
      rw [List.append_assoc, List.singleton_append] at this
      exact this
    have hchainpr : chain s.heap (some pr) (pr :: c :: rest) = true := chain_suffix hwassoc
    obtain ⟨_, prc, hprc, hprrest⟩ := chain_cons_elim hchainpr
    have hprcnext : prc.next = some c := by rw [chain_head hprrest]; rfl
    have hpr_ne_c : pr ≠ c := fun hcontra => hcnotd (hcontra ▸ hprmem)
    have hcc2 : hget (hset s.heap pr { prc with next := cc.next }) c = some cc := by
      rw [hget_hset_ne hpr_ne_c _]
      exact hcc
    have hprnotrs : pr ∉ rs := hdisj pr (List.mem_append_left _ hprmem)
    have hsplice1 := chain_splice1 hprc hcc hwassoc
    cases rest with
    | nil =>
      have hfixT : s.waitingq.last = some c := by rw [hlast, List.getLast?_concat]
      have hrun1 : mwtr_loop (f + 1) (some pr) s
          = (move_proc_to_rq (some c)
              { s with heap := hset s.heap pr { prc with next := cc.next },
                       waitingq := { s.waitingq with last := some pr } })
            >>= fun s => mwtr_loop f (some pr) s := by
        simp only [mwtr_loop, ok_bind, hread, hprc, hprcnext, hcc, hm]
        rw [if_pos hfixT, if_pos trivial]
      refine mwtr_step_finish hrun1 ?_ ?_
        ⟨chain_hset hready.1 hprnotrs, hready.2⟩
        hcc2 hcnotrs hcnotdr hdnotrs
        (fun z => by
          rw [hget_map_hset (x := { prc with next := cc.next }) hprc pcbCore rfl z])
        (fun z _ => by
          rw [hget_map_hset (x := { prc with next := cc.next }) hprc pcb_t.state rfl z])
        rfl rfl rfl rfl (length_hset s.heap pr _) hname
        (fun z hzdr _ _ => hget_hset_ne (Ne.symm (fun hzpr => hzdr (by
          rw [hzpr]; exact List.mem_append_left _ hprmem))) _)
      · show chain (hset s.heap pr { prc with next := cc.next })
            s.waitingq.first ((di ++ [pr]) ++ []) = true
        rw [List.append_nil]
        exact hsplice1
      · show (some pr : Option Pid) = ((di ++ [pr]) ++ []).getLast?
        rw [List.append_nil, List.getLast?_concat]
    | cons g gs =>
      obtain ⟨gl, hgl⟩ : ∃ gl, (g :: gs).getLast? = some gl :=
        ⟨(g :: gs).getLast (by simp), List.getLast?_eq_getLast _ (by simp)⟩
      have hlast2 : s.waitingq.last = some gl := by
        rw [hlast, List.getLast?_append, List.getLast?_cons_cons, hgl]
        rfl
      have hfixF : ¬ (s.waitingq.last = some c) := by
        intro hcontra
        rw [hlast2] at hcontra
        exact hcnotrest ((Option.some.inj hcontra) ▸ List.mem_of_getLast?_eq_some hgl)
      have hrun1 : mwtr_loop (f + 1) (some pr) s
          = (move_proc_to_rq (some c)
              { s with heap := hset s.heap pr { prc with next := cc.next } })
            >>= fun s => mwtr_loop f (some pr) s := by
        simp only [mwtr_loop, ok_bind, hread, hprc, hprcnext, hcc, hm]
        rw [if_neg hfixF, if_pos trivial]
      refine mwtr_step_finish hrun1 ?_ ?_
        ⟨chain_hset hready.1 hprnotrs, hready.2⟩
        hcc2 hcnotrs hcnotdr hdnotrs
        (fun z => by
          rw [hget_map_hset (x := { prc with next := cc.next }) hprc pcbCore rfl z])
        (fun z _ => by
          rw [hget_map_hset (x := { prc with next := cc.next }) hprc pcb_t.state rfl z])
        rfl rfl rfl rfl (length_hset s.heap pr _) hname
        (fun z hzdr _ _ => hget_hset_ne (Ne.symm (fun hzpr => hzdr (by
          rw [hzpr]; exact List.mem_append_left _ hprmem))) _)
      · show chain (hset s.heap pr { prc with next := cc.next })
            s.waitingq.first ((di ++ [pr]) ++ g :: gs) = true
        rw [List.append_assoc, List.singleton_append]
        exact hsplice1
      · show s.waitingq.last = ((di ++ [pr]) ++ g :: gs).getLast?
        rw [hlast2, List.getLast?_append, hgl]
        rfl

/-- Full pass of the resource-based sweep: move every traversed waiting
process whose test passes to the ready queue, preserving order. -/
theorem mwtr_go :
    ∀ (ws done rs : List Pid) (prev : Option Pid) (s : SysState) (fuel : Nat),
      chain s.heap s.waitingq.first (done ++ ws) = true →
      s.waitingq.last = (done ++ ws).getLast? →
      prev = done.getLast? →
      repQ s.heap s.readyq rs →
      (∀ x ∈ done ++ ws, x ∉ rs) →
      ws.length + 1 ≤ fuel →
      ∃ s', mwtr_loop fuel prev s = .ok s'
        ∧ repQ s'.heap s'.waitingq
            (done ++ ws.filter (fun x => !(mwtr_moves s.heap s.resources x)))
        ∧ repQ s'.heap s'.readyq
            (rs ++ ws.filter (fun x => mwtr_moves s.heap s.resources x))
        ∧ (∀ x ∈ ws.filter (fun x => mwtr_moves s.heap s.resources x),
            (hget s'.heap x).map pcb_t.state = some .READY)
        ∧ (∀ z, (hget s'.heap z).map pcbCore = (hget s.heap z).map pcbCore)
        ∧ (∀ z, z ∉ ws.filter (fun x => mwtr_moves s.heap s.resources x) →
            (hget s'.heap z).map pcb_t.state = (hget s.heap z).map pcb_t.state)
        ∧ s'.terminatedq = s.terminatedq
        ∧ s'.resources = s.resources
        ∧ s'.arrivals = s.arrivals
        ∧ s'.events = s.events
            ++ (ws.filter (fun x => mwtr_moves s.heap s.resources x)).map
                (fun x => Event.evReady (pcbName s.heap x))
        ∧ s'.heap.length = s.heap.length
        ∧ (∀ z, z ∉ done ++ ws → z ∉ rs → hget s'.heap z = hget s.heap z) := by
  intro ws
  induction ws with
  | nil =>
    intro done rs prev s fuel hw hlast hprev hready hdisj hfuel
    cases fuel with
    | zero => simp at hfuel
    | succ f =>
    have hrun : mwtr_loop (f + 1) prev s = .ok s := by
      rcases List.eq_nil_or_concat done with hdnil | ⟨di, pr, hdpr⟩
      · subst hdnil
        have hprevn : prev = none := by rw [hprev]; rfl
        subst hprevn
        have hfirst : s.waitingq.first = none := by
          rw [List.append_nil] at hw
          exact chain_nil_next hw
        simp only [mwtr_loop, ok_bind, hfirst]
      · subst hdpr
        rw [List.concat_eq_append] at *
        have hprevs : prev = some pr := by rw [hprev, List.getLast?_concat]
        subst hprevs
        rw [List.append_nil] at hw hlast
        obtain ⟨prc, hprc⟩ := chain_valid hw pr
          (List.mem_append_right di (List.mem_cons_self pr []))
        have hprnext : prc.next = none :=
          chain_last_next hw (List.getLast?_concat di) hprc
        simp only [mwtr_loop, ok_bind, hread, hprc, hprnext]
    refine ⟨s, hrun, ⟨?_, ?_⟩, ?_, ?_, fun z => rfl, fun z _ => rfl,
      rfl, rfl, rfl, ?_, rfl, fun z _ _ => rfl⟩
    · rw [List.filter_nil]
      exact hw
    · rw [List.filter_nil]
      exact hlast
    · rw [List.filter_nil, List.append_nil]
      exact hready
    · intro x hx
      rw [List.filter_nil] at hx
      cases hx
    · rw [List.filter_nil, List.map_nil, List.append_nil]
  | cons c rest ih =>
    intro done rs prev s fuel hw hlast hprev hready hdisj hfuel
    cases fuel with
    | zero => simp at hfuel
    | succ f =>
    have hfuel2 : rest.length + 1 ≤ f := by
      simp only [List.length_cons] at hfuel
      omega
    obtain ⟨cc, hcc⟩ := chain_valid hw c
      (List.mem_append_right done (List.mem_cons_self c rest))
    have hchainc : chain s.heap (some c) (c :: rest) = true := chain_suffix hw
    obtain ⟨_, cc2, hcc2x, hrest0⟩ := chain_cons_elim hchainc
    have hrestchain : chain s.heap cc.next rest = true := by
      have hcc2e : cc2 = cc := by rw [hcc] at hcc2x; exact (Option.some.inj hcc2x).symm
      rw [← hcc2e]
      exact hrest0
    have hnd := chain_nodup hw
    have hcnotrest : c ∉ rest := (List.nodup_cons.mp (List.nodup_append.mp hnd).2.1).1
    have hcnotd : c ∉ done := fun hcd =>
      (List.disjoint_of_nodup_append hnd) hcd (List.mem_cons_self c rest)
    have hmovesc : mwtr_moves s.heap s.resources c = mwtr_can_move cc s.resources :=
      mwtr_moves_eq hcc
    by_cases hm : mwtr_can_move cc s.resources = true
    · obtain ⟨s2, hstep, hw2, hlast2, hready2, hst2c, hcore2, hstate2, htq2, hres2,
        harr2, hev2, hlen2, hfull2⟩ :=
        mwtr_step f prev c cc rest done rs s hw hlast hprev hcc hm hready hdisj
      have hdisj2 : ∀ x ∈ done ++ rest, x ∉ rs ++ [c] := by
        intro x hx hmem
        rcases List.mem_append.mp hmem with h1 | h2
        · refine hdisj x ?_ h1
          rcases List.mem_append.mp hx with hd | hr
          · exact List.mem_append_left _ hd
          · exact List.mem_append_right _ (List.mem_cons_of_mem c hr)
        · have hxc : x = c := List.mem_singleton.mp h2
          subst hxc
          rcases List.mem_append.mp hx with hd | hr
          · exact hcnotd hd
          · exact hcnotrest hr
      obtain ⟨s', hrun', hw', hr', hst', hcore', hstfr', htq', hres', harr', hev', hlen',
        hfull'⟩ :=
        ih done (rs ++ [c]) prev s2 f hw2 hlast2 hprev hready2 hdisj2 hfuel2
      have hfeq : ∀ x, mwtr_moves s2.heap s2.resources x
          = mwtr_moves s.heap s.resources x := by
        intro x
        rw [hres2]
        exact mwtr_moves_congr (hcore2 x)
      have hfilters : rest.filter (fun x => mwtr_moves s2.heap s2.resources x)
          = rest.filter (fun x => mwtr_moves s.heap s.resources x) :=
        List.filter_congr (fun x _ => hfeq x)
      have hfilterneg : rest.filter (fun x => !(mwtr_moves s2.heap s2.resources x))
          = rest.filter (fun x => !(mwtr_moves s.heap s.resources x)) :=
        List.filter_congr (fun x _ => by rw [hfeq x])
      have hmt : mwtr_moves s.heap s.resources c = true := by rw [hmovesc]; exact hm
      have hfc : (c :: rest).filter (fun x => mwtr_moves s.heap s.resources x)
          = c :: rest.filter (fun x => mwtr_moves s.heap s.resources x) :=
        List.filter_cons_of_pos hmt
      have hfcneg : (c :: rest).filter (fun x => !(mwtr_moves s.heap s.resources x))
          = rest.filter (fun x => !(mwtr_moves s.heap s.resources x)) :=
        List.filter_cons_of_neg (by rw [hmt]; exact Bool.false_ne_true)
      refine ⟨s', by rw [hstep]; exact hrun', ?_, ?_, ?_, ?_, ?_, ?_, ?_, ?_, ?_, ?_, ?_⟩
      · rw [hfcneg, ← hfilterneg]
        exact hw'
      · rw [hfc]
        have hassoc : rs ++ c :: rest.filter (fun x => mwtr_moves s.heap s.resources x)
            = (rs ++ [c]) ++ rest.filter (fun x => mwtr_moves s.heap s.resources x) := by
          rw [List.append_assoc, List.singleton_append]
        rw [hassoc, ← hfilters]
        exact hr'
      · intro x hx
        rw [hfc] at hx
        rcases List.mem_cons.mp hx with rfl | hx2
        · have hcnotf : x ∉ rest.filter (fun y => mwtr_moves s2.heap s2.resources y) :=
            fun hmem => hcnotrest (List.mem_filter.mp hmem).1
          rw [hstfr' x hcnotf]
          exact hst2c
        · rw [← hfilters] at hx2
          exact hst' x hx2
      · intro z
        rw [hcore' z]
        exact hcore2 z
      · intro z hz
        rw [hfc] at hz
        have hzc : z ≠ c := fun hcontra => hz (hcontra ▸ List.mem_cons_self c _)
        have hznotf : z ∉ rest.filter (fun x => mwtr_moves s2.heap s2.resources x) := by
          rw [hfilters]
          exact fun hmem => hz (List.mem_cons_of_mem c hmem)
        rw [hstfr' z hznotf]
        exact hstate2 z hzc
      · rw [htq', htq2]
      · rw [hres', hres2]
      · rw [harr', harr2]
      · have hmapeq : (rest.filter (fun x => mwtr_moves s.heap s.resources x)).map
              (fun x => Event.evReady (pcbName s2.heap x))
            = (rest.filter (fun x => mwtr_moves s.heap s.resources x)).map
              (fun x => Event.evReady (pcbName s.heap x)) :=
          List.map_congr_left (fun x _ => by rw [pcbName_congr (hcore2 x)])
        rw [hev', hfilters, hmapeq, hev2, hfc, List.map_cons, List.append_assoc,
          List.singleton_append]
      · rw [hlen', hlen2]
      · intro z hzdw hzrs
        have hzc : z ≠ c := fun hcontra => hzdw (by
          rw [hcontra]
          exact List.mem_append_right _ (List.mem_cons_self c rest))
        have hzdr : z ∉ done ++ rest := fun hmem => hzdw (by
          rcases List.mem_append.mp hmem with h1 | h2
          · exact List.mem_append_left _ h1
          · exact List.mem_append_right _ (List.mem_cons_of_mem c h2))
        have hzrs2 : z ∉ (rs ++ [c]) := fun hmem => by
          rcases List.mem_append.mp hmem with h1 | h2
          · exact hzrs h1
          · exact hzc (List.mem_singleton.mp h2)
        rw [hfull' z hzdr hzrs2, hfull2 z hzdr hzrs hzc]
    · have hmf : mwtr_can_move cc s.resources = false := Bool.eq_false_iff.mpr hm
      have hstep : mwtr_loop (f + 1) prev s = mwtr_loop f (some c) s := by
        rcases List.eq_nil_or_concat done with hdnil | ⟨di, pr, hdpr⟩
        · subst hdnil
          have hprevn : prev = none := by rw [hprev]; rfl
          subst hprevn
          have hfirstc : s.waitingq.first = some c := by rw [chain_head hw]; rfl
          simp only [mwtr_loop, ok_bind, hfirstc, hread, hcc, hmf]
          rw [if_neg Bool.false_ne_true]
        · subst hdpr
          rw [List.concat_eq_append] at *
          have hprevs : prev = some pr := by rw [hprev, List.getLast?_concat]
          subst hprevs
          have hwassoc : chain s.heap s.waitingq.first (di ++ pr :: c :: rest) = true := by
            have := hw
            rw [List.append_assoc, List.singleton_append] at this
            exact this
          have hchainpr : chain s.heap (some pr) (pr :: c :: rest) = true :=
            chain_suffix hwassoc
          obtain ⟨_, prc, hprc, hprrest⟩ := chain_cons_elim hchainpr
          have hprcnext : prc.next = some c := by rw [chain_head hprrest]; rfl
          simp only [mwtr_loop, ok_bind, hread, hprc, hprcnext, hcc, hmf]
          rw [if_neg Bool.false_ne_true]
      obtain ⟨s', hrun', hw', hr', hst', hcore', hstfr', htq', hres', harr', hev', hlen',
        hfull'⟩ :=
        ih (done ++ [c]) rs (some c) s f
          (by rw [List.append_assoc, List.singleton_append]; exact hw)
          (by rw [List.append_assoc, List.singleton_append]; exact hlast)
          (by rw [List.getLast?_concat])
          hready
          (by
            intro x hx
            apply hdisj
            rw [List.append_assoc, List.singleton_append] at hx
            exact hx)
          hfuel2
      have hmff : mwtr_moves s.heap s.resources c = false := by rw [hmovesc]; exact hmf
      have hfc : (c :: rest).filter (fun x => mwtr_moves s.heap s.resources x)
          = rest.filter (fun x => mwtr_moves s.heap s.resources x) :=
        List.filter_cons_of_neg (by rw [hmff]; exact Bool.false_ne_true)
      have hfcneg : (c :: rest).filter (fun x => !(mwtr_moves s.heap s.resources x))
          = c :: rest.filter (fun x => !(mwtr_moves s.heap s.resources x)) :=
        List.filter_cons_of_pos (by rw [hmff]; rfl)
      refine ⟨s', by rw [hstep]; exact hrun', ?_, ?_, ?_, hcore', ?_, htq', hres', harr',
        ?_, hlen', ?_⟩
      · rw [hfcneg]
        rw [List.append_assoc, List.singleton_append] at hw'
        exact hw'
      · rw [hfc]
        exact hr'
      · rw [hfc]
        exact hst'
      · intro z hz
        rw [hfc] at hz
        exact hstfr' z hz
      · rw [hfc]
        exact hev'
      · intro z hz hzr
        refine hfull' z (fun hmem => hz (by
          rw [List.append_assoc, List.singleton_append] at hmem
          exact hmem)) hzr

/-- `move_waiting_to_ready_based_on_resources` under queue representations:
one pass moving exactly the matching waiting processes, in order. -/
theorem move_waiting_to_ready_rep {fuel : Nat} {s : SysState} {ws rs : List Pid}
    (hwq : repQ s.heap s.waitingq ws) (hrq : repQ s.heap s.readyq rs)
    (hdisj : ∀ x ∈ ws, x ∉ rs) (hfuel : ws.length + 1 ≤ fuel) :
    ∃ s', move_waiting_to_ready_based_on_resources fuel s = .ok s'
      ∧ repQ s'.heap s'.waitingq
          (ws.filter (fun x => !(mwtr_moves s.heap s.resources x)))
      ∧ repQ s'.heap s'.readyq
          (rs ++ ws.filter (fun x => mwtr_moves s.heap s.resources x))
      ∧ (∀ x ∈ ws.filter (fun x => mwtr_moves s.heap s.resources x),
          (hget s'.heap x).map pcb_t.state = some .READY)
      ∧ (∀ z, (hget s'.heap z).map pcbCore = (hget s.heap z).map pcbCore)
      ∧ (∀ z, z ∉ ws.filter (fun x => mwtr_moves s.heap s.resources x) →
          (hget s'.heap z).map pcb_t.state = (hget s.heap z).map pcb_t.state)
      ∧ s'.terminatedq = s.terminatedq
      ∧ s'.resources = s.resources
      ∧ s'.arrivals = s.arrivals
      ∧ s'.events = s.events
          ++ (ws.filter (fun x => mwtr_moves s.heap s.resources x)).map
              (fun x => Event.evReady (pcbName s.heap x))
      ∧ s'.heap.length = s.heap.length
      ∧ (∀ z, z ∉ ws → z ∉ rs → hget s'.heap z = hget s.heap z) := by
  obtain ⟨s', hrun, hw0, hr', hst', hcore', hstfr', htq', hres', harr', hev', hlen',
    hfull'⟩ := mwtr_go ws [] rs none s fuel
    (by rw [List.nil_append]; exact hwq.1)
    (by rw [List.nil_append]; exact hwq.2)
    rfl
    hrq
    (by
      intro x hx
      rw [List.nil_append] at hx
      exact hdisj x hx)
    hfuel
  refine ⟨s', hrun, ?_, hr', hst', hcore', hstfr', htq', hres', harr', hev', hlen', ?_⟩
  · have := hw0
    rw [List.nil_append] at this
    exact this
  · intro z hz hzr
    exact hfull' z (by rw [List.nil_append]; exact hz) hzr

/-- C4 (amended): when a process successfully releases resource `rn`, the
wake-up scan moves to the Ready queue exactly those Waiting-queue processes
that are in state WAITING and whose remaining instruction list contains a
Request for `rn` anywhere — not only as the next pending instruction — all
of them, appended to Ready in their pre-existing Waiting-queue order, each
set to READY with a ready event logged after the released event. -/
theorem release_broadcast_wakeup {s : SysState} {p : Pid} {pc : pcb_t} {i : instr_t}
    {held2 : List String} {ws rs : List Pid} {fuel : Nat}
    (hp : hget s.heap p = some pc)
    (hscan : release_scan pc.resources i.resource_name = some held2)
    (hwq : repQ s.heap s.waitingq ws) (hrq : repQ s.heap s.readyq rs)
    (hdisj : ∀ x ∈ ws, x ∉ rs) (hpw : p ∉ ws) (hpr : p ∉ rs)
    (hfuel : ws.length ≤ fuel) :
    ∃ s', release_resource p i fuel s = .ok s'
      ∧ repQ s'.heap s'.waitingq
          (ws.filter (fun x => !(is_waiting_for_resource s.heap (some x) (some i.resource_name))))
      ∧ repQ s'.heap s'.readyq
          (rs ++ ws.filter (fun x => is_waiting_for_resource s.heap (some x) (some i.resource_name)))
      ∧ (∀ x ∈ ws.filter (fun x => is_waiting_for_resource s.heap (some x) (some i.resource_name)),
          (hget s'.heap x).map pcb_t.state = some .READY)
      ∧ s'.resources = mark_resource_as_available i.resource_name s.resources
      ∧ s'.events = s.events ++ .released pc.name i.resource_name ::
          (ws.filter (fun x => is_waiting_for_resource s.heap (some x) (some i.resource_name))).map
            (fun x => Event.evReady (pcbName s.heap x)) := by
  have hrun1 : release_resource p i fuel s
      = move_waiting_pcbs_to_rq i.resource_name fuel
          (logEvent (.released pc.name i.resource_name)
            { s with heap := hset s.heap p { pc with resources := held2 },
                     resources := mark_resource_as_available i.resource_name s.resources }) := by
    simp only [release_resource, hread, hp, ok_bind, hscan]
  have hfrx : ∀ x ∈ ws,
      hget (hset s.heap p { pc with resources := held2 }) x = hget s.heap x := by
    intro x hx
    have hpx : p ≠ x := by
      intro hc
      rw [← hc] at hx
      exact hpw hx
    exact hget_hset_ne hpx _
  have hfrr : ∀ x ∈ rs,
      hget (hset s.heap p { pc with resources := held2 }) x = hget s.heap x := by
    intro x hx
    have hpx : p ≠ x := by
      intro hc
      rw [← hc] at hx
      exact hpr hx
    exact hget_hset_ne hpx _
  have hwq3 : repQ (hset s.heap p { pc with resources := held2 }) s.waitingq ws :=
    ⟨chain_hset hwq.1 hpw, hwq.2⟩
  have hrq3 : repQ (hset s.heap p { pc with resources := held2 }) s.readyq rs :=
    ⟨chain_hset hrq.1 hpr, hrq.2⟩
  obtain ⟨s', hrun2, hw', hr', hst', hcore', hstfr', htq', hres', harr', hev', hlen', -⟩ :=
    @move_waiting_pcbs_to_rq_rep i.resource_name fuel
      (logEvent (.released pc.name i.resource_name)
        { s with heap := hset s.heap p { pc with resources := held2 },
                 resources := mark_resource_as_available i.resource_name s.resources })
      _ _ hwq3 hrq3 hdisj hfuel
  have hiw : ∀ x ∈ ws,
      is_waiting_for_resource (hset s.heap p { pc with resources := held2 }) (some x)
        (some i.resource_name)
      = is_waiting_for_resource s.heap (some x) (some i.resource_name) := by
    intro x hx
    exact is_waiting_congr (by rw [hfrx x hx]) (by rw [hfrx x hx])
  have hfilters : ws.filter (fun x => is_waiting_for_resource
        (hset s.heap p { pc with resources := held2 }) (some x) (some i.resource_name))
      = ws.filter (fun x => is_waiting_for_resource s.heap (some x) (some i.resource_name)) :=
    List.filter_congr hiw
  have hfilterneg : ws.filter (fun x => !(is_waiting_for_resource
        (hset s.heap p { pc with resources := held2 }) (some x) (some i.resource_name)))
      = ws.filter (fun x => !(is_waiting_for_resource s.heap (some x) (some i.resource_name))) :=
    List.filter_congr (fun x hx => by rw [hiw x hx])
  have hw2 : repQ s'.heap s'.waitingq
      (ws.filter (fun x => !(is_waiting_for_resource
        (hset s.heap p { pc with resources := held2 }) (some x) (some i.resource_name)))) := hw'
  have hr2 : repQ s'.heap s'.readyq
      (rs ++ ws.filter (fun x => is_waiting_for_resource
        (hset s.heap p { pc with resources := held2 }) (some x) (some i.resource_name))) := hr'
  have hst2 : ∀ x ∈ ws.filter (fun x => is_waiting_for_resource
        (hset s.heap p { pc with resources := held2 }) (some x) (some i.resource_name)),
      (hget s'.heap x).map pcb_t.state = some .READY := hst'
  have hres2 : s'.resources = mark_resource_as_available i.resource_name s.resources := hres'
  have hev2 : s'.events = (s.events ++ [.released pc.name i.resource_name])
      ++ (ws.filter (fun x => is_waiting_for_resource
          (hset s.heap p { pc with resources := held2 }) (some x) (some i.resource_name))).map
        (fun x => Event.evReady
          (pcbName (hset s.heap p { pc with resources := held2 }) x)) := hev'
  refine ⟨s', hrun1.trans hrun2, ?_, ?_, ?_, hres2, ?_⟩
  · rw [← hfilterneg]
    exact hw2
  · rw [← hfilters]
    exact hr2
  · intro x hx
    rw [← hfilters] at hx
    exact hst2 x hx
  · rw [hev2, hfilters]
    have hmapeq : (ws.filter (fun x => is_waiting_for_resource s.heap (some x)
          (some i.resource_name))).map
            (fun x => Event.evReady (pcbName
              (hset s.heap p { pc with resources := held2 }) x))
        = (ws.filter (fun x => is_waiting_for_resource s.heap (some x)
          (some i.resource_name))).map
            (fun x => Event.evReady (pcbName s.heap x)) :=
      List.map_congr_left (fun x hx => by
        rw [@pcbName_congr _ s.heap _ (by rw [hfrx x (List.mem_filter.mp hx).1])])
    rw [hmapeq]
    rw [List.append_assoc, List.singleton_append]

theorem release_broadcast_wakeup_witness :
    ∃ s', release_resource 0 (relI "R") 5 exRel = .ok s'
      ∧ repQ s'.heap s'.waitingq [3]
      ∧ repQ s'.heap s'.readyq [1, 2]
      ∧ (∀ x ∈ [1, 2], (hget s'.heap x).map pcb_t.state = some state_t.READY)
      ∧ s'.resources = [⟨"R", true⟩, ⟨"X", false⟩]
      ∧ s'.events = [.released "P0" "R", .evReady "P1", .evReady "P2"] :=
  @release_broadcast_wakeup exRel 0 _ (relI "R") _ [1, 2, 3] [] 5
    rfl rfl ⟨rfl, rfl⟩ ⟨rfl, rfl⟩
    (by decide) (by decide) (by decide) (by decide)

/-- C4 counterexample: under the priority scheduler, after four loop
iterations of the `exWake` workload the blocked process P (pid 2) sits in
the Waiting queue with pending instruction `req X` while X is Held; yet
when Q releases R, P is moved to the Ready queue — `is_waiting_for_resource`
matches a Request for R anywhere in the remaining instruction list, not
only the next pending instruction.  The full run's event log shows the
spurious wake-up (`ready P` right after `released Q R`) followed by P
immediately blocking on X again with no intervening release of X. -/
theorem release_wakes_wrong_process :
    (((pri_body 39 none exWake >>= fun r => pri_body 38 r.1 r.2.1)
        >>= fun r => pri_body 37 r.1 r.2.1) >>= fun r => pri_body 36 r.1 r.2.1)
      = .ok (some 0, exWakeMid, false)
    ∧ (hget exWakeMid.heap 2).map (fun pc => (pc.state, pc.next_instruction))
      = some (.WAITING, [reqI "X", reqI "R"])
    ∧ is_resource_available "X" exWakeMid.resources = false
    ∧ (∃ s', release_resource 0 (relI "R") 36 exWakeMid = .ok s'
        ∧ walk s'.heap 9 s'.readyq.first = some [1, 2]
        ∧ walk s'.heap 9 s'.waitingq.first = some []
        ∧ (hget s'.heap 2).map pcb_t.state = some state_t.READY)
    ∧ (schedule_processes .PRIOR 1 40 exWake).map SysState.events
      = .ok [.acquired "Q" "X", .evReady "P", .evReady "Q", .evWaiting "P" "X",
             .acquired "Q" "R", .released "Q" "R", .evReady "P", .evReady "Q",
             .evWaiting "P" "X", .evTerminated "Q", .deadlockDetected] :=
  ⟨rfl, rfl, rfl, ⟨_, rfl, rfl, rfl, rfl⟩, rfl⟩

theorem hget_exists_of_lt {h : List pcb_t} {p : Pid} (hp : p < h.length) :
    ∃ pc, hget h p = some pc := by
  refine ⟨h[p], ?_⟩
  simp [hget, List.getElem?_eq_getElem hp]

/-- Rewriting a node's record without changing its link preserves chains. -/
theorem chain_hset_samenext {h : List pcb_t} {p : Pid} {pc x : pcb_t}
    (hp : hget h p = some pc) (hx : x.next = pc.next) :
    ∀ {ls : List Pid} {o : Option Pid}, chain h o ls = true →
      chain (hset h p x) o ls = true := by
  intro ls
  induction ls with
  | nil =>
    intro o hc
    rw [chain_nil_next hc]
    rfl
  | cons q qs ih =>
    intro o hc
    cases o with
    | none => rw [chain_none_cons] at hc; exact absurd hc (by simp)
    | some p0 =>
      obtain ⟨hpq, qc, hq, hrest⟩ := chain_cons_elim hc
      cases hpq
      by_cases hqp : q = p
      · subst hqp
        have hqc : qc = pc := by rw [hp] at hq; exact (Option.some.inj hq).symm
        subst hqc
        have hg : hget (hset h q x) q = some x := hget_hset_self (hget_lt hp) _
        refine chain_cons_intro hg ?_
        rw [hx]
        exact ih hrest
      · have hg : hget (hset h p x) q = some qc := by
          rw [hget_hset_ne (Ne.symm hqp) _]
          exact hq
        exact chain_cons_intro hg (ih hrest)

/-- Unpacking the no-duplicates side condition on the full pid package. -/
theorem package_facts {r : Pid} {rs ws ts arr : List Pid}
    (hnd : (r :: (rs ++ ws ++ ts ++ arr)).Nodup) :
    (r ∉ rs ∧ r ∉ ws ∧ r ∉ ts ∧ r ∉ arr)
    ∧ ((∀ x ∈ ws, x ∉ rs) ∧ (∀ x ∈ ts, x ∉ rs) ∧ (∀ x ∈ ts, x ∉ ws)
    ∧ (∀ x ∈ arr, x ∉ rs) ∧ (∀ x ∈ arr, x ∉ ws) ∧ (∀ x ∈ arr, x ∉ ts))
    ∧ (rs.Nodup ∧ ws.Nodup ∧ ts.Nodup ∧ arr.Nodup) := by
  have hrmem : r ∉ rs ++ ws ++ ts ++ arr := (List.nodup_cons.mp hnd).1
  have hbig : (rs ++ ws ++ ts ++ arr).Nodup := (List.nodup_cons.mp hnd).2
  obtain ⟨h123, harrnd, dA⟩ := List.nodup_append.mp hbig
  obtain ⟨h12, hts, dB⟩ := List.nodup_append.mp h123
  obtain ⟨hrs, hws, dC⟩ := List.nodup_append.mp h12
  refine ⟨⟨?_, ?_, ?_, ?_⟩, ⟨?_, ?_, ?_, ?_, ?_, ?_⟩, hrs, hws, hts, harrnd⟩
  · intro hm
    exact hrmem (List.mem_append_left _ (List.mem_append_left _ (List.mem_append_left _ hm)))
  · intro hm
    exact hrmem (List.mem_append_left _ (List.mem_append_left _ (List.mem_append_right _ hm)))
  · intro hm
    exact hrmem (List.mem_append_left _ (List.mem_append_right _ hm))
  · intro hm
    exact hrmem (List.mem_append_right _ hm)
  · intro x hxw hxr; exact (List.nodup_append.mp h12).2.2 hxr hxw
  · intro x hxt hxr
    exact dB (List.mem_append_left _ hxr) hxt
  · intro x hxt hxw; exact dB (List.mem_append_right _ hxw) hxt
  · intro x hxa hxr
    exact dA (List.mem_append_left _ (List.mem_append_left _ hxr)) hxa
  · intro x hxa hxw
    exact dA (List.mem_append_left _ (List.mem_append_right _ hxw)) hxa
  · intro x hxa hxt; exact dA (List.mem_append_right _ hxt) hxa

/-- Moving pids from the waiting component to the ready component keeps
the full pid package duplicate-free. -/
theorem nodup_package_perm {r : Pid} {rs ws ts arr rs2 ws2 : List Pid}
    (hperm : (rs2 ++ ws2).Perm (rs ++ ws))
    (hnd : (r :: (rs ++ ws ++ ts ++ arr)).Nodup) :
    (r :: (rs2 ++ ws2 ++ ts ++ arr)).Nodup :=
  ((((hperm.append_right ts).append_right arr).cons r).symm).nodup hnd

/-- Consuming the next arrival into the ready list keeps the package
duplicate-free. -/
theorem nodup_package_arrival {r a : Pid} {rs ws ts arr : List Pid}
    (hnd : (r :: (rs ++ ws ++ ts ++ (a :: arr))).Nodup) :
    (r :: ((rs ++ [a]) ++ ws ++ ts ++ arr)).Nodup := by
  have hperm : ((rs ++ [a]) ++ ws ++ ts ++ arr).Perm (rs ++ ws ++ ts ++ (a :: arr)) := by
    refine List.perm_iff_count.mpr (fun x => ?_)
    simp only [List.count_append, List.count_cons, List.count_singleton',
      List.count_nil]
    omega
  exact ((hperm.cons r).symm).nodup hnd

/-- Second `move_proc_to_wq` of a process that is already the waiting
queue's tail (the FCFS double move): the enqueue self-links the node.  The
queue object would again represent the same list if the link were cleared. -/
theorem move_proc_to_wq_self {s : SysState} {p : Pid} {rn : String} {pc : pcb_t}
    {ws : List Pid}
    (hr : repQ s.heap s.waitingq (ws ++ [p])) (hp : hget s.heap p = some pc) :
    ∃ s2, move_proc_to_wq (some p) rn s = .ok s2
      ∧ s2.heap = hset s.heap p { pc with state := .WAITING, next := some p }
      ∧ s2.waitingq = ⟨s.waitingq.first, some p⟩
      ∧ s2.readyq = s.readyq
      ∧ s2.terminatedq = s.terminatedq
      ∧ s2.resources = s.resources
      ∧ s2.arrivals = s.arrivals
      ∧ s2.events = s.events ++ [.evWaiting pc.name rn]
      ∧ repQ (hset s.heap p { pc with state := .WAITING, next := none })
          ⟨s.waitingq.first, some p⟩ (ws ++ [p]) := by
  obtain ⟨hc, hl⟩ := hr
  have hplen : p < s.heap.length := hget_lt hp
  have hlast : s.waitingq.last = some p := by rw [hl, List.getLast?_concat]
  have hpnext : pc.next = none :=
    chain_last_next hc (List.getLast?_concat ws) hp
  obtain ⟨f0, hf0⟩ : ∃ f0, s.waitingq.first = some f0 := by
    cases hws : ws with
    | nil =>
      refine ⟨p, ?_⟩
      rw [chain_head hc, hws]
      rfl
    | cons w t =>
      refine ⟨w, ?_⟩
      rw [chain_head hc, hws]
      rfl
  have hp1 : hget (hset s.heap p { pc with state := .WAITING }) p
      = some { pc with state := .WAITING } := hget_hset_self hplen _
  have hp2 : hget (hset (hset s.heap p { pc with state := .WAITING }) p
        { { pc with state := .WAITING } with next := none }) p
      = some { { pc with state := .WAITING } with next := none } :=
    hget_hset_self (by rw [length_hset]; exact hplen) _
  refine ⟨logEvent (.evWaiting pc.name rn)
      (setQ { s with heap := hset s.heap p { pc with state := .WAITING, next := some p } }
        .waitingQ ⟨s.waitingq.first, some p⟩),
    ?_, rfl, rfl, rfl, rfl, rfl, rfl, rfl, ?_, ?_⟩
  · show move_proc_to_wq (some p) rn s = _
    simp only [move_proc_to_wq, hread, hp, ok_bind, enq, enqueue_pcb, getQ,
      hp1, hp2, hf0, hlast]
    rw [hset_hset, hset_hset]
  · show chain (hset s.heap p { pc with state := .WAITING, next := none })
        s.waitingq.first (ws ++ [p]) = true
    exact chain_hset_samenext hp (by rw [hpnext]) hc
  · show (some p : Option Pid) = (ws ++ [p]).getLast?
    rw [List.getLast?_concat]

/-- One instruction of the running process `r` under well-formed queues:
either the step completes with `r` still running (requests that succeed,
releases including their wake-up sweeps, message operations) — moving some
waiting processes to the ready tail — or the instruction is a request that
blocks, leaving `r` WAITING at the waiting-queue tail. -/
theorem execute_instr_step {s : SysState} {r : Pid} {rc : pcb_t} {i : instr_t}
    {rs ws ts : List Pid} {fuel : Nat}
    (hrc : hget s.heap r = some rc)
    (hst : rc.state = .RUNNING)
    (hready : repQ s.heap s.readyq rs)
    (hwait : repQ s.heap s.waitingq ws)
    (hterm : repQ s.heap s.terminatedq ts)
    (hnd : (r :: (rs ++ ws ++ ts ++ s.arrivals)).Nodup)
    (hfuel : ws.length + 1 ≤ fuel) :
    ∃ s2, execute_instr r (some i) fuel s = .ok s2
      ∧ s2.terminatedq = s.terminatedq
      ∧ repQ s2.heap s2.terminatedq ts
      ∧ s2.arrivals = s.arrivals
      ∧ s2.heap.length = s.heap.length
      ∧ ((∃ m ws2 rc2,
            repQ s2.heap s2.readyq (rs ++ m)
            ∧ repQ s2.heap s2.waitingq ws2
            ∧ (m ++ ws2).Perm ws
            ∧ hget s2.heap r = some rc2
            ∧ rc2.state = .RUNNING
            ∧ rc2.next_instruction = rc.next_instruction)
        ∨ (i.type = .REQ_OP
            ∧ ∃ rc2, hget s2.heap r = some rc2
              ∧ rc2.state = .WAITING
              ∧ rc2.next_instruction = rc.next_instruction
              ∧ repQ s2.heap s2.readyq rs
              ∧ repQ s2.heap s2.waitingq (ws ++ [r]))) := by
  obtain ⟨⟨hrrs, hrws, hrts, hrarr⟩, ⟨hwsrs, htsrs, htsws, harrrs, harrws, harrts⟩,
    hrsnd, hwsnd, htsnd, harrnd⟩ := package_facts hnd
  cases hty : i.type with
  | SEND_OP =>
    refine ⟨s, by simp only [execute_instr, hty], rfl, hterm, rfl, rfl, Or.inl
      ⟨[], ws, rc, ?_, hwait, List.Perm.refl ws, hrc, hst, rfl⟩⟩
    rw [List.append_nil]
    exact hready
  | RECV_OP =>
    refine ⟨s, by simp only [execute_instr, hty], rfl, hterm, rfl, rfl, Or.inl
      ⟨[], ws, rc, ?_, hwait, List.Perm.refl ws, hrc, hst, rfl⟩⟩
    rw [List.append_nil]
    exact hready
  | REQ_OP =>
    have hexec : execute_instr r (some i) fuel s = request_resource r i s := by
      simp only [execute_instr, hty]
    cases hscan : request_scan s.resources i.resource_name with
    | some res2 =>
      have hrun : request_resource r i s
          = .ok (logEvent (.acquired rc.name i.resource_name)
              { s with resources := res2,
                       heap := hset s.heap r
                         { rc with resources := i.resource_name :: rc.resources } }) := by
        simp only [request_resource, hread, hrc, ok_bind, hscan]
      refine ⟨_, hexec.trans hrun, rfl, ?_, rfl, length_hset s.heap r _, Or.inl
        ⟨[], ws, { rc with resources := i.resource_name :: rc.resources }, ?_, ?_,
          List.Perm.refl ws, hget_hset_self (hget_lt hrc) _, hst, rfl⟩⟩
      · exact ⟨chain_hset hterm.1 hrts, hterm.2⟩
      · rw [List.append_nil]
        exact ⟨chain_hset hready.1 hrrs, hready.2⟩
      · exact ⟨chain_hset hwait.1 hrws, hwait.2⟩
    | none =>
      obtain ⟨h2, hrun, hrep, hfr, hp2, hcore, hstate, hlen⟩ :=
        @move_proc_to_wq_rep s r i.resource_name rc ws hwait hrc hrws
      have hexec2 : execute_instr r (some i) fuel s
          = .ok (logEvent (.evWaiting rc.name i.resource_name)
              (setQ { s with heap := h2 } .waitingQ ⟨(ws ++ [r]).head?, some r⟩)) := by
        rw [hexec]
        show request_resource r i s = _
        simp only [request_resource, hread, hrc, ok_bind, hscan]
        exact hrun
      refine ⟨_, hexec2, rfl, ?_, rfl, hlen, Or.inr ⟨rfl,
        { rc with state := .WAITING, next := none }, hp2, rfl, rfl, ?_, hrep⟩⟩
      · refine ⟨?_, hterm.2⟩
        show chain h2 s.terminatedq.first ts = true
        rw [chain_congr (h := s.heap) (fun z hz => hfr z
          (fun hmem => htsws z hz hmem) (fun hc2 => hrts (hc2 ▸ hz)))]
        exact hterm.1
      · refine ⟨?_, hready.2⟩
        show chain h2 s.readyq.first rs = true
        rw [chain_congr (h := s.heap) (fun z hz => hfr z
          (fun hmem => hwsrs z hmem hz) (fun hc2 => hrrs (hc2 ▸ hz)))]
        exact hready.1
  | REL_OP =>
    have hexec : execute_instr r (some i) fuel s
        = (release_resource r i fuel s) >>=
            fun s => move_waiting_to_ready_based_on_resources fuel s := by
      simp only [execute_instr, hty]
    cases hrel : release_scan rc.resources i.resource_name with
    | some held2 =>
      have hrun1 : release_resource r i fuel s
          = move_waiting_pcbs_to_rq i.resource_name fuel
              (logEvent (.released rc.name i.resource_name)
                { s with heap := hset s.heap r { rc with resources := held2 },
                         resources :=
                           mark_resource_as_available i.resource_name s.resources }) := by
        simp only [release_resource, hread, hrc, ok_bind, hrel]
      have hwaitA : repQ (hset s.heap r { rc with resources := held2 }) s.waitingq ws :=
        ⟨chain_hset hwait.1 hrws, hwait.2⟩
      have hreadyA : repQ (hset s.heap r { rc with resources := held2 }) s.readyq rs :=
        ⟨chain_hset hready.1 hrrs, hready.2⟩
      obtain ⟨sB, hrunB0, hwB0, hrB0, hstB, hcoreB, hstfrB, htqB0, hresB, harrB0, hevB,
        hlenB0, hfullB0⟩ :=
        @move_waiting_pcbs_to_rq_rep i.resource_name fuel
          (logEvent (.released rc.name i.resource_name)
            { s with heap := hset s.heap r { rc with resources := held2 },
                     resources := mark_resource_as_available i.resource_name s.resources })
          _ _ hwaitA hreadyA hwsrs (by omega)
      have hwB : repQ sB.heap sB.waitingq
          (ws.filter (fun x => !(is_waiting_for_resource
            (hset s.heap r { rc with resources := held2 }) (some x)
            (some i.resource_name)))) := hwB0
      have hrB : repQ sB.heap sB.readyq
          (rs ++ ws.filter (fun x => is_waiting_for_resource
            (hset s.heap r { rc with resources := held2 }) (some x)
            (some i.resource_name))) := hrB0
      have htqB : sB.terminatedq = s.terminatedq := htqB0
      have harrB : sB.arrivals = s.arrivals := harrB0
      have hlenB : sB.heap.length = (hset s.heap r { rc with resources := held2 }).length :=
        hlenB0
      have hfullB : ∀ z, z ∉ ws → z ∉ rs →
          hget sB.heap z = hget (hset s.heap r { rc with resources := held2 }) z := hfullB0
      have hdisjB : ∀ x ∈ ws.filter (fun x => !(is_waiting_for_resource
            (hset s.heap r { rc with resources := held2 }) (some x)
            (some i.resource_name))), x ∉ rs ++ ws.filter (fun x => is_waiting_for_resource
            (hset s.heap r { rc with resources := held2 }) (some x)
            (some i.resource_name)) := by
        intro x hx hmem
        obtain ⟨hxws, hxneg⟩ := List.mem_filter.mp hx
        rcases List.mem_append.mp hmem with h1 | h2
        · exact hwsrs x hxws h1
        · obtain ⟨-, hxpos⟩ := List.mem_filter.mp h2
          rw [hxpos] at hxneg
          exact Bool.false_ne_true (by simpa using hxneg)
      have hfuelB : (ws.filter (fun x => !(is_waiting_for_resource
            (hset s.heap r { rc with resources := held2 }) (some x)
            (some i.resource_name)))).length + 1 ≤ fuel := by
        have := List.length_filter_le (fun x => !(is_waiting_for_resource
          (hset s.heap r { rc with resources := held2 }) (some x)
          (some i.resource_name))) ws
        omega
      obtain ⟨sC, hrunC, hwC, hrC, hstC, hcoreC, hstfrC, htqC, hresC, harrC, hevC, hlenC,
        hfullC⟩ :=
        move_waiting_to_ready_rep (s := sB) hwB hrB hdisjB hfuelB
      have hrunAll : execute_instr r (some i) fuel s = .ok sC := by
        rw [hexec, hrun1, hrunB0, ok_bind, hrunC]
      have hfr2 : ∀ z, z ∉ ws → z ∉ rs → z ≠ r → hget sC.heap z = hget s.heap z := by
        intro z hzws hzrs hzr
        have hz1 : hget sB.heap z = hget s.heap z := by
          rw [hfullB z hzws hzrs, hget_hset_ne (Ne.symm hzr) _]
        rw [hfullC z
          (fun hmem => hzws (List.mem_filter.mp hmem).1)
          (fun hmem => by
            rcases List.mem_append.mp hmem with h1 | h2
            · exact hzrs h1
            · exact hzws (List.mem_filter.mp h2).1)]
        exact hz1
      have hrecC : hget sC.heap r = some { rc with resources := held2 } := by
        have hz1 : hget sB.heap r = some { rc with resources := held2 } := by
          rw [hfullB r hrws hrrs]
          exact hget_hset_self (hget_lt hrc) _
        rw [hfullC r
          (fun hmem => hrws (List.mem_filter.mp hmem).1)
          (fun hmem => by
            rcases List.mem_append.mp hmem with h1 | h2
            · exact hrrs h1
            · exact hrws (List.mem_filter.mp h2).1)]
        exact hz1
      refine ⟨sC, hrunAll, by rw [htqC, htqB], ?_, by rw [harrC, harrB],
        by rw [hlenC, hlenB, length_hset], Or.inl
        ⟨ws.filter (fun x => is_waiting_for_resource
            (hset s.heap r { rc with resources := held2 }) (some x)
            (some i.resource_name))
          ++ (ws.filter (fun x => !(is_waiting_for_resource
            (hset s.heap r { rc with resources := held2 }) (some x)
            (some i.resource_name)))).filter
              (fun x => mwtr_moves sB.heap sB.resources x),
         _, { rc with resources := held2 }, ?_, hwC, ?_, hrecC, hst, rfl⟩⟩
      · refine ⟨?_, ?_⟩
        · rw [htqC, htqB]
          show chain sC.heap s.terminatedq.first ts = true
          rw [chain_congr (h := s.heap) (fun z hz => hfr2 z (htsws z hz) (htsrs z hz)
            (fun hc2 => hrts (hc2 ▸ hz)))]
          exact hterm.1
        · rw [htqC, htqB]
          exact hterm.2
      · rw [← List.append_assoc]
        exact hrC
      · rw [List.append_assoc]
        have hpInner : ((ws.filter (fun x => !(is_waiting_for_resource
              (hset s.heap r { rc with resources := held2 }) (some x)
              (some i.resource_name)))).filter (fun x => mwtr_moves sB.heap sB.resources x)
            ++ (ws.filter (fun x => !(is_waiting_for_resource
              (hset s.heap r { rc with resources := held2 }) (some x)
              (some i.resource_name)))).filter
                (fun x => !(mwtr_moves sB.heap sB.resources x))).Perm
            (ws.filter (fun x => !(is_waiting_for_resource
              (hset s.heap r { rc with resources := held2 }) (some x)
              (some i.resource_name)))) := List.filter_append_perm _ _
        exact List.Perm.trans (List.Perm.append_left _ hpInner)
          (List.filter_append_perm _ _)
    | none =>
      have hrun1 : release_resource r i fuel s
          = .ok (logEvent (.releaseError rc.name i.resource_name) s) := by
        simp only [release_resource, hread, hrc, ok_bind, hrel]
      have hwaitE : repQ (logEvent (.releaseError rc.name i.resource_name) s).heap
          (logEvent (.releaseError rc.name i.resource_name) s).waitingq ws := hwait
      have hreadyE : repQ (logEvent (.releaseError rc.name i.resource_name) s).heap
          (logEvent (.releaseError rc.name i.resource_name) s).readyq rs := hready
      obtain ⟨sC, hrunC, hwC0, hrC0, hstC, hcoreC, hstfrC, htqC0, hresC, harrC0, hevC,
        hlenC0, hfullC0⟩ :=
        move_waiting_to_ready_rep hwaitE hreadyE hwsrs hfuel
      have hwC : repQ sC.heap sC.waitingq
          (ws.filter (fun x => !(mwtr_moves s.heap s.resources x))) := hwC0
      have hrC : repQ sC.heap sC.readyq
          (rs ++ ws.filter (fun x => mwtr_moves s.heap s.resources x)) := hrC0
      have htqC : sC.terminatedq = s.terminatedq := htqC0
      have harrC : sC.arrivals = s.arrivals := harrC0
      have hlenC : sC.heap.length = s.heap.length := hlenC0
      have hfullC : ∀ z, z ∉ ws → z ∉ rs → hget sC.heap z = hget s.heap z := by
        intro z hzws hzrs
        exact hfullC0 z hzws hzrs
      have hrunAll : execute_instr r (some i) fuel s = .ok sC := by
        rw [hexec, hrun1, ok_bind, hrunC]
      refine ⟨sC, hrunAll, htqC, ?_, harrC, hlenC, Or.inl
        ⟨ws.filter (fun x => mwtr_moves s.heap s.resources x),
         _, rc, hrC, hwC, List.filter_append_perm _ _, ?_, hst, rfl⟩⟩
      · refine ⟨?_, ?_⟩
        · rw [htqC]
          show chain sC.heap s.terminatedq.first ts = true
          rw [chain_congr (h := s.heap) (fun z hz => hfullC z (htsws z hz) (htsrs z hz))]
          exact hterm.1
        · rw [htqC]
          exact hterm.2
      · rw [hfullC r hrws hrrs]
        exact hrc

/-- Polling the loader with no pending arrival does nothing. -/
theorem check_arrivals_nil {s : SysState} (harr : s.arrivals = []) :
    check_for_new_arrivals s = .ok (false, s) := by
  simp only [check_for_new_arrivals, get_new_pcb, harr]

/-- Polling the loader with a pending arrival moves it to the ready tail. -/
theorem check_arrivals_cons {s : SysState} {rs : List Pid} {a : Pid} {arr : List Pid}
    (harr : s.arrivals = a :: arr)
    (hready : repQ s.heap s.readyq rs)
    (ha : a < s.heap.length)
    (hfresh : a ∉ rs) :
    ∃ s2 ac, check_for_new_arrivals s = .ok (true, s2)
      ∧ hget s.heap a = some ac
      ∧ repQ s2.heap s2.readyq (rs ++ [a])
      ∧ hget s2.heap a = some { ac with state := .READY, next := none }
      ∧ s2.waitingq = s.waitingq
      ∧ s2.terminatedq = s.terminatedq
      ∧ s2.resources = s.resources
      ∧ s2.arrivals = arr
      ∧ (∀ z, z ∉ rs → z ≠ a → hget s2.heap z = hget s.heap z)
      ∧ s2.heap.length = s.heap.length := by
  obtain ⟨ac, hac⟩ := hget_exists_of_lt ha
  have hready2 : repQ ({ s with arrivals := arr } : SysState).heap
      ({ s with arrivals := arr } : SysState).readyq rs := hready
  obtain ⟨h2, hmv, hrep, hfr, ha2, hcore, hstate, hlen⟩ :=
    move_proc_to_rq_rep (s := { s with arrivals := arr }) hready2 hac hfresh
  refine ⟨SysState.mk h2 ⟨(rs ++ [a]).head?, some a⟩ s.waitingq s.terminatedq
      s.resources arr (s.events ++ [.evReady ac.name]),
    ac, ?_, hac, hrep, ha2, rfl, rfl, rfl, rfl, fun z hzrs hza => hfr z hzrs hza, hlen⟩
  show check_for_new_arrivals s = _
  simp only [check_for_new_arrivals, get_new_pcb, harr, hmv, ok_bind]
  rfl

/-- Inner instruction loop of `schedule_fcfs`: the running process `r`
executes its remaining instructions in sequence, without ever being
preempted; arrivals polled between instructions and processes woken by
releases are appended to the ready queue.  The run ends either with the
cursor exhausted — `r` is moved to the terminated queue — or at the first
request that blocks, where the scheduler moves the already-enqueued `r` to
the waiting queue a second time and self-links its queue node. -/
theorem fcfs_inner_spec :
    ∀ (instrs : List instr_t) (s : SysState) (r : Pid) (rc : pcb_t)
      (rs ws ts : List Pid) (fuel : Nat),
      hget s.heap r = some rc →
      rc.state = .RUNNING →
      rc.next_instruction = instrs →
      repQ s.heap s.readyq rs →
      repQ s.heap s.waitingq ws →
      repQ s.heap s.terminatedq ts →
      (r :: (rs ++ ws ++ ts ++ s.arrivals)).Nodup →
      (∀ a ∈ s.arrivals, a < s.heap.length) →
      ws.length + 1 ≤ fuel →
      ∃ s2 extra,
        fcfs_inner r fuel instrs s = .ok s2
        ∧ repQ s2.heap s2.readyq (rs ++ extra)
        ∧ (∀ x ∈ extra, x ∈ ws ∨ x ∈ s.arrivals)
        ∧ r ∉ extra
        ∧ ((∃ ws2 rc2,
              repQ s2.heap s2.waitingq ws2
              ∧ (∀ x ∈ ws2, x ∈ ws)
              ∧ repQ s2.heap s2.terminatedq (ts ++ [r])
              ∧ hget s2.heap r = some rc2
              ∧ rc2.state = .TERMINATED
              ∧ rc2.next_instruction = [])
          ∨ (∃ ws2 rc2 j rest2,
              hget s2.heap r = some rc2
              ∧ rc2.state = .WAITING
              ∧ rc2.next = some r
              ∧ rc2.next_instruction = j :: rest2
              ∧ j.type = .REQ_OP
              ∧ s2.waitingq.last = some r
              ∧ (∀ x ∈ ws2, x ∈ ws)
              ∧ repQ (hset s2.heap r { rc2 with next := none }) s2.waitingq (ws2 ++ [r])
              ∧ repQ s2.heap s2.terminatedq ts)) := by
  intro instrs
  induction instrs with
  | nil =>
    intro s r rc rs ws ts fuel hrc hst hinstr hready hwait hterm hnd harrb hfuel
    obtain ⟨⟨hrrs, hrws, hrts, hrarr⟩, ⟨hwsrs, htsrs, htsws, harrrs, harrws, harrts⟩,
      hrsnd, hwsnd, htsnd, harrnd⟩ := package_facts hnd
    obtain ⟨h2, hmv, hrep, hfr, hr2, hcore, hstate, hlen⟩ :=
      move_proc_to_tq_rep hterm hrc hrts
    have hrun : fcfs_inner r fuel [] s
        = .ok (logEvent (.evTerminated rc.name)
            (setQ { s with heap := h2 } .termQ ⟨(ts ++ [r]).head?, some r⟩)) := by
      simp only [fcfs_inner, hread, hrc, ok_bind, hst]
      rw [if_pos (by decide), hmv]
    refine ⟨_, [], hrun, ?_, fun x hx => absurd hx (List.not_mem_nil x),
      List.not_mem_nil r, Or.inl ⟨ws, { rc with state := .TERMINATED, next := none },
        ?_, fun x hx => hx, hrep, hr2, rfl, ?_⟩⟩
    · rw [List.append_nil]
      refine ⟨?_, hready.2⟩
      show chain h2 s.readyq.first rs = true
      rw [chain_congr (h := s.heap) (fun z hz => hfr z
        (fun hmem => htsrs z hmem hz) (fun hc2 => hrrs (hc2 ▸ hz)))]
      exact hready.1
    · refine ⟨?_, hwait.2⟩
      show chain h2 s.waitingq.first ws = true
      rw [chain_congr (h := s.heap) (fun z hz => hfr z
        (fun hmem => htsws z hmem hz) (fun hc2 => hrws (hc2 ▸ hz)))]
      exact hwait.1
    · show rc.next_instruction = []
      exact hinstr
  | cons i rest ih =>
    intro s r rc rs ws ts fuel hrc hst hinstr hready hwait hterm hnd harrb hfuel
    obtain ⟨⟨hrrs, hrws, hrts, hrarr⟩, ⟨hwsrs, htsrs, htsws, harrrs, harrws, harrts⟩,
      hrsnd, hwsnd, htsnd, harrnd⟩ := package_facts hnd
    obtain ⟨sA, hrunA, htqA, htermA, harrA, hlenA, hcaseA⟩ :=
      execute_instr_step (i := i) hrc hst hready hwait hterm hnd hfuel
    rcases hcaseA with ⟨m, ws2A, rc2, hreadyA, hwaitA, hperm, hrA, hstA, hinstrA⟩ |
      ⟨hty, rc2, hrA, hstA, hinstrA, hreadyA, hwaitA⟩
    · -- the instruction completed; r is still running
      have hpermR : ((rs ++ m) ++ ws2A).Perm (rs ++ ws) := by
        rw [List.append_assoc]
        exact List.Perm.append_left rs hperm
      have hndA : (r :: ((rs ++ m) ++ ws2A ++ ts ++ sA.arrivals)).Nodup := by
        rw [harrA]
        exact nodup_package_perm hpermR hnd
      obtain ⟨⟨hrrsA, hrwsA, -, -⟩, ⟨hwsrsA, htsrsA, htswsA, harrrsA, harrwsA, harrtsA⟩,
        -, -, -, -⟩ := package_facts hndA
      have hmws : ∀ x ∈ m, x ∈ ws := fun x hx =>
        hperm.subset (List.mem_append_left ws2A hx)
      have hws2Aws : ∀ x ∈ ws2A, x ∈ ws := fun x hx =>
        hperm.subset (List.mem_append_right m hx)
      have hlenws2A : ws2A.length + 1 ≤ fuel := by
        have := hperm.length_eq
        simp only [List.length_append] at this
        omega
      -- poll the loader
      cases harrcase : sA.arrivals with
      | nil =>
        have hrunB := check_arrivals_nil harrcase
        have hndB : (r :: ((rs ++ m) ++ ws2A ++ ts ++ sA.arrivals)).Nodup := hndA
        -- advance the cursor and recurse
        have hrunStep : fcfs_inner r fuel (i :: rest) s
            = fcfs_inner r fuel rest
                { sA with heap := hset sA.heap r { rc2 with next_instruction := rest } } := by
          simp only [fcfs_inner, hrunA, ok_bind, hrunB, hread, hrA]
          rw [hstA, if_neg (by decide)]
        obtain ⟨s2, extra2, hrun2, hready2, hextra2, hrextra2, hcase2⟩ :=
          ih { sA with heap := hset sA.heap r { rc2 with next_instruction := rest } }
            r { rc2 with next_instruction := rest } (rs ++ m) ws2A ts fuel
            (hget_hset_self (hget_lt hrA) _)
            hstA
            rfl
            ⟨chain_hset hreadyA.1 hrrsA, hreadyA.2⟩
            ⟨chain_hset hwaitA.1 hrwsA, hwaitA.2⟩
            ⟨chain_hset htermA.1 hrts, htermA.2⟩
            (by
              show (r :: ((rs ++ m) ++ ws2A ++ ts ++ sA.arrivals)).Nodup
              exact hndB)
            (by
              show ∀ a ∈ sA.arrivals, a < (hset sA.heap r _).length
              rw [harrcase]
              intro a ha
              cases ha)
            hlenws2A
        refine ⟨s2, m ++ extra2, by rw [hrunStep]; exact hrun2, ?_, ?_, ?_, ?_⟩
        · rw [← List.append_assoc]
          exact hready2
        · intro x hx
          rcases List.mem_append.mp hx with h1 | h2
          · exact Or.inl (hmws x h1)
          · rcases hextra2 x h2 with h3 | h4
            · exact Or.inl (hws2Aws x h3)
            · rw [harrcase] at h4
              cases h4
        · intro hmem
          rcases List.mem_append.mp hmem with h1 | h2
          · exact hrws (hmws r h1)
          · exact hrextra2 h2
        · rcases hcase2 with ⟨ws3, rc3, hw3, hw3m, ht3, hr3, hst3, hi3⟩ |
            ⟨ws3, rc3, j, rest3, hr3, hst3, hnx3, hi3, hj3, hlast3, hw3m, hw3, ht3⟩
          · exact Or.inl ⟨ws3, rc3, hw3, fun x hx => hws2Aws x (hw3m x hx), ht3, hr3,
              hst3, hi3⟩
          · exact Or.inr ⟨ws3, rc3, j, rest3, hr3, hst3, hnx3, hi3, hj3, hlast3,
              fun x hx => hws2Aws x (hw3m x hx), hw3, ht3⟩
      | cons a arr =>
        have haA : a < sA.heap.length := by
          rw [hlenA]
          exact harrb a (by rw [← harrA, harrcase]; exact List.mem_cons_self a arr)
        have hamem : a ∈ sA.arrivals := by
          rw [harrcase]
          exact List.mem_cons_self a arr
        have hafreshA : a ∉ rs ++ m := harrrsA a hamem
        obtain ⟨sB, ac, hrunB, hacA, hreadyB, haB, hwqB, htqB, hresB, harrB, hfrB, hlenB⟩ :=
          check_arrivals_cons harrcase hreadyA haA hafreshA
        have haws2A : a ∉ ws2A := harrwsA a hamem
        have hats : a ∉ ts := harrtsA a hamem
        have haInS : a ∈ s.arrivals := by
          rw [← harrA]
          exact hamem
        have har : a ≠ r := fun hc2 => hrarr (hc2 ▸ haInS)
        have hrB : hget sB.heap r = some rc2 := by
          rw [hfrB r hrrsA (Ne.symm har)]
          exact hrA
        have hwaitB : repQ sB.heap sB.waitingq ws2A := by
          refine ⟨?_, by rw [hwqB]; exact hwaitA.2⟩
          rw [hwqB]
          show chain sB.heap sA.waitingq.first ws2A = true
          rw [chain_congr (h := sA.heap) (fun z hz => hfrB z
            (fun hmem => hwsrsA z hz hmem) (fun hc2 => haws2A (hc2 ▸ hz)))]
          exact hwaitA.1
        have htermB : repQ sB.heap sB.terminatedq ts := by
          refine ⟨?_, by rw [htqB]; exact htermA.2⟩
          rw [htqB]
          show chain sB.heap sA.terminatedq.first ts = true
          rw [chain_congr (h := sA.heap) (fun z hz => hfrB z
            (fun hmem => htsrsA z hz hmem) (fun hc2 => hats (hc2 ▸ hz)))]
          exact htermA.1
        have hndB : (r :: (((rs ++ m) ++ [a]) ++ ws2A ++ ts ++ sB.arrivals)).Nodup := by
          rw [harrB]
          refine nodup_package_arrival ?_
          rw [← harrcase]
          exact hndA
        have hrunStep : fcfs_inner r fuel (i :: rest) s
            = fcfs_inner r fuel rest
                { sB with heap := hset sB.heap r { rc2 with next_instruction := rest } } := by
          simp only [fcfs_inner, hrunA, ok_bind, hrunB, hread, hrB]
          rw [hstA, if_neg (by decide)]
        obtain ⟨⟨hrrsB, hrwsB, -, -⟩, ⟨hwsrsB, -, -, harrrsB, harrwsB, harrtsB⟩,
          -, -, -, -⟩ := package_facts hndB
        obtain ⟨s2, extra2, hrun2, hready2, hextra2, hrextra2, hcase2⟩ :=
          ih { sB with heap := hset sB.heap r { rc2 with next_instruction := rest } }
            r { rc2 with next_instruction := rest } ((rs ++ m) ++ [a]) ws2A ts fuel
            (hget_hset_self (hget_lt hrB) _)
            hstA
            rfl
            ⟨chain_hset hreadyB.1 hrrsB, hreadyB.2⟩
            ⟨chain_hset hwaitB.1 hrwsB, hwaitB.2⟩
            ⟨chain_hset htermB.1 hrts, htermB.2⟩
            hndB
            (by
              show ∀ b ∈ sB.arrivals, b < (hset sB.heap r _).length
              intro b hb
              rw [length_hset, hlenB, hlenA]
              refine harrb b ?_
              rw [← harrA, harrcase]
              rw [harrB] at hb
              exact List.mem_cons_of_mem a hb)
            hlenws2A
        refine ⟨s2, (m ++ [a]) ++ extra2, by rw [hrunStep]; exact hrun2, ?_, ?_, ?_, ?_⟩
        · have : rs ++ (m ++ [a]) ++ extra2 = ((rs ++ m) ++ [a]) ++ extra2 := by
            rw [List.append_assoc rs m [a]]
          rw [← List.append_assoc]
          rw [this]
          exact hready2
        · intro x hx
          rcases List.mem_append.mp hx with h1 | h2
          · rcases List.mem_append.mp h1 with h3 | h4
            · exact Or.inl (hmws x h3)
            · have hxa : x = a := List.mem_singleton.mp h4
              refine Or.inr ?_
              rw [hxa, ← harrA, harrcase]
              exact List.mem_cons_self a arr
          · rcases hextra2 x h2 with h3 | h4
            · exact Or.inl (hws2Aws x h3)
            · refine Or.inr ?_
              rw [← harrA, harrcase]
              rw [harrB] at h4
              exact List.mem_cons_of_mem a h4
        · intro hmem
          rcases List.mem_append.mp hmem with h1 | h2
          · rcases List.mem_append.mp h1 with h3 | h4
            · exact hrws (hmws r h3)
            · exact har (List.mem_singleton.mp h4).symm
          · exact hrextra2 h2
        · rcases hcase2 with ⟨ws3, rc3, hw3, hw3m, ht3, hr3, hst3, hi3⟩ |
            ⟨ws3, rc3, j, rest3, hr3, hst3, hnx3, hi3, hj3, hlast3, hw3m, hw3, ht3⟩
          · exact Or.inl ⟨ws3, rc3, hw3, fun x hx => hws2Aws x (hw3m x hx), ht3, hr3,
              hst3, hi3⟩
          · exact Or.inr ⟨ws3, rc3, j, rest3, hr3, hst3, hnx3, hi3, hj3, hlast3,
              fun x hx => hws2Aws x (hw3m x hx), hw3, ht3⟩
    · -- the request blocked: r is WAITING and on the waiting queue
      cases harrcase : sA.arrivals with
      | nil =>
        obtain ⟨s2, hrunW, hheapW, hwqW, hrqW, htqW, hresW, harrW, hevW, hrepW⟩ :=
          @move_proc_to_wq_self sA r i.resource_name rc2 ws hwaitA hrA
        have hrunStep : fcfs_inner r fuel (i :: rest) s = .ok s2 := by
          simp only [fcfs_inner, hrunA, ok_bind, check_arrivals_nil harrcase, hread, hrA]
          rw [hstA, if_pos rfl]
          exact hrunW
        have hr2 : hget s2.heap r
            = some { rc2 with state := .WAITING, next := some r } := by
          rw [hheapW]
          exact hget_hset_self (hget_lt hrA) _
        refine ⟨s2, [], hrunStep, ?_, fun x hx => absurd hx (List.not_mem_nil x),
          List.not_mem_nil r, Or.inr ⟨ws, { rc2 with state := .WAITING, next := some r },
            i, rest, hr2, rfl, rfl,
            (by show rc2.next_instruction = i :: rest; rw [hinstrA, hinstr]),
            hty, (by rw [hwqW]), fun x hx => hx, ?_, ?_⟩⟩
        · rw [List.append_nil]
          refine ⟨?_, by rw [hrqW]; exact hreadyA.2⟩
          rw [hrqW, hheapW]
          show chain _ sA.readyq.first rs = true
          exact chain_hset hreadyA.1 hrrs
        · rw [hheapW, hset_hset, hwqW]
          exact hrepW
        · refine ⟨?_, by rw [htqW]; exact htermA.2⟩
          rw [htqW, hheapW]
          show chain _ sA.terminatedq.first ts = true
          exact chain_hset htermA.1 hrts
      | cons a arr =>
        have haA : a < sA.heap.length := by
          rw [hlenA]
          exact harrb a (by rw [← harrA, harrcase]; exact List.mem_cons_self a arr)
        have haInArr : a ∈ s.arrivals := by
          rw [← harrA, harrcase]
          exact List.mem_cons_self a arr
        have hafresh : a ∉ rs := harrrs a haInArr
        obtain ⟨sB, ac, hrunB, hacA, hreadyB, haB, hwqB, htqB, hresB, harrB, hfrB, hlenB⟩ :=
          check_arrivals_cons harrcase hreadyA haA hafresh
        have har : a ≠ r := fun hc2 => hrarr (hc2 ▸ haInArr)
        have haws : a ∉ ws := harrws a haInArr
        have hats : a ∉ ts := harrts a haInArr
        have hrB : hget sB.heap r = some rc2 := by
          rw [hfrB r hrrs (Ne.symm har)]
          exact hrA
        have hwaitB : repQ sB.heap sB.waitingq (ws ++ [r]) := by
          refine ⟨?_, by rw [hwqB]; exact hwaitA.2⟩
          rw [hwqB]
          show chain sB.heap sA.waitingq.first (ws ++ [r]) = true
          rw [chain_congr (h := sA.heap) (fun z hz => hfrB z
            (fun hmem => by
              rcases List.mem_append.mp hz with h1 | h2
              · exact hwsrs z h1 hmem
              · exact hrrs ((List.mem_singleton.mp h2) ▸ hmem))
            (fun hc2 => by
              rcases List.mem_append.mp hz with h1 | h2
              · exact haws (hc2 ▸ h1)
              · exact har (hc2.symm.trans (List.mem_singleton.mp h2))))]
          exact hwaitA.1
        have htermB : repQ sB.heap sB.terminatedq ts := by
          refine ⟨?_, by rw [htqB]; exact htermA.2⟩
          rw [htqB]
          show chain sB.heap sA.terminatedq.first ts = true
          rw [chain_congr (h := sA.heap) (fun z hz => hfrB z
            (fun hmem => htsrs z hz hmem) (fun hc2 => hats (hc2 ▸ hz)))]
          exact htermA.1
        obtain ⟨s2, hrunW, hheapW, hwqW, hrqW, htqW, hresW, harrW, hevW, hrepW⟩ :=
          @move_proc_to_wq_self sB r i.resource_name rc2 ws hwaitB hrB
        have hrunStep : fcfs_inner r fuel (i :: rest) s = .ok s2 := by
          simp only [fcfs_inner, hrunA, ok_bind, hrunB, hread, hrB]
          rw [hstA, if_pos rfl]
          exact hrunW
        have hr2 : hget s2.heap r
            = some { rc2 with state := .WAITING, next := some r } := by
          rw [hheapW]
          exact hget_hset_self (hget_lt hrB) _
        refine ⟨s2, [a], hrunStep, ?_, ?_, ?_, Or.inr
          ⟨ws, { rc2 with state := .WAITING, next := some r },
            i, rest, hr2, rfl, rfl,
            (by show rc2.next_instruction = i :: rest; rw [hinstrA, hinstr]),
            hty, (by rw [hwqW]), fun x hx => hx, ?_, ?_⟩⟩
        · refine ⟨?_, by rw [hrqW]; exact hreadyB.2⟩
          rw [hrqW, hheapW]
          show chain _ sB.readyq.first (rs ++ [a]) = true
          refine chain_hset hreadyB.1 ?_
          intro hmem
          rcases List.mem_append.mp hmem with h1 | h2
          · exact hrrs h1
          · exact har (List.mem_singleton.mp h2).symm
        · intro x hx
          have hxa : x = a := List.mem_singleton.mp hx
          exact Or.inr (hxa ▸ haInArr)
        · intro hmem
          exact har (List.mem_singleton.mp hmem).symm
        · rw [hheapW, hset_hset, hwqW]
          exact hrepW
        · refine ⟨?_, by rw [htqW]; exact htermB.2⟩
          rw [htqW, hheapW]
          show chain _ sB.terminatedq.first ts = true
          refine chain_hset htermB.1 ?_
          intro hmem
          exact hrts hmem

/-- C8 (amended): one iteration of the FCFS outer loop.  The process run
is exactly the head `r` of the Ready queue (FIFO dequeue); it is set
RUNNING and executes its instructions in sequence, never preempted: the
processes appended to Ready during its run are only woken waiting
processes and polled arrivals, never `r` itself, and `r` keeps the CPU
until it either exhausts its instruction cursor — it is then moved to the
Terminated queue with an empty cursor — or first blocks on a Request;
in the blocking case the scheduler moves the already-enqueued `r` to the
Waiting queue a second time, self-linking its node (the waiting queue
again represents its old content followed by `r` only after clearing that
link). -/
theorem fcfs_iteration {F : Nat} {s : SysState} {r : Pid} {rc : pcb_t}
    {rtail ws ts : List Pid}
    (hrc : hget s.heap r = some rc)
    (hready : repQ s.heap s.readyq (r :: rtail))
    (hwait : repQ s.heap s.waitingq ws)
    (hterm : repQ s.heap s.terminatedq ts)
    (hnd : (r :: (rtail ++ ws ++ ts ++ s.arrivals)).Nodup)
    (harrb : ∀ a ∈ s.arrivals, a < s.heap.length)
    (hfuel : ws.length + 1 ≤ F) :
    ∃ sMid extra,
      fcfs_loop (F + 1) s = fcfs_loop F sMid
      ∧ repQ sMid.heap sMid.readyq (rtail ++ extra)
      ∧ (∀ x ∈ extra, (x ∈ ws ∨ x ∈ s.arrivals) ∧ x ≠ r)
      ∧ ((∃ ws2 rc2,
            repQ sMid.heap sMid.waitingq ws2
            ∧ (∀ x ∈ ws2, x ∈ ws)
            ∧ repQ sMid.heap sMid.terminatedq (ts ++ [r])
            ∧ hget sMid.heap r = some rc2
            ∧ rc2.state = .TERMINATED
            ∧ rc2.next_instruction = [])
        ∨ (∃ ws2 rc2 j rest2,
            hget sMid.heap r = some rc2
            ∧ rc2.state = .WAITING
            ∧ rc2.next = some r
            ∧ rc2.next_instruction = j :: rest2
            ∧ j.type = .REQ_OP
            ∧ sMid.waitingq.last = some r
            ∧ (∀ x ∈ ws2, x ∈ ws)
            ∧ repQ (hset sMid.heap r { rc2 with next := none }) sMid.waitingq (ws2 ++ [r])
            ∧ repQ sMid.heap sMid.terminatedq ts)) := by
  obtain ⟨⟨hrrt, hrws, hrts, hrarr⟩, -, -⟩ := package_facts hnd
  have hfirst : s.readyq.first = some r := by rw [chain_head hready.1]; rfl
  obtain ⟨pc, hpc, hdqrun, hrepq2, hfrq, hpafter⟩ := dequeue_pcb_rep hready
  have hpcrc : pc = rc := by
    rw [hrc] at hpc
    exact (Option.some.inj hpc).symm
  subst hpcrc
  have hplen : r < s.heap.length := hget_lt hpc
  have hsetrun : setState r .RUNNING { s with heap := hset s.heap r { pc with next := none }, readyq := ⟨rtail.head?, if rtail.isEmpty then none else s.readyq.last⟩ } = .ok { s with heap := hset s.heap r { pc with state := .RUNNING, next := none }, readyq := ⟨rtail.head?, if rtail.isEmpty then none else s.readyq.last⟩ } := by
    rw [setState_rep .RUNNING (show hget (hset s.heap r { pc with next := none }) r
      = some { pc with next := none } from hget_hset_self hplen _)]
    show Except.ok _ = _
    rw [hset_hset]
  have hrA2 : hget (hset s.heap r { pc with state := .RUNNING, next := none }) r
      = some { pc with state := .RUNNING, next := none } := hget_hset_self hplen _
  have hrunStep : fcfs_loop (F + 1) s = (fcfs_inner r F pc.next_instruction { s with heap := hset s.heap r { pc with state := .RUNNING, next := none }, readyq := ⟨rtail.head?, if rtail.isEmpty then none else s.readyq.last⟩ }) >>= fun s => fcfs_loop F s := by
    show fcfs_loop (F + 1) s = _
    simp only [fcfs_loop, hfirst, hdqrun, ok_bind, Option.getD_some, hsetrun, hread, hrA2]
  have hreadyS : repQ (hset s.heap r { pc with state := .RUNNING, next := none })
      (⟨rtail.head?, if rtail.isEmpty then none else s.readyq.last⟩ : pcb_queue_t)
      rtail := by
    refine ⟨?_, hrepq2.2⟩
    rw [chain_congr (h := hset s.heap r { pc with next := none })
      (fun z hz => by
        have hzr : z ≠ r := fun hc2 => hrrt (by rw [← hc2]; exact hz)
        rw [hget_hset_ne (Ne.symm hzr) _, hget_hset_ne (Ne.symm hzr) _])]
    exact hrepq2.1
  obtain ⟨s3, extra, hrun3, hready3, hextra3, hrextra3, hcase3⟩ :=
    fcfs_inner_spec pc.next_instruction { s with heap := hset s.heap r { pc with state := .RUNNING, next := none }, readyq := ⟨rtail.head?, if rtail.isEmpty then none else s.readyq.last⟩ }
      r { pc with state := .RUNNING, next := none } rtail ws ts F
      hrA2 rfl rfl
      hreadyS
      ⟨chain_hset hwait.1 hrws, hwait.2⟩
      ⟨chain_hset hterm.1 hrts, hterm.2⟩
      (by
        show (r :: (rtail ++ ws ++ ts ++ s.arrivals)).Nodup
        exact hnd)
      (by
        show ∀ a ∈ s.arrivals, a < (hset s.heap r _).length
        rw [length_hset]
        exact harrb)
      hfuel
  refine ⟨s3, extra, ?_, hready3, ?_, hcase3⟩
  · rw [hrunStep, hrun3, ok_bind]
  · intro x hx
    refine ⟨?_, fun hc2 => hrextra3 (hc2 ▸ hx)⟩
    have := hextra3 x hx
    exact this

/-- A self-linked queue node makes every bounded traversal fail: the queue
represents no finite pid list. -/
theorem walk_self_loop {h : List pcb_t} {p : Pid}
    (hnext : (hget h p).map pcb_t.next = some (some p)) :
    ∀ fuel, walk h fuel (some p) = none := by
  cases hg : hget h p with
  | none => rw [hg] at hnext; exact absurd hnext (by simp)
  | some pc =>
    have hx : pc.next = some p := by
      rw [hg, Option.map_some'] at hnext
      exact Option.some.inj hnext
    intro fuel
    induction fuel with
    | zero => rfl
    | succ f ihf =>
      have hstep : walk h (f + 1) (some p) = (walk h f pc.next).map (p :: ·) := by
        show (match hget h p with
          | none => none
          | some pc => (walk h f pc.next).map (p :: ·)) = _
        rw [hg]
      rw [hstep, hx, ihf]
      rfl

/-- C8 counterexample: in the FCFS run of a single process whose request
blocks (resource catalog empty), the scheduler moves the blocked process to
the waiting queue twice — `request_resource` enqueues it and then
`schedule_fcfs` enqueues it again — logging two waiting events and
self-linking the node, after which the waiting queue represents no finite
pid list (every bounded traversal fails). -/
theorem fcfs_blocked_double_move :
    ∃ s', schedule_processes .FCFS 1 3 exDeadFcfs = .ok s'
      ∧ s'.events = [.evWaiting "P1" "R", .evWaiting "P1" "R"]
      ∧ s'.waitingq = ⟨some 0, some 0⟩
      ∧ (hget s'.heap 0).map pcb_t.next = some (some 0)
      ∧ (∀ fuel, walk s'.heap fuel s'.waitingq.first = none) := by
  refine ⟨_, rfl, rfl, rfl, rfl, ?_⟩
  intro fuel
  show walk _ fuel (some 0) = none
  refine walk_self_loop ?_ fuel
  rfl

/-- C8 witness at a concrete input: the ready head A (pid 0) runs its
release instruction and terminates; arrival B is appended to Ready. -/
theorem fcfs_iteration_witness :
    ∃ sMid extra,
      fcfs_loop 2 exFcfsWit = fcfs_loop 1 sMid
      ∧ repQ sMid.heap sMid.readyq ([] ++ extra)
      ∧ (∀ x ∈ extra, (x ∈ ([] : List Pid) ∨ x ∈ exFcfsWit.arrivals) ∧ x ≠ 0)
      ∧ ((∃ ws2 rc2,
            repQ sMid.heap sMid.waitingq ws2
            ∧ (∀ x ∈ ws2, x ∈ ([] : List Pid))
            ∧ repQ sMid.heap sMid.terminatedq ([] ++ [0])
            ∧ hget sMid.heap 0 = some rc2
            ∧ rc2.state = .TERMINATED
            ∧ rc2.next_instruction = [])
        ∨ (∃ ws2 rc2 j rest2,
            hget sMid.heap 0 = some rc2
            ∧ rc2.state = .WAITING
            ∧ rc2.next = some 0
            ∧ rc2.next_instruction = j :: rest2
            ∧ j.type = .REQ_OP
            ∧ sMid.waitingq.last = some 0
            ∧ (∀ x ∈ ws2, x ∈ ([] : List Pid))
            ∧ repQ (hset sMid.heap 0 { rc2 with next := none }) sMid.waitingq (ws2 ++ [0])
            ∧ repQ sMid.heap sMid.terminatedq [])) :=
  fcfs_iteration rfl ⟨rfl, rfl⟩ ⟨rfl, rfl⟩ ⟨rfl, rfl⟩ (by decide)
    (by decide) (by decide)

end ProcMgr
